import Mathlib

/-!
The xv6 buffer cache of `kernel/bio.c`, with one lock per bucket.

A shallow embedding of `binit`, `bget`, `bread`, `bwrite`, `brelse`, `bpin`
and `bunpin`, and the properties of the cache proved on it.

Representation.  A slot is named by its index in `bcache.buf`.  The circular
doubly-linked list of bucket `i` (sentinel `bcache.head[i]`, links `next` and
`prev`) is held as the sequence of slots met from `head[i].next` along
`next`; walking `prev` from `head[i].prev` reads the same sequence backwards.
Unlinking a slot joins its two neighbours, which deletes it from the sequence
that holds it; the four assignments that insert a slot behind the sentinel put
it in front of the sequence.
-/

namespace Bio

/-- The constant `NBUCKETS` of bio.c. -/
def NBUCKETS : Nat := 13

/-- Modelled from the spec: `struct buf` of kernel/buf.h and the sleep lock of
kernel/sleeplock.h inside it, the slot of the data model: device, block
number, validity flag, content lock (`locked`, and `pid` of its holder),
reference count and payload.  The links `prev` and `next` are held in the
bucket sequences of `Bcache`.  `refcnt` is a C `uint`; `dev` and `blockno` are
`uint` arguments that are only stored and compared. -/
structure Buf where
  valid : Nat
  dev : Nat
  blockno : Nat
  locked : Bool
  pid : Nat
  refcnt : Nat
  data : List Nat
  deriving DecidableEq

/-- The global `bcache`: the slots `bcache.buf[b]` and, for every bucket `i`,
the recency list hanging from `bcache.head[i]` (first element is
`head[i].next`, last element is `head[i].prev`).  The spin locks
`bcache.lock[i]` are free between calls and are followed inside a call by the
events it emits. -/
structure Bcache where
  buf : Nat → Buf
  head : Nat → List Nat

/-- What a call does to the locks and to the device, in program order. -/
inductive Event where
  | acquire (i : Nat)
  | release (i : Nat)
  | acquiresleep (b : Nat)
  | releasesleep (b : Nat)
  | disk_rw (b : Nat) (write : Bool)
  deriving DecidableEq

/-- The four `panic` sites a call of bio.c can end in: the three of bio.c and
the one inside `acquire`. -/
inductive Panic where
  | acquire
  | bget
  | bwrite
  | brelse
  deriving DecidableEq

/-- How a call ends: it returns a slot, returns nothing (`void`), is suspended
inside `acquiresleep` on a slot whose content lock is taken, panics, or the
bucket scan of the model ran out of fuel. -/
inductive Outcome where
  | ret (b : Nat)
  | unit
  | sleep (b : Nat)
  | panic (m : Panic)
  | fuel
  deriving DecidableEq

/-- The end of a call: outcome, the cache as the call leaves it, and the lock
and device events it emitted. -/
structure Result where
  out : Outcome
  st : Bcache
  tr : List Event

/-- Assignment to the fields of slot `b`. -/
def Bcache.setBuf (s : Bcache) (b : Nat) (x : Buf) : Bcache :=
  { s with buf := fun j => if j = b then x else s.buf j }

/-- Assignment of the whole list of bucket `i`. -/
def Bcache.setHead (s : Bcache) (i : Nat) (l : List Nat) : Bcache :=
  { s with head := fun j => if j = i then l else s.head j }

/-- The statements `b->next->prev = b->prev; b->prev->next = b->next;`: the
neighbours of `b` are joined, so `b` leaves the list that holds it. -/
def unlink (s : Bcache) (b : Nat) : Bcache :=
  { s with head := fun i => (s.head i).erase b }

/-- The four statements that link `b` between `head[h]` and `head[h].next`. -/
def pushHead (s : Bcache) (h b : Nat) : Bcache :=
  s.setHead h (b :: s.head h)

/-- The statement `b->refcnt++` on a C `uint` of 32 bits: the increment of
4294967295 wraps to 0. -/
def incr (r : Nat) : Nat :=
  (r + 1) % 4294967296

/-- The statement `b->refcnt--` on a C `uint` of 32 bits: the decrement of 0
wraps to 4294967295. -/
def decr (r : Nat) : Nat :=
  if r = 0 then 4294967295 else r - 1

/-- Modelled from the spec: `acquire` of kernel/spinlock.c, the structural
lock of a bucket.  `held` lists the bucket locks the caller holds.  A caller
that asks for a lock it already holds cannot be served; xv6 stops there with
`panic("acquire")`. -/
def acquire (held : List Nat) (i : Nat) : Option (List Nat) :=
  if i ∈ held then none else some (i :: held)

/-- Modelled from the spec: `holdingsleep` of kernel/sleeplock.c, the query
whether the content lock of slot `b` is held by the calling process `p`. -/
def holdingsleep (p b : Nat) (s : Bcache) : Bool :=
  (s.buf b).locked && decide ((s.buf b).pid = p)

/-- Modelled from the spec: `releasesleep` of kernel/sleeplock.c. -/
def releasesleep (b : Nat) (s : Bcache) : Bcache :=
  s.setBuf b { s.buf b with locked := false, pid := 0 }

/-- Modelled from the spec: `acquiresleep(&b->lock); return b;` for process
`p`.  The blocking acquire takes a free content lock at once; on a taken one
the caller is suspended, and the call has not returned. -/
def lockAndReturn (p b : Nat) (s : Bcache) (tr : List Event) : Result :=
  if (s.buf b).locked then
    ⟨Outcome.sleep b, s, tr ++ [Event.acquiresleep b]⟩
  else
    ⟨Outcome.ret b, s.setBuf b { s.buf b with locked := true, pid := p },
      tr ++ [Event.acquiresleep b]⟩

/-- The test `b->dev == dev && b->blockno == blockno` of the first loop. -/
def isHit (dev blockno : Nat) (s : Bcache) (b : Nat) : Bool :=
  decide ((s.buf b).dev = dev) && decide ((s.buf b).blockno = blockno)

/-- The test `b->refcnt == 0` of the two recycling loops. -/
def isFree (s : Bcache) (b : Nat) : Bool :=
  decide ((s.buf b).refcnt = 0)

/-- The four assignments that hand a slot to a new block. -/
def recycle (dev blockno : Nat) (x : Buf) : Buf :=
  { x with dev := dev, blockno := blockno, valid := 0, refcnt := 1 }

/-- The `do ... while(new_bucket != hash_value)` loop of `bget` (lines 95 to
122), entered with the lock of `hash_value` held.  One unit of fuel is one
round of the loop. -/
def bgetSteal (p dev blockno : Nat) (s : Bcache) (hash_value : Nat) :
    Nat → Nat → List Event → Result
  | 0, _, tr => ⟨Outcome.fuel, s, tr⟩
  | fuel + 1, new_bucket, tr =>
    let nb := (new_bucket + 1) % NBUCKETS
    match acquire [hash_value] nb with
    | none => ⟨Outcome.panic Panic.acquire, s, tr ++ [Event.acquire nb]⟩
    | some _ =>
      match (s.head nb).reverse.find? (isFree s) with
      | some b =>
        let s1 := s.setBuf b (recycle dev blockno (s.buf b))
        let s2 := unlink s1 b
        let s3 := pushHead s2 hash_value b
        lockAndReturn p b s3
          (tr ++ [Event.acquire nb, Event.release nb, Event.release hash_value])
      | none =>
        if nb ≠ hash_value then
          bgetSteal p dev blockno s hash_value fuel nb
            (tr ++ [Event.acquire nb, Event.release nb])
        else
          ⟨Outcome.panic Panic.bget, s, tr ++ [Event.acquire nb, Event.release nb]⟩

/-- The function `bget(dev, blockno)` called by process `p`. -/
def bget (p dev blockno : Nat) (s : Bcache) : Result :=
  let hash_value := blockno % NBUCKETS
  match (s.head hash_value).find? (isHit dev blockno s) with
  | some b =>
    let s1 := s.setBuf b { s.buf b with refcnt := incr (s.buf b).refcnt }
    lockAndReturn p b s1 [Event.acquire hash_value, Event.release hash_value]
  | none =>
    match (s.head hash_value).reverse.find? (isFree s) with
    | some b =>
      let s1 := s.setBuf b (recycle dev blockno (s.buf b))
      lockAndReturn p b s1 [Event.acquire hash_value, Event.release hash_value]
    | none =>
      bgetSteal p dev blockno s hash_value NBUCKETS hash_value
        [Event.acquire hash_value]

/-- The function `bread(dev, blockno)` called by process `p`.  The parameter
`disk` stands for the device behind `virtio_disk_rw(b, 0)`: `disk d n` is the
content it delivers for block `n` of device `d`. -/
def bread (disk : Nat → Nat → List Nat) (p dev blockno : Nat) (s : Bcache) : Result :=
  let r := bget p dev blockno s
  match r.out with
  | Outcome.ret b =>
    if (r.st.buf b).valid = 0 then
      ⟨Outcome.ret b,
        r.st.setBuf b { r.st.buf b with
          data := disk (r.st.buf b).dev (r.st.buf b).blockno, valid := 1 },
        r.tr ++ [Event.disk_rw b false]⟩
    else r
  | _ => r

/-- The function `bwrite(b)` called by process `p`; the device write
`virtio_disk_rw(b, 1)` is the event it emits. -/
def bwrite (p b : Nat) (s : Bcache) : Result :=
  if !holdingsleep p b s then ⟨Outcome.panic Panic.bwrite, s, []⟩
  else ⟨Outcome.unit, s, [Event.disk_rw b true]⟩

/-- The function `brelse(b)` called by process `p`. -/
def brelse (p b : Nat) (s : Bcache) : Result :=
  let hash_value := (s.buf b).blockno % NBUCKETS
  if !holdingsleep p b s then ⟨Outcome.panic Panic.brelse, s, []⟩
  else
    let s1 := releasesleep b s
    let s2 := s1.setBuf b { s1.buf b with refcnt := decr (s1.buf b).refcnt }
    let s3 := if (s2.buf b).refcnt = 0 then pushHead (unlink s2 b) hash_value b else s2
    ⟨Outcome.unit, s3,
      [Event.releasesleep b, Event.acquire hash_value, Event.release hash_value]⟩

/-- The function `bpin(b)`. -/
def bpin (b : Nat) (s : Bcache) : Result :=
  ⟨Outcome.unit, s.setBuf b { s.buf b with refcnt := incr (s.buf b).refcnt },
    [Event.acquire ((s.buf b).blockno % NBUCKETS),
      Event.release ((s.buf b).blockno % NBUCKETS)]⟩

/-- The function `bunpin(b)`. -/
def bunpin (b : Nat) (s : Bcache) : Result :=
  ⟨Outcome.unit, s.setBuf b { s.buf b with refcnt := decr (s.buf b).refcnt },
    [Event.acquire ((s.buf b).blockno % NBUCKETS),
      Event.release ((s.buf b).blockno % NBUCKETS)]⟩

/-- The zero-filled static `bcache` after the first loop of `binit`: every
sentinel is linked to itself, so every bucket list is empty, and every field of
every slot is 0. -/
def bzero : Bcache :=
  { buf := fun _ => ⟨0, 0, 0, false, 0, 0, []⟩, head := fun _ => [] }

/-- The function `binit()`: the second loop links the slots
`0, 1, ..., nbuf - 1` one after the other behind `head[0]`.  `nbuf` stands for
the constant `NBUF` of kernel/param.h. -/
def binit (nbuf : Nat) : Bcache :=
  (List.range nbuf).foldl (fun s b => pushHead s 0 b) bzero

/-- The cache after a steal of slot `b` into bucket `h` (lines 101 to 113). -/
def stolen (dev blockno : Nat) (s : Bcache) (h b : Nat) : Bcache :=
  pushHead (unlink (s.setBuf b (recycle dev blockno (s.buf b))) b) h b

/-- Every slot is linked at one place of at most one bucket list: the shape
that one `prev` and one `next` field per slot allow. -/
def Linked (s : Bcache) : Prop :=
  (∀ i, (s.head i).Nodup) ∧ ∀ i j b, b ∈ s.head i → b ∈ s.head j → i = j

/-- The bucket that `brelse`, `bpin` and `bunpin` lock for a slot,
`b->blockno % NBUCKETS`, is the bucket whose list holds the slot. -/
def Home (s : Bcache) : Prop :=
  ∀ i b, b ∈ s.head i → (s.buf b).blockno % NBUCKETS = i

/-- Slot `b` is the slot that the first loop of `bget` stops at when asked for
the block that `b` carries. -/
def First (s : Bcache) (b : Nat) : Prop :=
  (s.head ((s.buf b).blockno % NBUCKETS)).find?
    (isHit (s.buf b).dev (s.buf b).blockno s) = some b

/-- The shape of the cache that every call keeps: slots linked once, each in
the bucket of its block number, and every slot whose content lock is taken is
the one a lookup of its block finds. -/
def Inv (s : Bcache) : Prop :=
  Linked s ∧ Home s ∧ ∀ b, (s.buf b).locked = true → First s b

/-- A call of one of the functions of bio.c; `p` is the calling process. -/
inductive Call where
  | bget (p dev blockno : Nat)
  | bread (p dev blockno : Nat)
  | bwrite (p b : Nat)
  | brelse (p b : Nat)
  | bpin (b : Nat)
  | bunpin (b : Nat)
  deriving DecidableEq

/-- The call carried out on a cache. -/
def exec (disk : Nat → Nat → List Nat) : Call → Bcache → Result
  | Call.bget p dev blockno, s => bget p dev blockno s
  | Call.bread p dev blockno, s => bread disk p dev blockno s
  | Call.bwrite p b, s => bwrite p b s
  | Call.brelse p b, s => brelse p b s
  | Call.bpin b, s => bpin b s
  | Call.bunpin b, s => bunpin b s

/-- Whether the call came back to its caller (no panic, not suspended). -/
def Result.returned (r : Result) : Bool :=
  match r.out with
  | Outcome.ret _ => true
  | Outcome.unit => true
  | _ => false

/-- A sequence of calls carried out one after the other, each one returning
before the next starts. -/
def run (disk : Nat → Nat → List Nat) : List Call → Bcache → Option Bcache
  | [], s => some s
  | c :: cs, s =>
    if (exec disk c s).returned then run disk cs (exec disk c s).st else none

/-- The caches that calls of bio.c can build from `binit`. -/
def Reachable (disk : Nat → Nat → List Nat) (nbuf : Nat) (s : Bcache) : Prop :=
  ∃ t, run disk t (binit nbuf) = some s

/-- The slot that `bget(dev, blockno)` of process `p` hands over to a new block: the slot it
delivers when its first loop found no cached copy. -/
def bgetVictim (p dev blockno : Nat) (s : Bcache) : Option Nat :=
  match (s.head (blockno % NBUCKETS)).find? (isHit dev blockno s) with
  | some _ => none
  | none =>
    match (bget p dev blockno s).out with
    | Outcome.ret b => some b
    | Outcome.sleep b => some b
    | _ => none

/-- The eviction victim of a call, if it has one. -/
def victim : Call → Bcache → Option Nat
  | Call.bget p dev blockno, s => bgetVictim p dev blockno s
  | Call.bread p dev blockno, s => bgetVictim p dev blockno s
  | _, _ => none

/-- A sequence of returning calls none of which evicts slot `b`. -/
def runSparing (disk : Nat → Nat → List Nat) (b : Nat) : List Call → Bcache → Option Bcache
  | [], s => some s
  | c :: cs, s =>
    if victim c s = some b then none
    else if (exec disk c s).returned then runSparing disk b cs (exec disk c s).st
    else none

/-- Whether the call is a `bread`. -/
def Call.isBread : Call → Bool
  | Call.bread _ _ _ => true
  | _ => false

/-- One more outstanding reference on slot `b`. -/
def bump (n : Nat → Nat) (b : Nat) : Nat → Nat :=
  fun j => if j = b then n j + 1 else n j

/-- One outstanding reference on slot `b` given back. -/
def drop (n : Nat → Nat) (b : Nat) : Nat → Nat :=
  fun j => if j = b then n j - 1 else n j

/-- A step of a run in which callers can be suspended: a call of bio.c, or the
end of the wait of process `p` on slot `b` (`viaBread` tells whether its
`bget` was called by `bread`). -/
inductive Step where
  | call (c : Call)
  | wake (viaBread : Bool) (p b : Nat)

/-- Modelled from the spec: the end of a wait in `acquiresleep`
(kernel/sleeplock.c).  Process `p`, suspended on slot `b` inside `bget`, takes
the content lock once it is free and `bget` returns `b`; when `bget` was called
by `bread`, `bread` goes on from there and reads the block if the slot is not
valid.  The result is `none` while the content lock is still taken. -/
def wake (disk : Nat → Nat → List Nat) (viaBread : Bool) (p b : Nat) (s : Bcache) :
    Option Bcache :=
  if (s.buf b).locked then none
  else
    let s1 := s.setBuf b { s.buf b with locked := true, pid := p }
    if viaBread && decide ((s1.buf b).valid = 0) then
      some (s1.setBuf b { s1.buf b with
        data := disk (s1.buf b).dev (s1.buf b).blockno, valid := 1 })
    else some s1

/-- The cache in a run with suspended callers, together with the count `n b`
of callers that have acquired slot `b` (a `bget` or `bread` that returned it,
or that is suspended in `acquiresleep` on it) or pinned it (`bpin`) and have
not yet released (`brelse`) or unpinned (`bunpin`) it, and the number
`w viaBread p b` of calls of process `p` that are suspended on slot `b`. -/
structure Counted where
  st : Bcache
  n : Nat → Nat
  w : Bool → Nat → Nat → Nat

/-- One more call of process `p` suspended on slot `b`. -/
def bumpWait (w : Bool → Nat → Nat → Nat) (v : Bool) (p b : Nat) : Bool → Nat → Nat → Nat :=
  fun v2 p2 b2 => if v2 = v ∧ p2 = p ∧ b2 = b then w v2 p2 b2 + 1 else w v2 p2 b2

/-- One suspended call of process `p` on slot `b` has gone on. -/
def dropWait (w : Bool → Nat → Nat → Nat) (v : Bool) (p b : Nat) : Bool → Nat → Nat → Nat :=
  fun v2 p2 b2 => if v2 = v ∧ p2 = p ∧ b2 = b then w v2 p2 b2 - 1 else w v2 p2 b2

/-- One step of a counted run.  A call that returns a slot, or is suspended on
it, holds one more reference to it; `bpin` adds one; `brelse` and `bunpin` give
one back and are not taken on a slot that has no outstanding acquisition or
pin; a wait ends only for a call that is suspended, and only when the content
lock is free.  The step is `none` where the run stops: at a panic and at a
step that is not taken. -/
def stepCounted (disk : Nat → Nat → List Nat) : Step → Counted → Option Counted
  | Step.wake v p b, k =>
    if k.w v p b = 0 then none
    else
      match wake disk v p b k.st with
      | some s2 => some ⟨s2, k.n, dropWait k.w v p b⟩
      | none => none
  | Step.call c, k =>
    match c, (exec disk c k.st).out with
    | Call.bget _ _ _, Outcome.ret b => some ⟨(exec disk c k.st).st, bump k.n b, k.w⟩
    | Call.bget p _ _, Outcome.sleep b =>
      some ⟨(exec disk c k.st).st, bump k.n b, bumpWait k.w false p b⟩
    | Call.bread _ _ _, Outcome.ret b => some ⟨(exec disk c k.st).st, bump k.n b, k.w⟩
    | Call.bread p _ _, Outcome.sleep b =>
      some ⟨(exec disk c k.st).st, bump k.n b, bumpWait k.w true p b⟩
    | Call.bpin b, Outcome.unit => some ⟨(exec disk c k.st).st, bump k.n b, k.w⟩
    | Call.brelse _ b, Outcome.unit =>
      if k.n b = 0 then none else some ⟨(exec disk c k.st).st, drop k.n b, k.w⟩
    | Call.bunpin b, Outcome.unit =>
      if k.n b = 0 then none else some ⟨(exec disk c k.st).st, drop k.n b, k.w⟩
    | Call.bwrite _ _, Outcome.unit => some ⟨(exec disk c k.st).st, k.n, k.w⟩
    | _, _ => none

/-- A sequence of steps, one after the other, cut off where a step is `none`. -/
def runCounted (disk : Nat → Nat → List Nat) : List Step → Counted → Option Counted
  | [], k => some k
  | e :: es, k =>
    match stepCounted disk e k with
    | some k2 => runCounted disk es k2
    | none => none

/-- A sequence of returning calls that keeps to the pin protocol: `bunpin(b)`
is called only while a `bpin(b)` is outstanding.  `pins b` counts the
outstanding pins of slot `b`. -/
def runPinned (disk : Nat → Nat → List Nat) :
    List Call → Bcache → (Nat → Nat) → Option (Bcache × (Nat → Nat))
  | [], s, pins => some (s, pins)
  | c :: cs, s, pins =>
    if (exec disk c s).returned then
      match c with
      | Call.bpin b => runPinned disk cs (exec disk c s).st (bump pins b)
      | Call.bunpin b =>
        if pins b = 0 then none else runPinned disk cs (exec disk c s).st (drop pins b)
      | _ => runPinned disk cs (exec disk c s).st pins
    else none

/-- Every pin and the holder of the content lock account for one reference,
counted as the C `uint` counts them. -/
def Ref (s : Bcache) (pins : Nat → Nat) : Prop :=
  ∀ b, (s.buf b).refcnt =
    (pins b + (if (s.buf b).locked = true then 1 else 0)) % 4294967296

/-- The cache together with a clock for the order of releases: `stamp b` is
the time of the last `brelse` of slot `b`, and 0 for a slot never released. -/
structure Lru where
  st : Bcache
  clock : Nat
  stamp : Nat → Nat

/-- One round of a client of the cache: process `p` acquires block
`(key.1, key.2)` with `bread` and releases the slot it got with `brelse`. -/
def useBlock (disk : Nat → Nat → List Nat) (p : Nat) (key : Nat × Nat) (L : Lru) :
    Option Lru :=
  match (bread disk p key.1 key.2 L.st).out with
  | Outcome.ret b =>
    match (brelse p b (bread disk p key.1 key.2 L.st).st).out with
    | Outcome.unit =>
      some ⟨(brelse p b (bread disk p key.1 key.2 L.st).st).st, L.clock + 1,
        fun j => if j = b then L.clock + 1 else L.stamp j⟩
    | _ => none
  | _ => none

/-- Blocks acquired one at a time, each released before the next. -/
def useBlocks (disk : Nat → Nat → List Nat) (p : Nat) : List (Nat × Nat) → Lru → Option Lru
  | [], L => some L
  | k :: ks, L =>
    match useBlock disk p k L with
    | some L2 => useBlocks disk p ks L2
    | none => none

/-- No slot is referenced and no content lock is taken. -/
def AllFree (s : Bcache) : Prop :=
  ∀ b, (s.buf b).refcnt = 0 ∧ (s.buf b).locked = false

/-- Every bucket list runs from the slot released last to the slot released
first, and no stamp is ahead of the clock. -/
def Recency (L : Lru) : Prop :=
  (∀ i, (L.st.head i).Pairwise (fun x y => L.stamp y ≤ L.stamp x)) ∧
  ∀ b, L.stamp b ≤ L.clock

/-- The bucket locks the caller holds after event `e` when it held `held`
before: `acquire` adds the lock (and does not come back on a lock that is
already held), `release` gives it back, the other events leave the bucket locks
alone. -/
def lockStep (e : Event) (held : List Nat) : List Nat :=
  match e with
  | Event.acquire i =>
    match acquire held i with
    | some held2 => held2
    | none => held
  | Event.release i => held.erase i
  | _ => held

/-- Every event of a trace together with the bucket locks held when it
starts. -/
def heldBefore : List Event → List Nat → List (Event × List Nat)
  | [], _ => []
  | e :: tr, held => (e, held) :: heldBefore tr (lockStep e held)

/-- The bucket locks held at the end of a trace. -/
def locksAfter : List Event → List Nat → List Nat
  | [], held => held
  | e :: tr, held => locksAfter tr (lockStep e held)

/-- The buckets whose lock a trace asks for, in program order. -/
def acquired : List Event → List Nat
  | [] => []
  | Event.acquire i :: tr => i :: acquired tr
  | _ :: tr => acquired tr

/-- The lock events of `n` rounds of the steal scan that find no unreferenced
slot, the first round on the bucket after `nb`. -/
def scanEvents : Nat → Nat → List Event
  | 0, _ => []
  | n + 1, nb =>
    Event.acquire ((nb + 1) % NBUCKETS) :: Event.release ((nb + 1) % NBUCKETS) ::
      scanEvents n ((nb + 1) % NBUCKETS)

/-- The slots `0, ..., nbuf - 1` of `bcache.buf` are the slots that hang in
the bucket lists. -/
def Threaded (nbuf : Nat) (s : Bcache) : Prop :=
  ∀ b, b < nbuf ↔ ∃ i, b ∈ s.head i

/-- A sequence of returning calls that keeps to the protocol of the cache:
`bpin(b)` is called only on a referenced slot, `bunpin(b)` only while a
`bpin(b)` is outstanding (`pins b` counts the outstanding pins of slot `b`);
`brelse` and `bwrite` return to the holder of the content lock only. -/
def runProtocol (disk : Nat → Nat → List Nat) :
    List Call → Bcache → (Nat → Nat) → Option (Bcache × (Nat → Nat))
  | [], s, pins => some (s, pins)
  | c :: cs, s, pins =>
    if (exec disk c s).returned then
      match c with
      | Call.bpin b =>
        if (s.buf b).refcnt = 0 then none
        else runProtocol disk cs (exec disk c s).st (bump pins b)
      | Call.bunpin b =>
        if pins b = 0 then none else runProtocol disk cs (exec disk c s).st (drop pins b)
      | _ => runProtocol disk cs (exec disk c s).st pins
    else none

/-- A live slot: referenced, or holding the content of its block. -/
def Live (s : Bcache) (b : Nat) : Prop :=
  0 < (s.buf b).refcnt ∨ (s.buf b).valid = 1

/-- A node of the bucket lists: the sentinel `bcache.head[i]` or the slot
`bcache.buf[b]`.  Both are a `struct buf`. -/
inductive Node where
  | head (i : Nat)
  | slot (b : Nat)
  deriving DecidableEq

/-- The global `bcache` with its link fields: for every node the fields of
`struct buf` that bio.c reads and writes, and the pointers `next` and `prev`. -/
structure Mem where
  fld : Node → Buf
  next : Node → Node
  prev : Node → Node

/-- Assignment to the fields of node `n`. -/
def Mem.setFld (m : Mem) (n : Node) (x : Buf) : Mem :=
  { m with fld := fun j => if j = n then x else m.fld j }

/-- The assignment `n->next = v`. -/
def Mem.setNext (m : Mem) (n v : Node) : Mem :=
  { m with next := fun j => if j = n then v else m.next j }

/-- The assignment `n->prev = v`. -/
def Mem.setPrev (m : Mem) (n v : Node) : Mem :=
  { m with prev := fun j => if j = n then v else m.prev j }

/-- The statements `b->next->prev = b->prev; b->prev->next = b->next;`, one
after the other. -/
def Mem.unlink (m : Mem) (b : Node) : Mem :=
  let m1 := m.setPrev (m.next b) (m.prev b)
  m1.setNext (m1.prev b) (m1.next b)

/-- The statements `b->next = bcache.head[h].next; b->prev = &bcache.head[h];
bcache.head[h].next->prev = b; bcache.head[h].next = b;`, one after the
other. -/
def Mem.pushHead (m : Mem) (h : Nat) (b : Node) : Mem :=
  let m1 := m.setNext b (m.next (Node.head h))
  let m2 := m1.setPrev b (Node.head h)
  let m3 := m2.setPrev (m2.next (Node.head h)) b
  m3.setNext (Node.head h) b

/-- A loop `for(b = cur; b != stop; b = step b)` of bio.c that leaves at the
first node that passes `test`.  `fuel` bounds the number of nodes looked at:
the result is `none` when it is used up, `some none` when the loop ends at
`stop`, and `some (some n)` when the loop leaves at node `n`. -/
def scan (step : Node → Node) (test : Node → Bool) (stop : Node) :
    Nat → Node → Option (Option Node)
  | 0, _ => none
  | fuel + 1, cur =>
    if cur = stop then some none
    else if test cur then some (some cur)
    else scan step test stop fuel (step cur)

/-- How a call on the linked cache ends; the slot delivered is a node. -/
inductive POutcome where
  | ret (n : Node)
  | unit
  | sleep (n : Node)
  | panic (m : Panic)
  | fuel
  deriving DecidableEq

/-- The end of a call on the linked cache: outcome and memory. -/
structure PResult where
  out : POutcome
  st : Mem

/-- Modelled from the spec: `acquiresleep(&b->lock); return b;` for process
`p`, on node `n`. -/
def Mem.lockAndReturn (p : Nat) (n : Node) (m : Mem) : PResult :=
  if (m.fld n).locked then ⟨POutcome.sleep n, m⟩
  else ⟨POutcome.ret n, m.setFld n { m.fld n with locked := true, pid := p }⟩

/-- The test `b->dev == dev && b->blockno == blockno` on node `n`. -/
def Mem.isHit (dev blockno : Nat) (m : Mem) (n : Node) : Bool :=
  decide ((m.fld n).dev = dev) && decide ((m.fld n).blockno = blockno)

/-- The test `b->refcnt == 0` on node `n`. -/
def Mem.isFree (m : Mem) (n : Node) : Bool :=
  decide ((m.fld n).refcnt = 0)

/-- The `do ... while(new_bucket != hash_value)` loop of `bget` (lines 95 to
122) on the linked cache, entered with the lock of `hash_value` held.  `fuel`
bounds each walk along `prev`; one unit of `rounds` is one round of the
loop. -/
def Mem.bgetSteal (fuel p dev blockno : Nat) (m : Mem) (hash_value : Nat) :
    Nat → Nat → PResult
  | 0, _ => ⟨POutcome.fuel, m⟩
  | rounds + 1, new_bucket =>
    let nb := (new_bucket + 1) % NBUCKETS
    match acquire [hash_value] nb with
    | none => ⟨POutcome.panic Panic.acquire, m⟩
    | some _ =>
      match scan m.prev (m.isFree) (Node.head nb) fuel (m.prev (Node.head nb)) with
      | none => ⟨POutcome.fuel, m⟩
      | some (some b) =>
        let m1 := m.setFld b (recycle dev blockno (m.fld b))
        let m2 := m1.unlink b
        let m3 := m2.pushHead hash_value b
        Mem.lockAndReturn p b m3
      | some none =>
        if nb ≠ hash_value then Mem.bgetSteal fuel p dev blockno m hash_value rounds nb
        else ⟨POutcome.panic Panic.bget, m⟩

/-- The function `bget(dev, blockno)` called by process `p`, on the linked
cache: the loops walk along `next` and `prev`. -/
def Mem.bget (fuel p dev blockno : Nat) (m : Mem) : PResult :=
  let hash_value := blockno % NBUCKETS
  match scan m.next (m.isHit dev blockno) (Node.head hash_value) fuel
      (m.next (Node.head hash_value)) with
  | none => ⟨POutcome.fuel, m⟩
  | some (some b) =>
    let m1 := m.setFld b { m.fld b with refcnt := incr (m.fld b).refcnt }
    Mem.lockAndReturn p b m1
  | some none =>
    match scan m.prev (m.isFree) (Node.head hash_value) fuel
        (m.prev (Node.head hash_value)) with
    | none => ⟨POutcome.fuel, m⟩
    | some (some b) =>
      let m1 := m.setFld b (recycle dev blockno (m.fld b))
      Mem.lockAndReturn p b m1
    | some none => Mem.bgetSteal fuel p dev blockno m hash_value NBUCKETS hash_value

/-- The function `bread(dev, blockno)` on the linked cache. -/
def Mem.bread (fuel : Nat) (disk : Nat → Nat → List Nat) (p dev blockno : Nat) (m : Mem) :
    PResult :=
  let r := Mem.bget fuel p dev blockno m
  match r.out with
  | POutcome.ret b =>
    if (r.st.fld b).valid = 0 then
      ⟨POutcome.ret b,
        r.st.setFld b { r.st.fld b with
          data := disk (r.st.fld b).dev (r.st.fld b).blockno, valid := 1 }⟩
    else r
  | _ => r

/-- The function `bwrite(b)` on the linked cache, for the slot `b`. -/
def Mem.bwrite (p b : Nat) (m : Mem) : PResult :=
  if !((m.fld (Node.slot b)).locked && decide ((m.fld (Node.slot b)).pid = p)) then
    ⟨POutcome.panic Panic.bwrite, m⟩
  else ⟨POutcome.unit, m⟩

/-- The function `brelse(b)` on the linked cache, for the slot `b`. -/
def Mem.brelse (p b : Nat) (m : Mem) : PResult :=
  let hash_value := (m.fld (Node.slot b)).blockno % NBUCKETS
  if !((m.fld (Node.slot b)).locked && decide ((m.fld (Node.slot b)).pid = p)) then
    ⟨POutcome.panic Panic.brelse, m⟩
  else
    let m1 := m.setFld (Node.slot b) { m.fld (Node.slot b) with locked := false, pid := 0 }
    let m2 := m1.setFld (Node.slot b)
      { m1.fld (Node.slot b) with refcnt := decr (m1.fld (Node.slot b)).refcnt }
    let m3 := if (m2.fld (Node.slot b)).refcnt = 0 then
      (m2.unlink (Node.slot b)).pushHead hash_value (Node.slot b) else m2
    ⟨POutcome.unit, m3⟩

/-- The function `bpin(b)` on the linked cache, for the slot `b`. -/
def Mem.bpin (b : Nat) (m : Mem) : PResult :=
  ⟨POutcome.unit, m.setFld (Node.slot b)
    { m.fld (Node.slot b) with refcnt := incr (m.fld (Node.slot b)).refcnt }⟩

/-- The function `bunpin(b)` on the linked cache, for the slot `b`. -/
def Mem.bunpin (b : Nat) (m : Mem) : PResult :=
  ⟨POutcome.unit, m.setFld (Node.slot b)
    { m.fld (Node.slot b) with refcnt := decr (m.fld (Node.slot b)).refcnt }⟩

/-- The first loop of `binit()` on the linked cache: every sentinel is linked
to itself. -/
def Mem.binitHeads (m0 : Mem) : Mem :=
  (List.range NBUCKETS).foldl
    (fun m i => (m.setPrev (Node.head i) (Node.head i)).setNext (Node.head i) (Node.head i))
    m0

/-- The function `binit()` on the linked cache.  `m0` is the static `bcache`
before the call.  After the first loop, the second one links the slots
`0, ..., nbuf - 1` one after the other behind `head[0]`. -/
def Mem.binit (nbuf : Nat) (m0 : Mem) : Mem :=
  (List.range nbuf).foldl (fun m b => m.pushHead 0 (Node.slot b)) (Mem.binitHeads m0)

/-- The call carried out on the linked cache; the slot arguments of the calls
stand for pointers to slots. -/
def Mem.exec (fuel : Nat) (disk : Nat → Nat → List Nat) : Call → Mem → PResult
  | Call.bget p dev blockno, m => Mem.bget fuel p dev blockno m
  | Call.bread p dev blockno, m => Mem.bread fuel disk p dev blockno m
  | Call.bwrite p b, m => Mem.bwrite p b m
  | Call.brelse p b, m => Mem.brelse p b m
  | Call.bpin b, m => Mem.bpin b m
  | Call.bunpin b, m => Mem.bunpin b m

/-- The function `f` leads from every node of the sequence to the node after
it, and from the last node to `e`. -/
def Steps (f : Node → Node) (e : Node) : List Node → Prop
  | [] => True
  | a :: r => f a = r.headD e ∧ Steps f e r

/-- The list of bucket `i` is the ring of the sentinel `head[i]` and the slots
`l`: `next` leads from the sentinel through the slots of `l` in order and back
to the sentinel, and `prev` leads through the same ring the other way. -/
def Ring (m : Mem) (i : Nat) (l : List Nat) : Prop :=
  Steps m.next (Node.head i) (Node.head i :: l.map Node.slot) ∧
  Steps m.prev (Node.head i) (Node.head i :: l.reverse.map Node.slot)

/-- The nodes of the static arrays: `NBUCKETS` sentinels and `nbuf` slots. -/
def IsNode (nbuf : Nat) : Node → Prop
  | Node.head i => i < NBUCKETS
  | Node.slot b => b < nbuf

/-- The partition of the slots: every bucket list is a ring, every one of the
`nbuf` slots is on the ring of exactly one bucket, exactly once, nothing else
is on a ring, and `next` and `prev` undo each other on every node. -/
def WellFormed (nbuf : Nat) (m : Mem) : Prop :=
  (∃ l : Nat → List Nat,
    (∀ i, i < NBUCKETS → Ring m i (l i)) ∧
    (∀ b, b < nbuf → ∃ i, i < NBUCKETS ∧ (l i).count b = 1 ∧
      ∀ j, j < NBUCKETS → j ≠ i → b ∉ l j) ∧
    (∀ i b, i < NBUCKETS → b ∈ l i → b < nbuf)) ∧
  ∀ n, IsNode nbuf n →
    IsNode nbuf (m.next n) ∧ IsNode nbuf (m.prev n) ∧
    m.prev (m.next n) = n ∧ m.next (m.prev n) = n

/-- The linked cache `m` carries the bucket lists of `s`: same fields of the
slots, and every list of `s` is the ring of its bucket in `m`. -/
def Rep (m : Mem) (s : Bcache) : Prop :=
  (∀ b, m.fld (Node.slot b) = s.buf b) ∧ ∀ i, i < NBUCKETS → Ring m i (s.head i)

/-- The outcome of a call on the bucket sequences, as an outcome on the linked
cache. -/
def Outcome.toP : Outcome → POutcome
  | Outcome.ret b => POutcome.ret (Node.slot b)
  | Outcome.unit => POutcome.unit
  | Outcome.sleep b => POutcome.sleep (Node.slot b)
  | Outcome.panic x => POutcome.panic x
  | Outcome.fuel => POutcome.fuel

theorem find_some_split {l : List Nat} {q : Nat → Bool} {b : Nat}
    (h : l.find? q = some b) :
    q b = true ∧ ∃ l1 l2, l = l1 ++ b :: l2 ∧ ∀ x ∈ l1, q x = false := by
  rcases List.find?_eq_some.1 h with ⟨hb, l1, l2, hl, hn⟩
  exact ⟨hb, l1, l2, hl, fun x hx => by simpa using hn x hx⟩

theorem find_none_all {l : List Nat} {q : Nat → Bool} :
    l.find? q = none ↔ ∀ x ∈ l, q x = false := by
  simp [List.find?_eq_none]

theorem find_of_mem {l : List Nat} {q : Nat → Bool} {x : Nat}
    (hx : x ∈ l) (hq : q x = true) : ∃ b, l.find? q = some b := by
  cases hf : l.find? q with
  | some b => exact ⟨b, rfl⟩
  | none =>
    have := find_none_all.1 hf x hx
    simp [hq] at this

theorem rfind_some_split {l : List Nat} {q : Nat → Bool} {b : Nat}
    (h : l.reverse.find? q = some b) :
    q b = true ∧ ∃ l1 l2, l = l1 ++ b :: l2 ∧ ∀ x ∈ l2, q x = false := by
  rcases find_some_split h with ⟨hb, r1, r2, hl, hn⟩
  refine ⟨hb, r2.reverse, r1.reverse, ?_, fun x hx => hn x (by simpa using hx)⟩
  have := congrArg List.reverse hl
  simpa using this

theorem rfind_none_all {l : List Nat} {q : Nat → Bool} :
    l.reverse.find? q = none ↔ ∀ x ∈ l, q x = false := by
  simp [List.find?_eq_none]

theorem rfind_of_mem {l : List Nat} {q : Nat → Bool} {x : Nat}
    (hx : x ∈ l) (hq : q x = true) : ∃ b, l.reverse.find? q = some b :=
  find_of_mem (by simpa using hx) hq

theorem bget_of_hit {p dev blockno : Nat} {s : Bcache} {b : Nat}
    (h : (s.head (blockno % NBUCKETS)).find? (isHit dev blockno s) = some b) :
    bget p dev blockno s =
      lockAndReturn p b (s.setBuf b { s.buf b with refcnt := incr (s.buf b).refcnt })
        [Event.acquire (blockno % NBUCKETS), Event.release (blockno % NBUCKETS)] := by
  simp [bget, h]

theorem bget_of_local {p dev blockno : Nat} {s : Bcache} {b : Nat}
    (h : (s.head (blockno % NBUCKETS)).find? (isHit dev blockno s) = none)
    (hf : (s.head (blockno % NBUCKETS)).reverse.find? (isFree s) = some b) :
    bget p dev blockno s =
      lockAndReturn p b (s.setBuf b (recycle dev blockno (s.buf b)))
        [Event.acquire (blockno % NBUCKETS), Event.release (blockno % NBUCKETS)] := by
  simp [bget, h, hf]

theorem bget_of_full {p dev blockno : Nat} {s : Bcache}
    (h : (s.head (blockno % NBUCKETS)).find? (isHit dev blockno s) = none)
    (hf : (s.head (blockno % NBUCKETS)).reverse.find? (isFree s) = none) :
    bget p dev blockno s =
      bgetSteal p dev blockno s (blockno % NBUCKETS) NBUCKETS (blockno % NBUCKETS)
        [Event.acquire (blockno % NBUCKETS)] := by
  simp [bget, h, hf]

theorem lockAndReturn_out (p b : Nat) (s : Bcache) (tr : List Event) :
    (lockAndReturn p b s tr).out =
      if (s.buf b).locked then Outcome.sleep b else Outcome.ret b := by
  unfold lockAndReturn; split <;> rfl

theorem lockAndReturn_head (p b : Nat) (s : Bcache) (tr : List Event) :
    (lockAndReturn p b s tr).st.head = s.head := by
  unfold lockAndReturn; split <;> rfl

theorem lockAndReturn_buf (p b : Nat) (s : Bcache) (tr : List Event) (j : Nat) :
    (lockAndReturn p b s tr).st.buf j =
      if j = b ∧ (s.buf b).locked = false then { s.buf b with locked := true, pid := p }
      else s.buf j := by
  unfold lockAndReturn
  by_cases hl : (s.buf b).locked = true
  · simp [hl]
  · by_cases hj : j = b
    · subst hj; simp [hl, Bcache.setBuf]
    · simp [hl, hj, Bcache.setBuf]

theorem lockAndReturn_tr (p b : Nat) (s : Bcache) (tr : List Event) :
    (lockAndReturn p b s tr).tr = tr ++ [Event.acquiresleep b] := by
  unfold lockAndReturn; split <;> rfl


/-- C2, amended (hit path).  When the list of the home bucket `blockno % NBUCKETS` holds
a slot that carries `(dev, blockno)`, `bget` delivers the first such slot from
`head.next` (at once when its content lock is free, after the wait in
`acquiresleep` otherwise), adds one to its reference count (a C `uint`:
exactly one more for every count below 4294967295, which wraps to 0) and
changes nothing else: every slot keeps its device, block number, validity flag
and payload,
every other slot is untouched, every list is as before, and the only events are
the acquire and release of the home bucket lock and the `acquiresleep`, so no
device transfer is issued. -/
theorem bget_hit_path (p dev blockno : Nat) (s : Bcache) (c : Nat)
    (hc : c ∈ s.head (blockno % NBUCKETS))
    (hm : (s.buf c).dev = dev ∧ (s.buf c).blockno = blockno) :
    ∃ b l1 l2,
      s.head (blockno % NBUCKETS) = l1 ++ b :: l2 ∧
      (∀ x ∈ l1, ¬ ((s.buf x).dev = dev ∧ (s.buf x).blockno = blockno)) ∧
      ((s.buf b).dev = dev ∧ (s.buf b).blockno = blockno) ∧
      (bget p dev blockno s).out =
        (if (s.buf b).locked then Outcome.sleep b else Outcome.ret b) ∧
      ((bget p dev blockno s).st.buf b).refcnt = ((s.buf b).refcnt + 1) % 4294967296 ∧
      ((s.buf b).refcnt < 4294967295 →
        ((bget p dev blockno s).st.buf b).refcnt = (s.buf b).refcnt + 1) ∧
      (∀ j, ((bget p dev blockno s).st.buf j).dev = (s.buf j).dev ∧
        ((bget p dev blockno s).st.buf j).blockno = (s.buf j).blockno ∧
        ((bget p dev blockno s).st.buf j).valid = (s.buf j).valid ∧
        ((bget p dev blockno s).st.buf j).data = (s.buf j).data) ∧
      (∀ j, j ≠ b → (bget p dev blockno s).st.buf j = s.buf j) ∧
      (bget p dev blockno s).st.head = s.head ∧
      (bget p dev blockno s).tr =
        [Event.acquire (blockno % NBUCKETS), Event.release (blockno % NBUCKETS),
          Event.acquiresleep b] ∧
      (∀ x w, Event.disk_rw x w ∉ (bget p dev blockno s).tr) := by
  obtain ⟨b, hb⟩ := find_of_mem (q := isHit dev blockno s) hc (by simp [isHit, hm])
  rcases find_some_split hb with ⟨hq, l1, l2, hl, hn⟩
  have hr : ((bget p dev blockno s).st.buf b).refcnt = ((s.buf b).refcnt + 1) % 4294967296 := by
    rw [bget_of_hit hb, lockAndReturn_buf]; split <;> simp [Bcache.setBuf, incr]
  refine ⟨b, l1, l2, hl, ?_, ?_, ?_, hr, ?_, ?_, ?_, ?_, ?_, ?_⟩
  · intro x hx; simpa [isHit] using hn x hx
  · simpa [isHit] using hq
  · rw [bget_of_hit hb, lockAndReturn_out]; simp [Bcache.setBuf]
  · intro hlt; rw [hr]; omega
  · intro j
    rw [bget_of_hit hb, lockAndReturn_buf]
    by_cases hj : j = b
    · subst hj; split <;> simp [Bcache.setBuf]
    · simp [hj, Bcache.setBuf]
  · intro j hj
    rw [bget_of_hit hb, lockAndReturn_buf]; simp [hj, Bcache.setBuf]
  · rw [bget_of_hit hb, lockAndReturn_head]; rfl
  · rw [bget_of_hit hb, lockAndReturn_tr]; rfl
  · intro x w
    rw [bget_of_hit hb, lockAndReturn_tr]; simp

/-- C3 (local eviction).  When no slot of the home bucket carries
`(dev, blockno)` and the home bucket holds an unreferenced slot, `bget`
delivers the unreferenced slot nearest to the LRU end of that list (no
unreferenced slot follows it), with device and block number set to the request,
validity 0 and reference count 1; its payload, every other slot and every list
are unchanged, so the slot keeps its place. -/
theorem bget_local_eviction (p dev blockno : Nat) (s : Bcache) (c : Nat)
    (hmiss : ∀ x ∈ s.head (blockno % NBUCKETS),
      ¬ ((s.buf x).dev = dev ∧ (s.buf x).blockno = blockno))
    (hc : c ∈ s.head (blockno % NBUCKETS)) (hfree : (s.buf c).refcnt = 0) :
    ∃ b l1 l2,
      s.head (blockno % NBUCKETS) = l1 ++ b :: l2 ∧
      (s.buf b).refcnt = 0 ∧ (∀ x ∈ l2, (s.buf x).refcnt ≠ 0) ∧
      (bget p dev blockno s).out =
        (if (s.buf b).locked then Outcome.sleep b else Outcome.ret b) ∧
      ((bget p dev blockno s).st.buf b).dev = dev ∧
      ((bget p dev blockno s).st.buf b).blockno = blockno ∧
      ((bget p dev blockno s).st.buf b).valid = 0 ∧
      ((bget p dev blockno s).st.buf b).refcnt = 1 ∧
      ((bget p dev blockno s).st.buf b).data = (s.buf b).data ∧
      (∀ j, j ≠ b → (bget p dev blockno s).st.buf j = s.buf j) ∧
      (bget p dev blockno s).st.head = s.head := by
  have hnone : (s.head (blockno % NBUCKETS)).find? (isHit dev blockno s) = none :=
    find_none_all.2 (fun x hx => by simpa [isHit] using hmiss x hx)
  obtain ⟨b, hb⟩ := rfind_of_mem (q := isFree s) hc (by simp [isFree, hfree])
  rcases rfind_some_split hb with ⟨hq, l1, l2, hl, hn⟩
  have hbget := bget_of_local (p := p) hnone hb
  refine ⟨b, l1, l2, hl, by simpa [isFree] using hq,
    fun x hx => by simpa [isFree] using hn x hx, ?_, ?_, ?_, ?_, ?_, ?_, ?_, ?_⟩
  · rw [hbget, lockAndReturn_out]; simp [Bcache.setBuf, recycle]
  · rw [hbget, lockAndReturn_buf]; split <;> simp [Bcache.setBuf, recycle]
  · rw [hbget, lockAndReturn_buf]; split <;> simp [Bcache.setBuf, recycle]
  · rw [hbget, lockAndReturn_buf]; split <;> simp [Bcache.setBuf, recycle]
  · rw [hbget, lockAndReturn_buf]; split <;> simp [Bcache.setBuf, recycle]
  · rw [hbget, lockAndReturn_buf]; split <;> simp [Bcache.setBuf, recycle]
  · intro j hj
    rw [hbget, lockAndReturn_buf]; simp [hj, Bcache.setBuf]
  · rw [hbget, lockAndReturn_head]; rfl


theorem bgetSteal_found (p dev blockno : Nat) (s : Bcache) (h b : Nat) :
    ∀ (d fuel nb : Nat) (tr : List Event), d < fuel →
      (∀ i, i < d → (s.head ((nb + 1 + i) % NBUCKETS)).reverse.find? (isFree s) = none ∧
        (nb + 1 + i) % NBUCKETS ≠ h) →
      (s.head ((nb + 1 + d) % NBUCKETS)).reverse.find? (isFree s) = some b →
      (nb + 1 + d) % NBUCKETS ≠ h →
      ∃ tr2, bgetSteal p dev blockno s h fuel nb tr =
        lockAndReturn p b (stolen dev blockno s h b) tr2 := by
  intro d
  induction d with
  | zero =>
    intro fuel nb tr hf _ hb hne
    obtain ⟨f, rfl⟩ : ∃ f, fuel = f + 1 := ⟨fuel - 1, by omega⟩
    simp only [Nat.add_zero] at hb hne
    refine ⟨tr ++ [Event.acquire ((nb + 1) % NBUCKETS),
      Event.release ((nb + 1) % NBUCKETS), Event.release h], ?_⟩
    simp [bgetSteal, acquire, hne, hb, stolen]
  | succ d ih =>
    intro fuel nb tr hf hskip hb hne
    obtain ⟨f, rfl⟩ : ∃ f, fuel = f + 1 := ⟨fuel - 1, by omega⟩
    have h0 := hskip 0 (by omega)
    simp only [Nat.add_zero] at h0
    have hstep : ∀ i, ((nb + 1) % NBUCKETS + 1 + i) % NBUCKETS
        = (nb + 1 + (i + 1)) % NBUCKETS := by
      intro i; simp only [NBUCKETS]; omega
    obtain ⟨tr2, h2⟩ := ih f ((nb + 1) % NBUCKETS)
      (tr ++ [Event.acquire ((nb + 1) % NBUCKETS), Event.release ((nb + 1) % NBUCKETS)])
      (by omega)
      (fun i hi => by rw [hstep]; exact hskip (i + 1) (by omega))
      (by rw [hstep]; exact hb) (by rw [hstep]; exact hne)
    refine ⟨tr2, ?_⟩
    rw [← h2]
    simp [bgetSteal, acquire, h0.1, h0.2]

theorem bgetSteal_none (p dev blockno : Nat) (s : Bcache) (h : Nat) :
    ∀ (d fuel nb : Nat) (tr : List Event), d < fuel →
      (∀ i, i < d → (s.head ((nb + 1 + i) % NBUCKETS)).reverse.find? (isFree s) = none ∧
        (nb + 1 + i) % NBUCKETS ≠ h) →
      (nb + 1 + d) % NBUCKETS = h →
      ∃ tr2, bgetSteal p dev blockno s h fuel nb tr =
        ⟨Outcome.panic Panic.acquire, s, tr2⟩ := by
  intro d
  induction d with
  | zero =>
    intro fuel nb tr hf _ he
    obtain ⟨f, rfl⟩ : ∃ f, fuel = f + 1 := ⟨fuel - 1, by omega⟩
    simp only [Nat.add_zero] at he
    exact ⟨tr ++ [Event.acquire ((nb + 1) % NBUCKETS)], by simp [bgetSteal, acquire, he]⟩
  | succ d ih =>
    intro fuel nb tr hf hskip he
    obtain ⟨f, rfl⟩ : ∃ f, fuel = f + 1 := ⟨fuel - 1, by omega⟩
    have h0 := hskip 0 (by omega)
    simp only [Nat.add_zero] at h0
    have hstep : ∀ i, ((nb + 1) % NBUCKETS + 1 + i) % NBUCKETS
        = (nb + 1 + (i + 1)) % NBUCKETS := by
      intro i; simp only [NBUCKETS]; omega
    obtain ⟨tr2, h2⟩ := ih f ((nb + 1) % NBUCKETS)
      (tr ++ [Event.acquire ((nb + 1) % NBUCKETS), Event.release ((nb + 1) % NBUCKETS)])
      (by omega)
      (fun i hi => by rw [hstep]; exact hskip (i + 1) (by omega))
      (by rw [hstep]; exact he)
    refine ⟨tr2, ?_⟩
    rw [← h2]
    simp [bgetSteal, acquire, h0.1, h0.2]


/-- The four ways a call of `bget` ends, each with the cache it leaves. -/
theorem bget_cases (p dev blockno : Nat) (s : Bcache) :
    (∃ b, (s.head (blockno % NBUCKETS)).find? (isHit dev blockno s) = some b ∧
      bget p dev blockno s =
        lockAndReturn p b (s.setBuf b { s.buf b with refcnt := incr (s.buf b).refcnt })
          [Event.acquire (blockno % NBUCKETS), Event.release (blockno % NBUCKETS)]) ∨
    ((s.head (blockno % NBUCKETS)).find? (isHit dev blockno s) = none ∧
      ∃ b, (s.head (blockno % NBUCKETS)).reverse.find? (isFree s) = some b ∧
      bget p dev blockno s =
        lockAndReturn p b (s.setBuf b (recycle dev blockno (s.buf b)))
          [Event.acquire (blockno % NBUCKETS), Event.release (blockno % NBUCKETS)]) ∨
    ((s.head (blockno % NBUCKETS)).find? (isHit dev blockno s) = none ∧
      (s.head (blockno % NBUCKETS)).reverse.find? (isFree s) = none ∧
      ∃ k b, 1 ≤ k ∧ k ≤ 12 ∧
        (∀ j, 1 ≤ j → j < k →
          (s.head ((blockno % NBUCKETS + j) % NBUCKETS)).reverse.find? (isFree s) = none) ∧
        (s.head ((blockno % NBUCKETS + k) % NBUCKETS)).reverse.find? (isFree s) = some b ∧
        ∃ tr2, bget p dev blockno s =
          lockAndReturn p b (stolen dev blockno s (blockno % NBUCKETS) b) tr2) ∨
    ((s.head (blockno % NBUCKETS)).find? (isHit dev blockno s) = none ∧
      (∀ i, i < NBUCKETS → (s.head i).reverse.find? (isFree s) = none) ∧
      ∃ tr2, bget p dev blockno s = ⟨Outcome.panic Panic.acquire, s, tr2⟩) := by
  have hlt : blockno % NBUCKETS < 13 := Nat.mod_lt _ (by decide)
  cases hh : (s.head (blockno % NBUCKETS)).find? (isHit dev blockno s) with
  | some b => exact Or.inl ⟨b, rfl, bget_of_hit hh⟩
  | none =>
    right
    cases hf : (s.head (blockno % NBUCKETS)).reverse.find? (isFree s) with
    | some b => exact Or.inl ⟨rfl, b, rfl, bget_of_local hh hf⟩
    | none =>
      right
      rw [bget_of_full hh hf]
      generalize blockno % NBUCKETS = h at hlt hh hf ⊢
      by_cases hex : ∃ k, 1 ≤ k ∧ k ≤ 12 ∧
          ((s.head ((h + k) % NBUCKETS)).reverse.find? (isFree s)).isSome = true
      · left
        have hk := Nat.find_spec hex
        have hmin := fun j => Nat.find_min hex (m := j)
        generalize Nat.find hex = k at hk hmin
        obtain ⟨b, hb⟩ := Option.isSome_iff_exists.1 hk.2.2
        have hskip : ∀ j, 1 ≤ j → j < k →
            (s.head ((h + j) % NBUCKETS)).reverse.find? (isFree s) = none := by
          intro j h1 h2
          have := hmin j h2
          cases hj : (s.head ((h + j) % NBUCKETS)).reverse.find? (isFree s) with
          | none => rfl
          | some x => exact absurd ⟨h1, by omega, by simp [hj]⟩ this
        refine ⟨rfl, rfl, k, b, hk.1, hk.2.1, hskip, hb, ?_⟩
        have e : ∀ i, h + 1 + i = h + (i + 1) := fun i => by omega
        apply bgetSteal_found p dev blockno s h b (k - 1) NBUCKETS h _ (by simp only [NBUCKETS]; omega)
        · intro i hi
          rw [e]
          exact ⟨hskip (i + 1) (by omega) (by omega), by simp only [NBUCKETS]; omega⟩
        · rw [e, show k - 1 + 1 = k by omega]; exact hb
        · rw [e, show k - 1 + 1 = k by omega]; simp only [NBUCKETS]; omega
      · right
        have hnone : ∀ j, 1 ≤ j → j ≤ 12 →
            (s.head ((h + j) % NBUCKETS)).reverse.find? (isFree s) = none := by
          intro j h1 h2
          cases hj : (s.head ((h + j) % NBUCKETS)).reverse.find? (isFree s) with
          | none => rfl
          | some x => exact absurd ⟨j, h1, h2, by simp [hj]⟩ hex
        refine ⟨rfl, ?_, ?_⟩
        · intro i hi
          by_cases hih : i = h
          · subst hih; exact hf
          · have := hnone ((i + 13 - h) % 13) (by simp only [NBUCKETS] at hi; omega) (by omega)
            have e : (h + (i + 13 - h) % 13) % NBUCKETS = i := by
              simp only [NBUCKETS] at hi ⊢; omega
            rwa [e] at this
        · have e : ∀ i, h + 1 + i = h + (i + 1) := fun i => by omega
          apply bgetSteal_none p dev blockno s h 12 NBUCKETS h _ (by simp only [NBUCKETS]; omega)
          · intro i hi
            rw [e]
            exact ⟨hnone (i + 1) (by omega) (by omega), by simp only [NBUCKETS]; omega⟩
          · simp only [NBUCKETS]; omega


theorem stolen_head (dev blockno : Nat) (s : Bcache) (h b i : Nat) :
    (stolen dev blockno s h b).head i =
      if i = h then b :: (s.head h).erase b else (s.head i).erase b := by
  by_cases hi : i = h
  · subst hi; simp [stolen, pushHead, unlink, Bcache.setHead, Bcache.setBuf]
  · simp [stolen, pushHead, unlink, Bcache.setHead, Bcache.setBuf, hi]

theorem stolen_buf (dev blockno : Nat) (s : Bcache) (h b j : Nat) :
    (stolen dev blockno s h b).buf j =
      if j = b then recycle dev blockno (s.buf b) else s.buf j := by
  simp [stolen, pushHead, unlink, Bcache.setHead, Bcache.setBuf]

/-- C4 (steal).  When the home bucket `h` neither caches `(dev, blockno)` nor
holds an unreferenced slot while some bucket does, `bget` delivers the
unreferenced slot nearest to the LRU end of the first bucket `h+k`
(`1 ≤ k ≤ 12`, modulo `NBUCKETS`) that has one.  Afterwards the slot is gone
from the list of that bucket, whose other slots keep their order, it is the
first element of the list of `h`, which is otherwise as before, every other
list is unchanged, the slot carries the request with validity 0 and reference
count 1, and every other slot is untouched. -/
theorem bget_steal (p dev blockno : Nat) (s : Bcache) (i c : Nat)
    (hL : Linked s)
    (hmiss : ∀ x ∈ s.head (blockno % NBUCKETS),
      ¬ ((s.buf x).dev = dev ∧ (s.buf x).blockno = blockno))
    (hfull : ∀ x ∈ s.head (blockno % NBUCKETS), (s.buf x).refcnt ≠ 0)
    (hi : i < NBUCKETS) (hc : c ∈ s.head i) (hfree : (s.buf c).refcnt = 0) :
    ∃ k b l1 l2, 1 ≤ k ∧ k ≤ 12 ∧
      (∀ j, 1 ≤ j → j < k →
        ∀ x ∈ s.head ((blockno % NBUCKETS + j) % NBUCKETS), (s.buf x).refcnt ≠ 0) ∧
      s.head ((blockno % NBUCKETS + k) % NBUCKETS) = l1 ++ b :: l2 ∧
      (s.buf b).refcnt = 0 ∧ (∀ x ∈ l2, (s.buf x).refcnt ≠ 0) ∧
      (bget p dev blockno s).out =
        (if (s.buf b).locked then Outcome.sleep b else Outcome.ret b) ∧
      (bget p dev blockno s).st.head ((blockno % NBUCKETS + k) % NBUCKETS) = l1 ++ l2 ∧
      b ∉ l1 ++ l2 ∧
      (bget p dev blockno s).st.head (blockno % NBUCKETS)
        = b :: s.head (blockno % NBUCKETS) ∧
      (∀ j, j ≠ blockno % NBUCKETS → j ≠ (blockno % NBUCKETS + k) % NBUCKETS →
        (bget p dev blockno s).st.head j = s.head j) ∧
      ((bget p dev blockno s).st.buf b).dev = dev ∧
      ((bget p dev blockno s).st.buf b).blockno = blockno ∧
      ((bget p dev blockno s).st.buf b).valid = 0 ∧
      ((bget p dev blockno s).st.buf b).refcnt = 1 ∧
      ((bget p dev blockno s).st.buf b).data = (s.buf b).data ∧
      (∀ j, j ≠ b → (bget p dev blockno s).st.buf j = s.buf j) := by
  have hlt : blockno % NBUCKETS < 13 := Nat.mod_lt _ (by decide)
  rcases bget_cases p dev blockno s with ⟨b, hb, -⟩ | ⟨-, b, hb, -⟩ |
      ⟨-, -, k, b, hk1, hk2, hskip, hb, tr2, hbget⟩ | ⟨-, hnone, -⟩
  · have := find_some_split hb
    exact absurd (by simpa [isHit] using this.1) (hmiss b (List.mem_of_find?_eq_some hb))
  · have := rfind_some_split hb
    exact absurd (by simpa [isFree] using this.1)
      (hfull b (by simpa using List.mem_of_find?_eq_some hb))
  · rcases rfind_some_split hb with ⟨hq, l1, l2, hl, hn⟩
    generalize blockno % NBUCKETS = h at *
    have hsrc : (h + k) % NBUCKETS ≠ h := by simp only [NBUCKETS]; omega
    have hbsrc : b ∈ s.head ((h + k) % NBUCKETS) := by rw [hl]; simp
    have hnd := hL.1 ((h + k) % NBUCKETS)
    rw [hl] at hnd
    have hb1 : b ∉ l1 := fun hx => by
      have := List.nodup_append.1 hnd
      exact this.2.2 hx (List.mem_cons_self _ _) 
    have hb2 : b ∉ l2 := fun hx => by
      have := (List.nodup_append.1 hnd).2.1
      exact (List.nodup_cons.1 this).1 hx
    have hbh : b ∉ s.head h := fun hx => hsrc (hL.2 _ _ b hbsrc hx)
    refine ⟨k, b, l1, l2, hk1, hk2, ?_, hl, by simpa [isFree] using hq,
      fun x hx => by simpa [isFree] using hn x hx, ?_, ?_, ?_, ?_, ?_, ?_, ?_, ?_, ?_, ?_, ?_⟩
    · intro j h1 h2 x hx
      simpa [isFree] using rfind_none_all.1 (hskip j h1 h2) x hx
    · rw [hbget, lockAndReturn_out, stolen_buf]; simp [recycle]
    · rw [hbget, lockAndReturn_head, stolen_head, if_neg hsrc, hl,
        List.erase_append_right _ hb1, List.erase_cons_head]
    · simp [hb1, hb2]
    · rw [hbget, lockAndReturn_head, stolen_head, if_pos rfl, List.erase_of_not_mem hbh]
    · intro j hj1 hj2
      rw [hbget, lockAndReturn_head, stolen_head, if_neg hj1]
      exact List.erase_of_not_mem (fun hx => hj2 (hL.2 _ _ b hx hbsrc))
    · rw [hbget, lockAndReturn_buf]; split <;> simp [stolen_buf, recycle]
    · rw [hbget, lockAndReturn_buf]; split <;> simp [stolen_buf, recycle]
    · rw [hbget, lockAndReturn_buf]; split <;> simp [stolen_buf, recycle]
    · rw [hbget, lockAndReturn_buf]; split <;> simp [stolen_buf, recycle]
    · rw [hbget, lockAndReturn_buf]; split <;> simp [stolen_buf, recycle]
    · intro j hj
      rw [hbget, lockAndReturn_buf]; simp [hj, stolen_buf]
  · have := rfind_none_all.1 (hnone i hi) c hc
    simp [isFree, hfree] at this

/-- C5 (exhaustion).  `bget` panics exactly when no slot of the home bucket
carries `(dev, blockno)` and every slot of every bucket list is referenced.
The panic is the one of `acquire`, met when the scan comes back to the home
bucket whose lock the caller still holds, and it leaves the cache untouched.
In every other case `bget` delivers a slot of the home bucket that carries the
request, so a request for an uncached block is served as soon as one slot of
some bucket is unreferenced. -/
theorem bget_exhaustion (p dev blockno : Nat) (s : Bcache) :
    ((∃ m, (bget p dev blockno s).out = Outcome.panic m) ↔
      ((∀ x ∈ s.head (blockno % NBUCKETS),
          ¬ ((s.buf x).dev = dev ∧ (s.buf x).blockno = blockno)) ∧
        ∀ i, i < NBUCKETS → ∀ x ∈ s.head i, (s.buf x).refcnt ≠ 0)) ∧
    ((∃ m, (bget p dev blockno s).out = Outcome.panic m) →
      (bget p dev blockno s).out = Outcome.panic Panic.acquire ∧
      (bget p dev blockno s).st.buf = s.buf ∧ (bget p dev blockno s).st.head = s.head) ∧
    ((¬ ∃ m, (bget p dev blockno s).out = Outcome.panic m) →
      ∃ b, b ∈ (bget p dev blockno s).st.head (blockno % NBUCKETS) ∧
        ((bget p dev blockno s).st.buf b).dev = dev ∧
        ((bget p dev blockno s).st.buf b).blockno = blockno ∧
        (bget p dev blockno s).out =
          (if (s.buf b).locked then Outcome.sleep b else Outcome.ret b)) := by
  rcases bget_cases p dev blockno s with ⟨b, hb, hbget⟩ | ⟨hh, b, hb, hbget⟩ |
      ⟨hh, -, k, b, hk1, hk2, hskip, hb, tr2, hbget⟩ | ⟨hh, hnone, tr2, hbget⟩
  · have hsp := find_some_split hb
    have hmem := List.mem_of_find?_eq_some hb
    have hout : (bget p dev blockno s).out =
        (if (s.buf b).locked then Outcome.sleep b else Outcome.ret b) := by
      rw [hbget, lockAndReturn_out]; simp [Bcache.setBuf]
    have hnp : ¬ ∃ m, (bget p dev blockno s).out = Outcome.panic m := by
      rw [hout]; rintro ⟨m, hm⟩; split at hm <;> cases hm
    refine ⟨⟨fun h => absurd h hnp, fun h => absurd (by simpa [isHit] using hsp.1) (h.1 b hmem)⟩,
      fun h => absurd h hnp, fun _ => ⟨b, ?_, ?_, ?_, hout⟩⟩
    · rw [hbget, lockAndReturn_head]; exact hmem
    · rw [hbget, lockAndReturn_buf]
      have := hsp.1; simp [isHit] at this
      split <;> simp [Bcache.setBuf, this.1]
    · rw [hbget, lockAndReturn_buf]
      have := hsp.1; simp [isHit] at this
      split <;> simp [Bcache.setBuf, this.2]
  · have hsp := rfind_some_split hb
    have hmem : b ∈ s.head (blockno % NBUCKETS) := by
      simpa using List.mem_of_find?_eq_some hb
    have hout : (bget p dev blockno s).out =
        (if (s.buf b).locked then Outcome.sleep b else Outcome.ret b) := by
      rw [hbget, lockAndReturn_out]; simp [Bcache.setBuf, recycle]
    have hnp : ¬ ∃ m, (bget p dev blockno s).out = Outcome.panic m := by
      rw [hout]; rintro ⟨m, hm⟩; split at hm <;> cases hm
    refine ⟨⟨fun h => absurd h hnp, fun h => absurd (by simpa [isFree] using hsp.1)
        (h.2 _ (Nat.mod_lt _ (by decide)) b hmem)⟩,
      fun h => absurd h hnp, fun _ => ⟨b, ?_, ?_, ?_, hout⟩⟩
    · rw [hbget, lockAndReturn_head]; exact hmem
    · rw [hbget, lockAndReturn_buf]; split <;> simp [Bcache.setBuf, recycle]
    · rw [hbget, lockAndReturn_buf]; split <;> simp [Bcache.setBuf, recycle]
  · have hsp := rfind_some_split hb
    have hmem : b ∈ s.head ((blockno % NBUCKETS + k) % NBUCKETS) := by
      simpa using List.mem_of_find?_eq_some hb
    have hout : (bget p dev blockno s).out =
        (if (s.buf b).locked then Outcome.sleep b else Outcome.ret b) := by
      rw [hbget, lockAndReturn_out, stolen_buf]; simp [recycle]
    have hnp : ¬ ∃ m, (bget p dev blockno s).out = Outcome.panic m := by
      rw [hout]; rintro ⟨m, hm⟩; split at hm <;> cases hm
    refine ⟨⟨fun h => absurd h hnp, fun h => absurd (by simpa [isFree] using hsp.1)
        (h.2 _ (Nat.mod_lt _ (by decide)) b hmem)⟩,
      fun h => absurd h hnp, fun _ => ⟨b, ?_, ?_, ?_, hout⟩⟩
    · rw [hbget, lockAndReturn_head, stolen_head]; simp
    · rw [hbget, lockAndReturn_buf]; split <;> simp [stolen_buf, recycle]
    · rw [hbget, lockAndReturn_buf]; split <;> simp [stolen_buf, recycle]
  · have hp : (bget p dev blockno s).out = Outcome.panic Panic.acquire := by rw [hbget]
    refine ⟨⟨fun _ => ⟨fun x hx => by simpa [isHit] using find_none_all.1 hh x hx,
        fun i hi x hx => by simpa [isFree] using rfind_none_all.1 (hnone i hi) x hx⟩,
        fun _ => ⟨_, hp⟩⟩,
      fun _ => ⟨hp, by rw [hbget], by rw [hbget]⟩, fun h => absurd ⟨_, hp⟩ h⟩


/-- C6 (referenced slots are spared).  A slot whose reference count is
positive before a call of `bget` has the same device, block number, validity
flag and payload after it, and is in the same bucket lists. -/
theorem bget_spares_referenced (p dev blockno : Nat) (s : Bcache) (j : Nat)
    (hj : 0 < (s.buf j).refcnt) :
    ((bget p dev blockno s).st.buf j).dev = (s.buf j).dev ∧
    ((bget p dev blockno s).st.buf j).blockno = (s.buf j).blockno ∧
    ((bget p dev blockno s).st.buf j).valid = (s.buf j).valid ∧
    ((bget p dev blockno s).st.buf j).data = (s.buf j).data ∧
    ∀ i, j ∈ (bget p dev blockno s).st.head i ↔ j ∈ s.head i := by
  rcases bget_cases p dev blockno s with ⟨b, hb, hbget⟩ | ⟨hh, b, hb, hbget⟩ |
      ⟨hh, -, k, b, hk1, hk2, hskip, hb, tr2, hbget⟩ | ⟨hh, hnone, tr2, hbget⟩
  · rw [hbget, lockAndReturn_head, lockAndReturn_buf]
    by_cases hjb : j = b
    · subst hjb; refine ⟨?_, ?_, ?_, ?_, fun i => Iff.rfl⟩ <;> split <;> simp [Bcache.setBuf]
    · simp [hjb, Bcache.setBuf]
  · have hne : j ≠ b := by
      rintro rfl
      have := (rfind_some_split hb).1
      simp [isFree] at this; omega
    rw [hbget, lockAndReturn_head, lockAndReturn_buf]
    simp [hne, Bcache.setBuf]
  · have hne : j ≠ b := by
      rintro rfl
      have := (rfind_some_split hb).1
      simp [isFree] at this; omega
    rw [hbget, lockAndReturn_head, lockAndReturn_buf]
    refine ⟨by simp [hne, stolen_buf], by simp [hne, stolen_buf], by simp [hne, stolen_buf],
      by simp [hne, stolen_buf], fun i => ?_⟩
    rw [stolen_head]
    split
    · subst_vars; simp [hne, List.mem_erase_of_ne hne]
    · exact List.mem_erase_of_ne hne
  · rw [hbget]; simp
theorem find_keep {l : List Nat} {q q2 : Nat → Bool} {b v : Nat}
    (hq : ∀ x, x ≠ v → q2 x = q x) (hv : q2 v = false) (hvb : v ≠ b)
    (h : l.find? q = some b) : l.find? q2 = some b := by
  induction l with
  | nil => simp at h
  | cons a l ih =>
    rw [List.find?_cons] at h ⊢
    by_cases hav : a = v
    · subst hav
      rw [hv]
      cases hqa : q a with
      | true => rw [hqa] at h; simp at h; exact absurd h hvb
      | false => rw [hqa] at h; exact ih h
    · rw [hq a hav]
      cases hqa : q a with
      | true => rw [hqa] at h; exact h
      | false => rw [hqa] at h; exact ih h

theorem find_erase_keep {l : List Nat} {q : Nat → Bool} {b v : Nat}
    (hv : q v = false) (h : l.find? q = some b) : (l.erase v).find? q = some b := by
  induction l with
  | nil => simp at h
  | cons a l ih =>
    by_cases hav : a = v
    · subst hav
      rw [List.erase_cons_head]
      rw [List.find?_cons, hv] at h
      exact h
    · rw [List.erase_cons_tail (by simpa using hav), List.find?_cons]
      rw [List.find?_cons] at h
      cases hqa : q a with
      | true => rw [hqa] at h; exact h
      | false => rw [hqa] at h; exact ih h

theorem find_only {l : List Nat} {q : Nat → Bool} {v : Nat}
    (hv : v ∈ l) (hq : q v = true) (ho : ∀ x ∈ l, x ≠ v → q x = false) :
    l.find? q = some v := by
  induction l with
  | nil => simp at hv
  | cons a l ih =>
    rw [List.find?_cons]
    by_cases hav : a = v
    · subst hav; rw [hq]
    · rw [ho a (List.mem_cons_self _ _) hav]
      rcases List.mem_cons.1 hv with h | h
      · exact absurd h.symm hav
      · exact ih h (fun x hx => ho x (List.mem_cons_of_mem _ hx))

theorem isHit_congr {s s2 : Bcache} (d n x : Nat)
    (hk : (s2.buf x).dev = (s.buf x).dev ∧ (s2.buf x).blockno = (s.buf x).blockno) :
    isHit d n s2 x = isHit d n s x := by
  simp [isHit, hk.1, hk.2]

theorem first_self (s : Bcache) (b : Nat) (l : List Nat)
    (h : s.head ((s.buf b).blockno % NBUCKETS) = b :: l) : First s b := by
  unfold First
  rw [h, List.find?_cons]
  simp [isHit]

theorem first_mem {s : Bcache} {b : Nat} (h : First s b) :
    b ∈ s.head ((s.buf b).blockno % NBUCKETS) :=
  List.mem_of_find?_eq_some h

theorem first_of_hit {s : Bcache} {dev blockno b : Nat}
    (h : (s.head (blockno % NBUCKETS)).find? (isHit dev blockno s) = some b) :
    (s.buf b).dev = dev ∧ (s.buf b).blockno = blockno ∧ First s b := by
  have hq := (find_some_split h).1
  simp [isHit] at hq
  refine ⟨hq.1, hq.2, ?_⟩
  unfold First
  rw [hq.1, hq.2]; exact h

theorem first_congr {s s2 : Bcache} (hh : s2.head = s.head)
    (hk : ∀ j, (s2.buf j).dev = (s.buf j).dev ∧ (s2.buf j).blockno = (s.buf j).blockno)
    (x : Nat) : First s2 x ↔ First s x := by
  unfold First
  have e : isHit (s2.buf x).dev (s2.buf x).blockno s2 = isHit (s.buf x).dev (s.buf x).blockno s := by
    funext j
    rw [(hk x).1, (hk x).2]; exact isHit_congr _ _ _ (hk j)
  rw [hh, e, (hk x).2]

theorem inv_congr {s s2 : Bcache} (hh : s2.head = s.head)
    (hk : ∀ j, (s2.buf j).dev = (s.buf j).dev ∧ (s2.buf j).blockno = (s.buf j).blockno)
    (hl : ∀ j, (s2.buf j).locked = true → (s.buf j).locked = true ∨ First s j)
    (hI : Inv s) : Inv s2 := by
  refine ⟨?_, ?_, ?_⟩
  · unfold Linked; rw [hh]; exact hI.1
  · unfold Home; rw [hh]; intro i b hb; rw [(hk b).2]; exact hI.2.1 i b hb
  · intro b hb
    rw [first_congr hh hk]
    rcases hl b hb with h | h
    · exact hI.2.2 b h
    · exact h
theorem moved_head (s : Bcache) (h b i : Nat) :
    (pushHead (unlink s b) h b).head i =
      if i = h then b :: (s.head h).erase b else (s.head i).erase b := by
  by_cases hi : i = h
  · subst hi; simp [pushHead, unlink, Bcache.setHead]
  · simp [pushHead, unlink, Bcache.setHead, hi]

theorem moved_buf (s : Bcache) (h b : Nat) : (pushHead (unlink s b) h b).buf = s.buf := rfl

theorem mem_moved {s : Bcache} (hL : Linked s) (h b i x : Nat) :
    x ∈ (pushHead (unlink s b) h b).head i ↔ (x = b ∧ i = h) ∨ (x ≠ b ∧ x ∈ s.head i) := by
  rw [moved_head]
  by_cases hi : i = h
  · subst hi
    simp only [if_true, List.mem_cons, (hL.1 i).mem_erase_iff]
    tauto
  · simp only [if_neg hi, (hL.1 i).mem_erase_iff]
    tauto

theorem linked_moved {s : Bcache} (hL : Linked s) (h b : Nat) :
    Linked (pushHead (unlink s b) h b) := by
  refine ⟨fun i => ?_, fun i j x hi hj => ?_⟩
  · rw [moved_head]
    split
    · exact List.nodup_cons.2
        ⟨fun hx => ((hL.1 h).mem_erase_iff.1 hx).1 rfl, (hL.1 h).erase b⟩
    · exact (hL.1 i).erase b
  · rcases (mem_moved hL h b i x).1 hi with ⟨h1, h2⟩ | ⟨h1, h2⟩ <;>
      rcases (mem_moved hL h b j x).1 hj with ⟨h3, h4⟩ | ⟨h3, h4⟩
    · rw [h2, h4]
    · exact absurd h1 h3
    · exact absurd h3 h1
    · exact hL.2 i j x h2 h4

theorem linked_of_head {s s2 : Bcache} (hh : s2.head = s.head) (hL : Linked s) : Linked s2 := by
  unfold Linked; rw [hh]; exact hL

theorem home_moved {s : Bcache} (hL : Linked s) (hH : Home s) (b : Nat) :
    Home (pushHead (unlink s b) ((s.buf b).blockno % NBUCKETS) b) := by
  intro i x hx
  rw [moved_buf]
  rcases (mem_moved hL _ b i x).1 hx with ⟨h1, h2⟩ | ⟨-, h2⟩
  · rw [h1, h2]
  · exact hH i x h2

theorem first_moved {s : Bcache} (b : Nat) (hb : First s b) :
    First (pushHead (unlink s b) ((s.buf b).blockno % NBUCKETS) b) b ∧
    ∀ x, First s x → First (pushHead (unlink s b) ((s.buf b).blockno % NBUCKETS) b) x := by
  have hself : First (pushHead (unlink s b) ((s.buf b).blockno % NBUCKETS) b) b :=
    first_self _ b ((s.head ((s.buf b).blockno % NBUCKETS)).erase b) (by
      rw [moved_buf, moved_head, if_pos rfl])
  refine ⟨hself, fun x hx => ?_⟩
  by_cases hxb : x = b
  · rw [hxb]; exact hself
  · have hqb : isHit (s.buf x).dev (s.buf x).blockno s b = false := by
      by_contra hc
      have hc2 : (s.buf b).dev = (s.buf x).dev ∧ (s.buf b).blockno = (s.buf x).blockno := by
        simpa [isHit] using hc
      unfold First at hb hx
      rw [hc2.1, hc2.2, hx] at hb
      exact hxb (Option.some.inj hb)
    unfold First
    rw [moved_buf, moved_head]
    split
    · rw [List.find?_cons]
      have : isHit (s.buf x).dev (s.buf x).blockno (pushHead (unlink s b) ((s.buf b).blockno % NBUCKETS) b) b = false := hqb
      rw [this]
      rename_i heq
      have hx2 := hx
      unfold First at hx2
      rw [heq] at hx2
      exact find_erase_keep hqb hx2
    · exact find_erase_keep hqb hx

theorem home_stolen {s : Bcache} (hL : Linked s) (hH : Home s) (dev blockno b : Nat) :
    Home (stolen dev blockno s (blockno % NBUCKETS) b) := by
  intro i x hx
  have hx2 : x ∈ (pushHead (unlink (s.setBuf b (recycle dev blockno (s.buf b))) b)
      (blockno % NBUCKETS) b).head i := hx
  rw [stolen_buf]
  rcases (mem_moved (linked_of_head rfl hL) _ b i x).1 hx2 with ⟨h1, h2⟩ | ⟨h1, h2⟩
  · rw [if_pos h1, h2]; rfl
  · rw [if_neg h1]; exact hH i x h2

theorem first_stolen {s : Bcache} (dev blockno b : Nat)
    (hmiss : (s.head (blockno % NBUCKETS)).find? (isHit dev blockno s) = none) :
    First (stolen dev blockno s (blockno % NBUCKETS) b) b ∧
    ∀ x, x ≠ b → First s x → First (stolen dev blockno s (blockno % NBUCKETS) b) x := by
  refine ⟨first_self _ b ((s.head (blockno % NBUCKETS)).erase b) (by
      rw [stolen_buf, if_pos rfl, stolen_head]; simp [recycle]), fun x hxb hx => ?_⟩
  have hkey : ¬ ((s.buf x).dev = dev ∧ (s.buf x).blockno = blockno) := by
    rintro ⟨h1, h2⟩
    unfold First at hx
    rw [h1, h2, hmiss] at hx
    cases hx
  have hq : ∀ y, y ≠ b →
      isHit (s.buf x).dev (s.buf x).blockno (stolen dev blockno s (blockno % NBUCKETS) b) y
        = isHit (s.buf x).dev (s.buf x).blockno s y := by
    intro y hy; simp [isHit, stolen_buf, hy]
  have hqb : isHit (s.buf x).dev (s.buf x).blockno
      (stolen dev blockno s (blockno % NBUCKETS) b) b = false := by
    simp only [isHit, stolen_buf, if_pos, recycle]
    by_contra hc
    simp at hc
    exact hkey ⟨hc.1.symm, hc.2.symm⟩
  have hx2 := find_keep hq hqb (Ne.symm hxb) hx
  unfold First
  rw [stolen_buf, if_neg hxb, stolen_head]
  split
  · rename_i heq
    rw [List.find?_cons, hqb]
    rw [heq] at hx2
    exact find_erase_keep hqb hx2
  · exact find_erase_keep hqb hx2

theorem first_recycled {s : Bcache} (dev blockno b : Nat)
    (hmiss : (s.head (blockno % NBUCKETS)).find? (isHit dev blockno s) = none)
    (hb : b ∈ s.head (blockno % NBUCKETS)) :
    First (s.setBuf b (recycle dev blockno (s.buf b))) b ∧
    ∀ x, x ≠ b → First s x → First (s.setBuf b (recycle dev blockno (s.buf b))) x := by
  constructor
  · unfold First
    simp only [Bcache.setBuf, if_pos, recycle]
    apply find_only hb
    · simp [isHit]
    · intro x hx hxb
      have := find_none_all.1 hmiss x hx
      simpa [isHit, hxb] using this
  · intro x hxb hx
    have hkey : ¬ ((s.buf x).dev = dev ∧ (s.buf x).blockno = blockno) := by
      rintro ⟨h1, h2⟩
      unfold First at hx
      rw [h1, h2, hmiss] at hx
      cases hx
    have hq : ∀ y, y ≠ b →
        isHit (s.buf x).dev (s.buf x).blockno (s.setBuf b (recycle dev blockno (s.buf b))) y
          = isHit (s.buf x).dev (s.buf x).blockno s y := by
      intro y hy; simp [isHit, Bcache.setBuf, hy]
    have hqb : isHit (s.buf x).dev (s.buf x).blockno
        (s.setBuf b (recycle dev blockno (s.buf b))) b = false := by
      simp only [isHit, Bcache.setBuf, if_pos, recycle]
      by_contra hc
      simp at hc
      exact hkey ⟨hc.1.symm, hc.2.symm⟩
    have hx2 := find_keep hq hqb (Ne.symm hxb) hx
    unfold First
    simp only [Bcache.setBuf, if_neg hxb]
    exact hx2
theorem setBuf_keys (s : Bcache) (b : Nat) (x : Buf)
    (hd : x.dev = (s.buf b).dev) (hn : x.blockno = (s.buf b).blockno) (j : Nat) :
    ((s.setBuf b x).buf j).dev = (s.buf j).dev ∧
    ((s.setBuf b x).buf j).blockno = (s.buf j).blockno := by
  by_cases hj : j = b
  · subst hj; simp [Bcache.setBuf, hd, hn]
  · simp [Bcache.setBuf, hj]

theorem first_setBuf (s : Bcache) (b : Nat) (x : Buf)
    (hd : x.dev = (s.buf b).dev) (hn : x.blockno = (s.buf b).blockno) (j : Nat) :
    First (s.setBuf b x) j ↔ First s j :=
  @first_congr s (s.setBuf b x) rfl (setBuf_keys s b x hd hn) j

theorem inv_setBuf (s : Bcache) (b : Nat) (x : Buf)
    (hd : x.dev = (s.buf b).dev) (hn : x.blockno = (s.buf b).blockno)
    (hl : x.locked = true → (s.buf b).locked = true ∨ First s b) (hI : Inv s) :
    Inv (s.setBuf b x) := by
  refine @inv_congr s (s.setBuf b x) rfl (setBuf_keys s b x hd hn) ?_ hI
  intro j hj
  by_cases hjb : j = b
  · subst hjb; exact hl (by simpa [Bcache.setBuf] using hj)
  · left; simpa [Bcache.setBuf, hjb] using hj

/-- What `bget` leaves behind, in terms of the bookkeeping state `s1` reached
under the bucket locks and the slot `b` it then locks. -/
theorem bget_shape (p dev blockno : Nat) (s : Bcache) (hI : Inv s) :
    (∃ tr, bget p dev blockno s = ⟨Outcome.panic Panic.acquire, s, tr⟩ ∧
      bgetVictim p dev blockno s = none) ∨
    ∃ b s1 tr, bget p dev blockno s = lockAndReturn p b s1 tr ∧ Inv s1 ∧ First s1 b ∧
      (s1.buf b).dev = dev ∧ (s1.buf b).blockno = blockno ∧
      (s1.buf b).locked = (s.buf b).locked ∧
      (∀ x, bgetVictim p dev blockno s ≠ some x →
        (s1.buf x).dev = (s.buf x).dev ∧ (s1.buf x).blockno = (s.buf x).blockno ∧
        (s1.buf x).valid = (s.buf x).valid ∧ (s1.buf x).data = (s.buf x).data ∧
        (s1.buf x).locked = (s.buf x).locked ∧ (First s x → First s1 x)) := by
  rcases bget_cases p dev blockno s with ⟨b, hb, hbget⟩ | ⟨hh, b, hb, hbget⟩ |
      ⟨hh, -, k, b, hk1, hk2, hskip, hb, tr2, hbget⟩ | ⟨hh, hnone, tr2, hbget⟩
  · right
    have hf := first_of_hit hb
    refine ⟨b, _, _, hbget,
      inv_setBuf s b { s.buf b with refcnt := incr (s.buf b).refcnt } rfl rfl
        (fun h => Or.inl h) hI,
      (first_setBuf s b { s.buf b with refcnt := incr (s.buf b).refcnt } rfl rfl b).2 hf.2.2,
      ?_, ?_, ?_, ?_⟩
    · simp [Bcache.setBuf, hf.1]
    · simp [Bcache.setBuf, hf.2.1]
    · simp [Bcache.setBuf]
    · intro x _
      refine ⟨(setBuf_keys s b { s.buf b with refcnt := incr (s.buf b).refcnt } rfl rfl x).1,
        (setBuf_keys s b { s.buf b with refcnt := incr (s.buf b).refcnt } rfl rfl x).2, ?_, ?_, ?_,
        (first_setBuf s b { s.buf b with refcnt := incr (s.buf b).refcnt } rfl rfl x).2⟩ <;>
        by_cases hxb : x = b <;> simp [Bcache.setBuf, hxb]
  · right
    have hmem : b ∈ s.head (blockno % NBUCKETS) := by
      simpa using List.mem_of_find?_eq_some hb
    have hfr := first_recycled dev blockno b hh hmem
    have hvic : bgetVictim p dev blockno s = some b := by
      unfold bgetVictim
      rw [hh, hbget, lockAndReturn_out]
      simp only []
      generalize ((s.setBuf b (recycle dev blockno (s.buf b))).buf b).locked = c
      cases c <;> rfl
    refine ⟨b, _, _, hbget, ⟨linked_of_head rfl hI.1, ?_, ?_⟩, hfr.1, ?_, ?_, ?_, ?_⟩
    · intro i x hx
      have hx2 : x ∈ s.head i := hx
      by_cases hxb : x = b
      · subst hxb
        simp only [Bcache.setBuf, if_pos, recycle]
        exact hI.1.2 _ _ x hmem hx2
      · simp only [Bcache.setBuf, if_neg hxb]; exact hI.2.1 i x hx2
    · intro x hx
      by_cases hxb : x = b
      · rw [hxb]; exact hfr.1
      · refine hfr.2 x hxb (hI.2.2 x ?_)
        simpa [Bcache.setBuf, hxb] using hx
    · simp [Bcache.setBuf, recycle]
    · simp [Bcache.setBuf, recycle]
    · simp [Bcache.setBuf, recycle]
    · intro x hx
      have hxb : x ≠ b := fun h => hx (by rw [hvic, h])
      simp only [Bcache.setBuf, if_neg hxb, true_and]
      intro h
      have := hfr.2 x hxb h
      simpa [Bcache.setBuf] using this
  · right
    have hfs := first_stolen (s := s) dev blockno b hh
    have hvic : bgetVictim p dev blockno s = some b := by
      unfold bgetVictim
      rw [hh, hbget, lockAndReturn_out]
      simp only []
      generalize ((stolen dev blockno s (blockno % NBUCKETS) b).buf b).locked = c
      cases c <;> rfl
    refine ⟨b, _, _, hbget, ⟨linked_moved (linked_of_head rfl hI.1) _ _,
      home_stolen hI.1 hI.2.1 dev blockno b, ?_⟩, hfs.1, ?_, ?_, ?_, ?_⟩
    · intro x hx
      by_cases hxb : x = b
      · rw [hxb]; exact hfs.1
      · refine hfs.2 x hxb (hI.2.2 x ?_)
        simpa [stolen_buf, hxb] using hx
    · simp [stolen_buf, recycle]
    · simp [stolen_buf, recycle]
    · simp [stolen_buf, recycle]
    · intro x hx
      have hxb : x ≠ b := fun h => hx (by rw [hvic, h])
      simp only [stolen_buf, if_neg hxb, true_and]
      exact hfs.2 x hxb
  · left
    refine ⟨tr2, hbget, ?_⟩
    unfold bgetVictim
    rw [hh, hbget]

/-- The step `acquiresleep(&b->lock); return b` keeps the shape of the cache
when `b` is the slot a lookup of its block finds. -/
theorem lockAndReturn_inv (p b : Nat) (s1 : Bcache) (tr : List Event)
    (hI : Inv s1) (hb : First s1 b) : Inv (lockAndReturn p b s1 tr).st := by
  refine inv_congr (lockAndReturn_head p b s1 tr) ?_ ?_ hI
  · intro j; rw [lockAndReturn_buf]; split
    · rename_i h; rw [h.1]; simp
    · simp
  · intro j hj
    rw [lockAndReturn_buf] at hj
    by_cases hjb : j = b
    · right; rw [hjb]; exact hb
    · left; simpa [hjb] using hj

theorem lockAndReturn_first (p b : Nat) (s1 : Bcache) (tr : List Event) (x : Nat) :
    First (lockAndReturn p b s1 tr).st x ↔ First s1 x := by
  refine first_congr (lockAndReturn_head p b s1 tr) ?_ x
  intro j; rw [lockAndReturn_buf]; split
  · rename_i h; rw [h.1]; simp
  · simp

theorem lockAndReturn_fields (p b : Nat) (s1 : Bcache) (tr : List Event) (x : Nat) :
    ((lockAndReturn p b s1 tr).st.buf x).dev = (s1.buf x).dev ∧
    ((lockAndReturn p b s1 tr).st.buf x).blockno = (s1.buf x).blockno ∧
    ((lockAndReturn p b s1 tr).st.buf x).valid = (s1.buf x).valid ∧
    ((lockAndReturn p b s1 tr).st.buf x).data = (s1.buf x).data ∧
    ((lockAndReturn p b s1 tr).st.buf x).refcnt = (s1.buf x).refcnt := by
  rw [lockAndReturn_buf]; split
  · rename_i h; rw [h.1]; simp
  · simp

/-- `bget` keeps the shape of the cache. -/
theorem bget_inv (p dev blockno : Nat) (s : Bcache) (hI : Inv s) :
    Inv (bget p dev blockno s).st := by
  rcases bget_shape p dev blockno s hI with ⟨tr, h, -⟩ | ⟨b, s1, tr, h, hI1, hb, -⟩
  · rw [h]; exact hI
  · rw [h]; exact lockAndReturn_inv p b s1 tr hI1 hb
/-- What a call of `bget` keeps: the shape of the cache, and the block, the
validity, the payload and the lookup position of every slot that it does not
evict; the slot it delivers holds the requested block. -/
theorem bget_keeps (p dev blockno : Nat) (s : Bcache) (hI : Inv s) :
    Inv (bget p dev blockno s).st ∧
    (∀ x, bgetVictim p dev blockno s ≠ some x →
      ((bget p dev blockno s).st.buf x).dev = (s.buf x).dev ∧
      ((bget p dev blockno s).st.buf x).blockno = (s.buf x).blockno ∧
      ((bget p dev blockno s).st.buf x).valid = (s.buf x).valid ∧
      ((bget p dev blockno s).st.buf x).data = (s.buf x).data ∧
      (First s x → First (bget p dev blockno s).st x)) ∧
    (∀ b, (bget p dev blockno s).out = Outcome.ret b ∨
        (bget p dev blockno s).out = Outcome.sleep b →
      ((bget p dev blockno s).st.buf b).dev = dev ∧
      ((bget p dev blockno s).st.buf b).blockno = blockno ∧
      First (bget p dev blockno s).st b) := by
  rcases bget_shape p dev blockno s hI with ⟨tr, h, -⟩ | ⟨b, s1, tr, h, hI1, hb, hd, hn, -, hx⟩
  · rw [h]
    refine ⟨hI, fun x _ => ⟨rfl, rfl, rfl, rfl, id⟩, fun b hb => ?_⟩
    rcases hb with hb | hb <;> cases hb
  · rw [h]
    refine ⟨lockAndReturn_inv p b s1 tr hI1 hb, fun x hv => ?_, fun c hc => ?_⟩
    · have f := lockAndReturn_fields p b s1 tr x
      have g := hx x hv
      exact ⟨f.1.trans g.1, f.2.1.trans g.2.1, f.2.2.1.trans g.2.2.1,
        f.2.2.2.1.trans g.2.2.2.1, fun hf => (lockAndReturn_first p b s1 tr x).2 (g.2.2.2.2.2 hf)⟩
    · have hcb : c = b := by
        rw [lockAndReturn_out] at hc
        rcases hc with hc | hc <;> split at hc <;> cases hc <;> rfl
      subst hcb
      have f := lockAndReturn_fields p c s1 tr c
      exact ⟨f.1.trans hd, f.2.1.trans hn, (lockAndReturn_first p c s1 tr c).2 hb⟩

/-- What `brelse` does when the caller holds the content lock. -/
theorem brelse_held (p b : Nat) (s : Bcache) (hh : holdingsleep p b s = true) :
    (brelse p b s).out = Outcome.unit ∧
    (∀ x, ((brelse p b s).st.buf x).dev = (s.buf x).dev ∧
      ((brelse p b s).st.buf x).blockno = (s.buf x).blockno ∧
      ((brelse p b s).st.buf x).valid = (s.buf x).valid ∧
      ((brelse p b s).st.buf x).data = (s.buf x).data) ∧
    ((brelse p b s).st.buf b).refcnt = decr (s.buf b).refcnt ∧
    ((brelse p b s).st.buf b).locked = false ∧
    (∀ x, x ≠ b → (brelse p b s).st.buf x = s.buf x) ∧
    (decr (s.buf b).refcnt = 0 → ∀ i, (brelse p b s).st.head i =
      if i = (s.buf b).blockno % NBUCKETS then b :: (s.head i).erase b
      else (s.head i).erase b) ∧
    (decr (s.buf b).refcnt ≠ 0 → (brelse p b s).st.head = s.head) := by
  have e : brelse p b s = ⟨Outcome.unit,
      (if (((releasesleep b s).setBuf b { (releasesleep b s).buf b with
            refcnt := decr ((releasesleep b s).buf b).refcnt }).buf b).refcnt = 0 then
        pushHead (unlink ((releasesleep b s).setBuf b { (releasesleep b s).buf b with
            refcnt := decr ((releasesleep b s).buf b).refcnt }) b)
          ((s.buf b).blockno % NBUCKETS) b
      else (releasesleep b s).setBuf b { (releasesleep b s).buf b with
            refcnt := decr ((releasesleep b s).buf b).refcnt }),
      [Event.releasesleep b, Event.acquire ((s.buf b).blockno % NBUCKETS),
        Event.release ((s.buf b).blockno % NBUCKETS)]⟩ := by
    simp [brelse, hh]
  rw [e]
  have hr : (((releasesleep b s).setBuf b { (releasesleep b s).buf b with
      refcnt := decr ((releasesleep b s).buf b).refcnt }).buf b).refcnt
      = decr (s.buf b).refcnt := by
    simp [releasesleep, Bcache.setBuf]
  rw [hr]
  by_cases hz : decr (s.buf b).refcnt = 0
  · simp only [if_pos hz]
    refine ⟨trivial, fun x => ?_, ?_, ?_, fun x hx => ?_, fun _ i => ?_, fun h => absurd hz h⟩
    · by_cases hx : x = b
      · subst hx; simp [moved_buf, releasesleep, Bcache.setBuf]
      · simp [moved_buf, releasesleep, Bcache.setBuf, hx]
    · simp [moved_buf, releasesleep, Bcache.setBuf]
    · simp [moved_buf, releasesleep, Bcache.setBuf]
    · simp [moved_buf, releasesleep, Bcache.setBuf, hx]
    · rw [moved_head]
      by_cases hi : i = (s.buf b).blockno % NBUCKETS
      · rw [if_pos hi, if_pos hi, hi]; rfl
      · rw [if_neg hi, if_neg hi]; rfl
  · simp only [if_neg hz]
    refine ⟨trivial, fun x => ?_, ?_, ?_, fun x hx => ?_, fun h => absurd h hz, fun _ => rfl⟩
    · by_cases hx : x = b
      · subst hx; simp [releasesleep, Bcache.setBuf]
      · simp [releasesleep, Bcache.setBuf, hx]
    · simp [releasesleep, Bcache.setBuf]
    · simp [releasesleep, Bcache.setBuf]
    · simp [releasesleep, Bcache.setBuf, hx]

theorem brelse_not_held (p b : Nat) (s : Bcache) (hh : holdingsleep p b s = false) :
    brelse p b s = ⟨Outcome.panic Panic.brelse, s, []⟩ := by
  simp [brelse, hh]
theorem brelse_st (p b : Nat) (s : Bcache) (hh : holdingsleep p b s = true) :
    (brelse p b s).st =
      if decr (s.buf b).refcnt = 0 then
        pushHead (unlink (s.setBuf b { s.buf b with
          locked := false, pid := 0, refcnt := decr (s.buf b).refcnt }) b)
          (((s.setBuf b { s.buf b with
            locked := false, pid := 0, refcnt := decr (s.buf b).refcnt }).buf b).blockno
              % NBUCKETS) b
      else s.setBuf b { s.buf b with
        locked := false, pid := 0, refcnt := decr (s.buf b).refcnt } := by
  have e : (releasesleep b s).setBuf b { (releasesleep b s).buf b with
        refcnt := decr ((releasesleep b s).buf b).refcnt }
      = s.setBuf b { s.buf b with
        locked := false, pid := 0, refcnt := decr (s.buf b).refcnt } := by
    simp only [releasesleep, Bcache.setBuf, if_pos]
    congr 1
    funext j
    by_cases hj : j = b <;> simp [hj]
  simp only [brelse, hh, Bool.not_true, Bool.false_eq_true, if_false, e]
  simp [Bcache.setBuf]

/-- A `brelse` by the holder of the content lock keeps the shape of the cache
and the lookup position of every slot. -/
theorem brelse_keeps (p b : Nat) (s : Bcache) (hI : Inv s)
    (hh : holdingsleep p b s = true) :
    Inv (brelse p b s).st ∧ ∀ x, First s x → First (brelse p b s).st x := by
  have hlk : (s.buf b).locked = true := by
    simp [holdingsleep] at hh; exact hh.1
  have hfb : First s b := hI.2.2 b hlk
  have hI2 : Inv (s.setBuf b { s.buf b with
      locked := false, pid := 0, refcnt := decr (s.buf b).refcnt }) :=
    inv_setBuf s b { s.buf b with
      locked := false, pid := 0, refcnt := decr (s.buf b).refcnt } rfl rfl
      (fun h => by simp at h) hI
  have hF2 : ∀ x, First s x → First (s.setBuf b { s.buf b with
      locked := false, pid := 0, refcnt := decr (s.buf b).refcnt }) x :=
    fun x => (first_setBuf s b { s.buf b with
      locked := false, pid := 0, refcnt := decr (s.buf b).refcnt } rfl rfl x).2
  rw [brelse_st p b s hh]
  split
  · have hm := first_moved b (hF2 b hfb)
    refine ⟨⟨linked_moved hI2.1 _ _, home_moved hI2.1 hI2.2.1 b, fun x hx => ?_⟩,
      fun x hx => hm.2 x (hF2 x hx)⟩
    exact hm.2 x (hI2.2.2 x hx)
  · exact ⟨hI2, hF2⟩

theorem bpin_keeps (b : Nat) (s : Bcache) (hI : Inv s) :
    Inv (bpin b s).st ∧ ∀ x, First s x → First (bpin b s).st x :=
  ⟨inv_setBuf s b { s.buf b with refcnt := incr (s.buf b).refcnt } rfl rfl
      (fun h => Or.inl h) hI,
    fun x => (first_setBuf s b { s.buf b with refcnt := incr (s.buf b).refcnt } rfl rfl x).2⟩

theorem bunpin_keeps (b : Nat) (s : Bcache) (hI : Inv s) :
    Inv (bunpin b s).st ∧ ∀ x, First s x → First (bunpin b s).st x :=
  ⟨inv_setBuf s b { s.buf b with refcnt := decr (s.buf b).refcnt } rfl rfl
      (fun h => Or.inl h) hI,
    fun x => (first_setBuf s b { s.buf b with refcnt := decr (s.buf b).refcnt } rfl rfl x).2⟩

theorem bwrite_st (p b : Nat) (s : Bcache) : (bwrite p b s).st = s := by
  unfold bwrite; split <;> rfl

/-- The state and outcome of `bread` in terms of those of `bget`. -/
theorem bread_shape (disk : Nat → Nat → List Nat) (p dev blockno : Nat) (s : Bcache) :
    (bread disk p dev blockno s).out = (bget p dev blockno s).out ∧
    (bread disk p dev blockno s).st.head = (bget p dev blockno s).st.head ∧
    ∀ x, ((bread disk p dev blockno s).st.buf x).dev = ((bget p dev blockno s).st.buf x).dev ∧
      ((bread disk p dev blockno s).st.buf x).blockno
        = ((bget p dev blockno s).st.buf x).blockno ∧
      ((bread disk p dev blockno s).st.buf x).locked
        = ((bget p dev blockno s).st.buf x).locked ∧
      ((bread disk p dev blockno s).st.buf x).pid
        = ((bget p dev blockno s).st.buf x).pid ∧
      ((bread disk p dev blockno s).st.buf x).refcnt
        = ((bget p dev blockno s).st.buf x).refcnt := by
  unfold bread
  simp only []
  split
  · rename_i b hb
    split
    · refine ⟨hb.symm, rfl, fun x => ?_⟩
      by_cases hx : x = b
      · subst hx; simp [Bcache.setBuf]
      · simp [Bcache.setBuf, hx]
    · exact ⟨rfl, rfl, fun x => ⟨rfl, rfl, rfl, rfl, rfl⟩⟩
  · exact ⟨rfl, rfl, fun x => ⟨rfl, rfl, rfl, rfl, rfl⟩⟩

theorem bread_keeps (disk : Nat → Nat → List Nat) (p dev blockno : Nat) (s : Bcache)
    (hI : Inv s) :
    Inv (bread disk p dev blockno s).st ∧
    (∀ x, bgetVictim p dev blockno s ≠ some x →
      ((bread disk p dev blockno s).st.buf x).dev = (s.buf x).dev ∧
      ((bread disk p dev blockno s).st.buf x).blockno = (s.buf x).blockno ∧
      (First s x → First (bread disk p dev blockno s).st x)) := by
  have hs := bread_shape disk p dev blockno s
  have hk := bget_keeps p dev blockno s hI
  have hkeys : ∀ j, ((bread disk p dev blockno s).st.buf j).dev
        = ((bget p dev blockno s).st.buf j).dev ∧
      ((bread disk p dev blockno s).st.buf j).blockno
        = ((bget p dev blockno s).st.buf j).blockno :=
    fun j => ⟨(hs.2.2 j).1, (hs.2.2 j).2.1⟩
  refine ⟨inv_congr hs.2.1 hkeys (fun j hj => Or.inl ?_) hk.1, fun x hx => ?_⟩
  · rw [← (hs.2.2 j).2.2.1]; exact hj
  · have g := hk.2.1 x hx
    exact ⟨(hkeys x).1.trans g.1, (hkeys x).2.trans g.2.1,
      fun hf => (first_congr hs.2.1 hkeys x).2 (g.2.2.2.2 hf)⟩
/-- Every call keeps the shape of the cache, and the block and the lookup
position of every slot it does not evict; a call other than `bread` also
keeps the validity flag and the payload of such a slot. -/
theorem exec_keeps (disk : Nat → Nat → List Nat) (c : Call) (s : Bcache) (hI : Inv s) :
    Inv (exec disk c s).st ∧
    ∀ x, victim c s ≠ some x →
      ((exec disk c s).st.buf x).dev = (s.buf x).dev ∧
      ((exec disk c s).st.buf x).blockno = (s.buf x).blockno ∧
      (First s x → First (exec disk c s).st x) ∧
      (c.isBread = false →
        ((exec disk c s).st.buf x).valid = (s.buf x).valid ∧
        ((exec disk c s).st.buf x).data = (s.buf x).data) := by
  cases c with
  | bget p dev blockno =>
    have hk := bget_keeps p dev blockno s hI
    refine ⟨hk.1, fun x hx => ?_⟩
    have g := hk.2.1 x hx
    exact ⟨g.1, g.2.1, g.2.2.2.2, fun _ => ⟨g.2.2.1, g.2.2.2.1⟩⟩
  | bread p dev blockno =>
    have hk := bread_keeps disk p dev blockno s hI
    refine ⟨hk.1, fun x hx => ?_⟩
    have g := hk.2 x hx
    exact ⟨g.1, g.2.1, g.2.2, fun h => by simp [Call.isBread] at h⟩
  | bwrite p b =>
    have e : (exec disk (Call.bwrite p b) s).st = s := bwrite_st p b s
    rw [e]
    exact ⟨hI, fun x _ => ⟨rfl, rfl, id, fun _ => ⟨rfl, rfl⟩⟩⟩
  | brelse p b =>
    show Inv (brelse p b s).st ∧ ∀ x, _ →
      ((brelse p b s).st.buf x).dev = (s.buf x).dev ∧
      ((brelse p b s).st.buf x).blockno = (s.buf x).blockno ∧
      (First s x → First (brelse p b s).st x) ∧
      (_ → ((brelse p b s).st.buf x).valid = (s.buf x).valid ∧
        ((brelse p b s).st.buf x).data = (s.buf x).data)
    cases hh : holdingsleep p b s with
    | false =>
      rw [brelse_not_held p b s hh]
      exact ⟨hI, fun x _ => ⟨rfl, rfl, id, fun _ => ⟨rfl, rfl⟩⟩⟩
    | true =>
      have hk := brelse_keeps p b s hI hh
      have hf := (brelse_held p b s hh).2.1
      exact ⟨hk.1, fun x _ => ⟨(hf x).1, (hf x).2.1, hk.2 x, fun _ => ⟨(hf x).2.2.1, (hf x).2.2.2⟩⟩⟩
  | bpin b =>
    have hk := bpin_keeps b s hI
    refine ⟨hk.1, fun x _ => ⟨?_, ?_, hk.2 x, fun _ => ⟨?_, ?_⟩⟩⟩ <;>
      by_cases hx : x = b <;> simp [exec, bpin, Bcache.setBuf, hx]
  | bunpin b =>
    have hk := bunpin_keeps b s hI
    refine ⟨hk.1, fun x _ => ⟨?_, ?_, hk.2 x, fun _ => ⟨?_, ?_⟩⟩⟩ <;>
      by_cases hx : x = b <;> simp [exec, bunpin, Bcache.setBuf, hx]

theorem binit_eq (nbuf : Nat) :
    (binit nbuf).buf = bzero.buf ∧
    (binit nbuf).head = fun i => if i = 0 then (List.range nbuf).reverse else [] := by
  induction nbuf with
  | zero =>
    refine ⟨rfl, ?_⟩
    funext i
    simp [binit, bzero]
  | succ n ih =>
    have e : binit (n + 1) = pushHead (binit n) 0 n := by
      simp [binit, List.range_succ, List.foldl_append]
    rw [e]
    refine ⟨ih.1, ?_⟩
    funext i
    by_cases hi : i = 0
    · subst hi
      simp [pushHead, Bcache.setHead, ih.2, List.range_succ]
    · simp [pushHead, Bcache.setHead, ih.2, hi]

theorem binit_inv (nbuf : Nat) : Inv (binit nbuf) := by
  have h := binit_eq nbuf
  refine ⟨⟨fun i => ?_, fun i j b hi hj => ?_⟩, fun i b hb => ?_, fun b hb => ?_⟩
  · rw [h.2]
    by_cases hi : i = 0
    · simp [hi, List.nodup_range]
    · simp [hi]
  · rw [h.2] at hi hj
    by_cases h1 : i = 0
    · by_cases h2 : j = 0
      · rw [h1, h2]
      · simp [h2] at hj
    · simp [h1] at hi
  · rw [h.2] at hb
    rw [h.1]
    by_cases h1 : i = 0
    · subst h1; simp [bzero]
    · simp [h1] at hb
  · rw [h.1] at hb
    simp [bzero] at hb

theorem run_inv (disk : Nat → Nat → List Nat) :
    ∀ (t : List Call) (s s2 : Bcache), Inv s → run disk t s = some s2 → Inv s2 := by
  intro t
  induction t with
  | nil => intro s s2 hI h; simp [run] at h; rw [← h]; exact hI
  | cons c cs ih =>
    intro s s2 hI h
    simp only [run] at h
    split at h
    · exact ih _ _ (exec_keeps disk c s hI).1 h
    · cases h

theorem reachable_inv {disk : Nat → Nat → List Nat} {nbuf : Nat} {s : Bcache}
    (h : Reachable disk nbuf s) : Inv s := by
  obtain ⟨t, ht⟩ := h
  exact run_inv disk t _ _ (binit_inv nbuf) ht

theorem runSparing_keeps (disk : Nat → Nat → List Nat) (b dev blockno : Nat)
    (d : List Nat) (v : Nat) :
    ∀ (t : List Call) (s s2 : Bcache), Inv s → First s b →
      (s.buf b).dev = dev → (s.buf b).blockno = blockno →
      runSparing disk b t s = some s2 →
      Inv s2 ∧ First s2 b ∧ (s2.buf b).dev = dev ∧ (s2.buf b).blockno = blockno ∧
      ((∀ c ∈ t, c.isBread = false) → (s.buf b).data = d → (s.buf b).valid = v →
        (s2.buf b).data = d ∧ (s2.buf b).valid = v) := by
  intro t
  induction t with
  | nil =>
    intro s s2 hI hf hd hn h
    simp [runSparing] at h
    subst h
    exact ⟨hI, hf, hd, hn, fun _ h1 h2 => ⟨h1, h2⟩⟩
  | cons c cs ih =>
    intro s s2 hI hf hd hn h
    simp only [runSparing] at h
    split at h
    · cases h
    · rename_i hv
      split at h
      · have hk := exec_keeps disk c s hI
        have g := hk.2 b hv
        have r := ih _ _ hk.1 (g.2.2.1 hf) (g.1.trans hd) (g.2.1.trans hn) h
        refine ⟨r.1, r.2.1, r.2.2.1, r.2.2.2.1, fun hall h1 h2 => ?_⟩
        have hc := g.2.2.2 (hall c (List.mem_cons_self _ _))
        exact r.2.2.2.2 (fun c2 hc2 => hall c2 (List.mem_cons_of_mem _ hc2))
          (hc.2.trans h1) (hc.1.trans h2)
      · cases h

/-- C1 (hit correctness).  In a cache reachable from `binit`, let `bget` return
slot `b` for `(dev, blockno)`, let the holder leave payload `d` and validity
`v` in it, and let any sequence `t` of returning calls follow in which `b` is
never the eviction victim.  Then the next `bget` of `(dev, blockno)` delivers
`b` again (after the wait in `acquiresleep` when its content lock is still
taken), and when `t` has no `bread` the slot still holds payload `d` and
validity `v`. -/
theorem hit_correctness (disk : Nat → Nat → List Nat) (nbuf : Nat) (s0 : Bcache)
    (hreach : Reachable disk nbuf s0) (p dev blockno b : Nat)
    (h1 : (bget p dev blockno s0).out = Outcome.ret b)
    (d : List Nat) (v : Nat) (t : List Call) (s2 : Bcache)
    (hrun : runSparing disk b t
      ((bget p dev blockno s0).st.setBuf b
        { (bget p dev blockno s0).st.buf b with data := d, valid := v }) = some s2)
    (p2 : Nat) :
    (bget p2 dev blockno s2).out =
      (if (s2.buf b).locked then Outcome.sleep b else Outcome.ret b) ∧
    ((∀ c ∈ t, c.isBread = false) →
      ((bget p2 dev blockno s2).st.buf b).data = d ∧
      ((bget p2 dev blockno s2).st.buf b).valid = v) := by
  have hk := bget_keeps p dev blockno s0 (reachable_inv hreach)
  have hb := hk.2.2 b (Or.inl h1)
  have hI1 := inv_setBuf (bget p dev blockno s0).st b
    { (bget p dev blockno s0).st.buf b with data := d, valid := v } rfl rfl
    (fun h => Or.inl h) hk.1
  have hF1 := (first_setBuf (bget p dev blockno s0).st b
    { (bget p dev blockno s0).st.buf b with data := d, valid := v } rfl rfl b).2 hb.2.2
  have r := runSparing_keeps disk b dev blockno d v t _ s2 hI1 hF1
    (by simp [Bcache.setBuf, hb.1]) (by simp [Bcache.setBuf, hb.2.1]) hrun
  have hfind : (s2.head (blockno % NBUCKETS)).find? (isHit dev blockno s2) = some b := by
    have := r.2.1
    unfold First at this
    rw [r.2.2.1, r.2.2.2.1] at this
    exact this
  rw [bget_of_hit hfind]
  refine ⟨by rw [lockAndReturn_out]; simp [Bcache.setBuf], fun hall => ?_⟩
  have hdv := r.2.2.2.2 hall (by simp [Bcache.setBuf]) (by simp [Bcache.setBuf])
  have f := lockAndReturn_fields p2 b
    (s2.setBuf b { s2.buf b with refcnt := incr (s2.buf b).refcnt })
    [Event.acquire (blockno % NBUCKETS), Event.release (blockno % NBUCKETS)] b
  rw [f.2.2.2.1, f.2.2.1]
  simpa [Bcache.setBuf] using hdv
/-- The reference count and the content lock after a `bget` that returned. -/
theorem bget_ret (p dev blockno : Nat) (s : Bcache) (b : Nat)
    (h : (bget p dev blockno s).out = Outcome.ret b) :
    (s.buf b).locked = false ∧ ((bget p dev blockno s).st.buf b).locked = true ∧
    ((bget p dev blockno s).st.buf b).pid = p ∧
    ((bget p dev blockno s).st.buf b).refcnt = incr (s.buf b).refcnt ∧
    ∀ x, x ≠ b → (bget p dev blockno s).st.buf x = s.buf x := by
  have key : ∀ (c : Nat) (s1 : Bcache) (tr : List Event),
      bget p dev blockno s = lockAndReturn p c s1 tr →
      (s1.buf c).locked = (s.buf c).locked →
      (s1.buf c).refcnt = incr (s.buf c).refcnt →
      (∀ x, x ≠ c → s1.buf x = s.buf x) →
      (s.buf b).locked = false ∧ ((bget p dev blockno s).st.buf b).locked = true ∧
      ((bget p dev blockno s).st.buf b).pid = p ∧
      ((bget p dev blockno s).st.buf b).refcnt = incr (s.buf b).refcnt ∧
      ∀ x, x ≠ b → (bget p dev blockno s).st.buf x = s.buf x := by
    intro c s1 tr e hl hr hx
    rw [e] at h ⊢
    rw [lockAndReturn_out] at h
    by_cases hlk : (s1.buf c).locked = true
    · rw [if_pos hlk] at h; cases h
    · rw [if_neg hlk] at h
      have hcb : c = b := by injection h
      subst hcb
      have hlk2 : (s1.buf c).locked = false := by simpa using hlk
      refine ⟨hl ▸ hlk2, ?_, ?_, ?_, fun x hxc => ?_⟩
      · rw [lockAndReturn_buf]; simp [hlk2]
      · rw [lockAndReturn_buf]; simp [hlk2]
      · rw [lockAndReturn_buf]; simp [hlk2, hr]
      · rw [lockAndReturn_buf]; simp [hxc, hx x hxc]
  rcases bget_cases p dev blockno s with ⟨c, hc, hbget⟩ | ⟨hh, c, hc, hbget⟩ |
      ⟨hh, -, k, c, hk1, hk2, hskip, hc, tr2, hbget⟩ | ⟨hh, hnone, tr2, hbget⟩
  · exact key c _ _ hbget (by simp [Bcache.setBuf]) (by simp [Bcache.setBuf])
      (fun x hx => by simp [Bcache.setBuf, hx])
  · have hz : (s.buf c).refcnt = 0 := by
      simpa [isFree] using (rfind_some_split hc).1
    exact key c _ _ hbget (by simp [Bcache.setBuf, recycle])
      (by simp [Bcache.setBuf, recycle, hz, incr]) (fun x hx => by simp [Bcache.setBuf, hx])
  · have hz : (s.buf c).refcnt = 0 := by
      simpa [isFree] using (rfind_some_split hc).1
    exact key c _ _ hbget (by simp [stolen_buf, recycle])
      (by simp [stolen_buf, recycle, hz, incr]) (fun x hx => by simp [stolen_buf, hx])
  · rw [hbget] at h; cases h

theorem bread_ret (disk : Nat → Nat → List Nat) (p dev blockno : Nat) (s : Bcache) (b : Nat)
    (h : (bread disk p dev blockno s).out = Outcome.ret b) :
    (s.buf b).locked = false ∧ ((bread disk p dev blockno s).st.buf b).locked = true ∧
    ((bread disk p dev blockno s).st.buf b).pid = p ∧
    ((bread disk p dev blockno s).st.buf b).refcnt = incr (s.buf b).refcnt ∧
    ∀ x, x ≠ b → ((bread disk p dev blockno s).st.buf x).refcnt = (s.buf x).refcnt ∧
      ((bread disk p dev blockno s).st.buf x).locked = (s.buf x).locked := by
  have hs := bread_shape disk p dev blockno s
  rw [hs.1] at h
  have g := bget_ret p dev blockno s b h
  refine ⟨g.1, (hs.2.2 b).2.2.1.trans g.2.1, (hs.2.2 b).2.2.2.1.trans g.2.2.1,
    (hs.2.2 b).2.2.2.2.trans g.2.2.2.1, fun x hx => ?_⟩
  rw [(hs.2.2 x).2.2.2.2, (hs.2.2 x).2.2.1, g.2.2.2.2 x hx]
  exact ⟨rfl, rfl⟩

theorem decr_pos {r : Nat} (h : 0 < r) : decr r = r - 1 := by
  unfold decr; rw [if_neg (by omega)]

/-- C10 (protocol violation).  `bwrite` and `brelse` panic exactly when the
caller does not hold the content lock of the slot, and a call that panics has
emitted no event (no device write, no lock operation) and has left every slot
and every list as it was. -/
theorem protocol_violation (p b : Nat) (s : Bcache) :
    ((∃ m, (bwrite p b s).out = Outcome.panic m) ↔ holdingsleep p b s = false) ∧
    ((∃ m, (brelse p b s).out = Outcome.panic m) ↔ holdingsleep p b s = false) ∧
    ((∃ m, (bwrite p b s).out = Outcome.panic m) →
      (bwrite p b s).tr = [] ∧ (bwrite p b s).st.buf = s.buf ∧
      (bwrite p b s).st.head = s.head) ∧
    ((∃ m, (brelse p b s).out = Outcome.panic m) →
      (brelse p b s).tr = [] ∧ (brelse p b s).st.buf = s.buf ∧
      (brelse p b s).st.head = s.head) := by
  cases hh : holdingsleep p b s with
  | false =>
    have e1 : bwrite p b s = ⟨Outcome.panic Panic.bwrite, s, []⟩ := by simp [bwrite, hh]
    rw [brelse_not_held p b s hh, e1]
    exact ⟨⟨fun _ => rfl, fun _ => ⟨_, rfl⟩⟩, ⟨fun _ => rfl, fun _ => ⟨_, rfl⟩⟩,
      fun _ => ⟨rfl, rfl, rfl⟩, fun _ => ⟨rfl, rfl, rfl⟩⟩
  | true =>
    have e1 : bwrite p b s = ⟨Outcome.unit, s, [Event.disk_rw b true]⟩ := by simp [bwrite, hh]
    have e2 := (brelse_held p b s hh).1
    rw [e1, e2]
    refine ⟨⟨?_, fun h => by cases h⟩, ⟨?_, fun h => by cases h⟩, ?_, ?_⟩ <;>
      · rintro ⟨m, hm⟩; cases hm
/-- The slot that `bget` delivers, at once or after a wait, has one more
reference, as the C `uint` counts, and no other slot is touched. -/
theorem bget_delivered (p dev blockno : Nat) (s : Bcache) (b : Nat)
    (h : (bget p dev blockno s).out = Outcome.ret b ∨
      (bget p dev blockno s).out = Outcome.sleep b) :
    ((bget p dev blockno s).st.buf b).refcnt = incr (s.buf b).refcnt ∧
    ∀ x, x ≠ b → (bget p dev blockno s).st.buf x = s.buf x := by
  have key : ∀ (c : Nat) (s1 : Bcache) (tr : List Event),
      bget p dev blockno s = lockAndReturn p c s1 tr →
      (s1.buf c).refcnt = incr (s.buf c).refcnt →
      (∀ x, x ≠ c → s1.buf x = s.buf x) →
      ((bget p dev blockno s).st.buf b).refcnt = incr (s.buf b).refcnt ∧
      ∀ x, x ≠ b → (bget p dev blockno s).st.buf x = s.buf x := by
    intro c s1 tr e hr hx
    have hcb : c = b := by
      rw [e, lockAndReturn_out] at h
      rcases h with h | h <;> split at h <;> cases h <;> rfl
    subst hcb
    rw [e]
    refine ⟨((lockAndReturn_fields p c s1 tr c).2.2.2.2).trans hr, fun x hxc => ?_⟩
    rw [lockAndReturn_buf]
    simp [hxc, hx x hxc]
  rcases bget_cases p dev blockno s with ⟨c, hc, hbget⟩ | ⟨hh, c, hc, hbget⟩ |
      ⟨hh, -, k, c, hk1, hk2, hskip, hc, tr2, hbget⟩ | ⟨hh, hnone, tr2, hbget⟩
  · exact key c _ _ hbget (by simp [Bcache.setBuf]) (fun x hx => by simp [Bcache.setBuf, hx])
  · have hz : (s.buf c).refcnt = 0 := by
      simpa [isFree] using (rfind_some_split hc).1
    exact key c _ _ hbget (by simp [Bcache.setBuf, recycle, hz, incr])
      (fun x hx => by simp [Bcache.setBuf, hx])
  · have hz : (s.buf c).refcnt = 0 := by
      simpa [isFree] using (rfind_some_split hc).1
    exact key c _ _ hbget (by simp [stolen_buf, recycle, hz, incr])
      (fun x hx => by simp [stolen_buf, hx])
  · rw [hbget] at h; rcases h with h | h <;> cases h

theorem bread_delivered (disk : Nat → Nat → List Nat) (p dev blockno : Nat) (s : Bcache)
    (b : Nat)
    (h : (bread disk p dev blockno s).out = Outcome.ret b ∨
      (bread disk p dev blockno s).out = Outcome.sleep b) :
    ((bread disk p dev blockno s).st.buf b).refcnt = incr (s.buf b).refcnt ∧
    ∀ x, x ≠ b → ((bread disk p dev blockno s).st.buf x).refcnt = (s.buf x).refcnt := by
  have hs := bread_shape disk p dev blockno s
  rw [hs.1] at h
  have g := bget_delivered p dev blockno s b h
  refine ⟨(hs.2.2 b).2.2.2.2.trans g.1, fun x hx => ?_⟩
  rw [(hs.2.2 x).2.2.2.2, g.2 x hx]

theorem incr_mod (r n : Nat) (h : r = n % 4294967296) :
    incr r = (n + 1) % 4294967296 := by
  unfold incr; omega

theorem decr_mod (r n : Nat) (h : r = n % 4294967296) (hn : n ≠ 0) :
    decr r = (n - 1) % 4294967296 := by
  unfold decr; split <;> omega

theorem wake_refcnt (disk : Nat → Nat → List Nat) (v : Bool) (p b : Nat) (s s2 : Bcache)
    (h : wake disk v p b s = some s2) : ∀ x, (s2.buf x).refcnt = (s.buf x).refcnt := by
  intro x
  unfold wake at h
  split at h
  · cases h
  · simp only [] at h
    split at h
    · cases h
      by_cases hx : x = b
      · subst hx; simp [Bcache.setBuf]
      · simp [Bcache.setBuf, hx]
    · cases h
      by_cases hx : x = b
      · subst hx; simp [Bcache.setBuf]
      · simp [Bcache.setBuf, hx]

theorem stepCounted_counts (disk : Nat → Nat → List Nat) (e : Step) (k k2 : Counted)
    (hn : ∀ b, (k.st.buf b).refcnt = k.n b % 4294967296)
    (h : stepCounted disk e k = some k2) :
    ∀ b, (k2.st.buf b).refcnt = k2.n b % 4294967296 := by
  have delivered : ∀ (c : Call) (b : Nat) (w2 : Bool → Nat → Nat → Nat),
      ((exec disk c k.st).st.buf b).refcnt = incr (k.st.buf b).refcnt →
      (∀ x, x ≠ b → ((exec disk c k.st).st.buf x).refcnt = (k.st.buf x).refcnt) →
      some (Counted.mk (exec disk c k.st).st (bump k.n b) w2) = some k2 →
      ∀ x, (k2.st.buf x).refcnt = k2.n x % 4294967296 := by
    intro c b w2 g1 g2 h x
    cases h
    by_cases hx : x = b
    · subst hx; simp only [bump, if_pos]
      exact g1.trans (incr_mod _ _ (hn x))
    · simp only [bump, if_neg hx]; rw [← hn x]
      exact g2 x hx
  have released : ∀ (c : Call) (b : Nat),
      ((exec disk c k.st).st.buf b).refcnt = decr (k.st.buf b).refcnt →
      (∀ x, x ≠ b → ((exec disk c k.st).st.buf x).refcnt = (k.st.buf x).refcnt) →
      k.n b ≠ 0 →
      some (Counted.mk (exec disk c k.st).st (drop k.n b) k.w) = some k2 →
      ∀ x, (k2.st.buf x).refcnt = k2.n x % 4294967296 := by
    intro c b g1 g2 hpos h x
    cases h
    by_cases hx : x = b
    · subst hx; simp only [drop, if_pos]
      exact g1.trans (decr_mod _ _ (hn x) hpos)
    · simp only [drop, if_neg hx]; rw [← hn x]
      exact g2 x hx
  cases e with
  | wake v p b =>
    simp only [stepCounted] at h
    split at h
    · cases h
    · cases hw : wake disk v p b k.st with
      | none => rw [hw] at h; cases h
      | some s2 =>
        rw [hw] at h
        cases h
        intro x
        show (s2.buf x).refcnt = k.n x % 4294967296
        rw [wake_refcnt disk v p b k.st s2 hw x]
        exact hn x
  | call c =>
    cases c with
    | bget p dev blockno =>
      cases hout : (exec disk (Call.bget p dev blockno) k.st).out with
      | ret b =>
        simp only [stepCounted, hout] at h
        have g := bget_delivered p dev blockno k.st b (Or.inl hout)
        exact delivered (Call.bget p dev blockno) b _ g.1 (fun x hx => congrArg Buf.refcnt (g.2 x hx)) h
      | sleep b =>
        simp only [stepCounted, hout] at h
        have g := bget_delivered p dev blockno k.st b (Or.inr hout)
        exact delivered (Call.bget p dev blockno) b _ g.1 (fun x hx => congrArg Buf.refcnt (g.2 x hx)) h
      | unit => simp [stepCounted, hout] at h
      | panic m => simp [stepCounted, hout] at h
      | fuel => simp [stepCounted, hout] at h
    | bread p dev blockno =>
      cases hout : (exec disk (Call.bread p dev blockno) k.st).out with
      | ret b =>
        simp only [stepCounted, hout] at h
        have g := bread_delivered disk p dev blockno k.st b (Or.inl hout)
        exact delivered (Call.bread p dev blockno) b _ g.1 g.2 h
      | sleep b =>
        simp only [stepCounted, hout] at h
        have g := bread_delivered disk p dev blockno k.st b (Or.inr hout)
        exact delivered (Call.bread p dev blockno) b _ g.1 g.2 h
      | unit => simp [stepCounted, hout] at h
      | panic m => simp [stepCounted, hout] at h
      | fuel => simp [stepCounted, hout] at h
    | bwrite p b =>
      cases hout : (exec disk (Call.bwrite p b) k.st).out with
      | unit =>
        simp only [stepCounted, hout] at h
        cases h
        intro x
        show ((exec disk (Call.bwrite p b) k.st).st.buf x).refcnt = k.n x % 4294967296
        have e : (exec disk (Call.bwrite p b) k.st).st = k.st := bwrite_st p b k.st
        rw [e]; exact hn x
      | ret b => simp [stepCounted, hout] at h
      | sleep b => simp [stepCounted, hout] at h
      | panic m => simp [stepCounted, hout] at h
      | fuel => simp [stepCounted, hout] at h
    | brelse p b =>
      cases hout : (exec disk (Call.brelse p b) k.st).out with
      | unit =>
        simp only [stepCounted, hout] at h
        split at h
        · cases h
        · rename_i hpos
          have hh : holdingsleep p b k.st = true := by
            cases hh : holdingsleep p b k.st with
            | true => rfl
            | false =>
              have := brelse_not_held p b k.st hh
              simp only [exec] at hout
              rw [this] at hout; cases hout
          have g := brelse_held p b k.st hh
          exact released (Call.brelse p b) b g.2.2.1 (fun x hx => congrArg Buf.refcnt (g.2.2.2.2.1 x hx)) hpos h
      | ret b => simp [stepCounted, hout] at h
      | sleep b => simp [stepCounted, hout] at h
      | panic m => simp [stepCounted, hout] at h
      | fuel => simp [stepCounted, hout] at h
    | bpin b =>
      have hout : (exec disk (Call.bpin b) k.st).out = Outcome.unit := rfl
      simp only [stepCounted, hout] at h
      exact delivered (Call.bpin b) b _ (by simp [exec, bpin, Bcache.setBuf])
        (fun x hx => by simp [exec, bpin, Bcache.setBuf, hx]) h
    | bunpin b =>
      have hout : (exec disk (Call.bunpin b) k.st).out = Outcome.unit := rfl
      simp only [stepCounted, hout] at h
      split at h
      · cases h
      · rename_i hpos
        exact released (Call.bunpin b) b (by simp [exec, bunpin, Bcache.setBuf])
          (fun x hx => by simp [exec, bunpin, Bcache.setBuf, hx]) hpos h

theorem runCounted_counts (disk : Nat → Nat → List Nat) :
    ∀ (t : List Step) (k k2 : Counted),
      (∀ b, (k.st.buf b).refcnt = k.n b % 4294967296) → runCounted disk t k = some k2 →
      ∀ b, (k2.st.buf b).refcnt = k2.n b % 4294967296 := by
  intro t
  induction t with
  | nil =>
    intro k k2 hn h
    simp only [runCounted, Option.some.injEq] at h
    rw [← h]; exact hn
  | cons e es ih =>
    intro k k2 hn h
    simp only [runCounted] at h
    cases hs : stepCounted disk e k with
    | none => rw [hs] at h; cases h
    | some k1 =>
      rw [hs] at h
      exact ih k1 k2 (stepCounted_counts disk e k k1 hn hs) h

theorem runCounted_append (disk : Nat → Nat → List Nat) :
    ∀ (t1 t2 : List Step) (k : Counted),
      runCounted disk (t1 ++ t2) k =
        (runCounted disk t1 k).bind (fun r => runCounted disk t2 r) := by
  intro t1
  induction t1 with
  | nil => intro t2 k; rfl
  | cons e es ih =>
    intro t2 k
    simp only [List.cons_append, runCounted]
    cases stepCounted disk e k with
    | none => rfl
    | some k1 => exact ih t2 k1

theorem runCounted_bread_ret (disk : Nat → Nat → List Nat) (p dev blockno b : Nat)
    (cs : List Step) (k : Counted)
    (h : (exec disk (Call.bread p dev blockno) k.st).out = Outcome.ret b) :
    runCounted disk (Step.call (Call.bread p dev blockno) :: cs) k =
      runCounted disk cs ⟨(exec disk (Call.bread p dev blockno) k.st).st, bump k.n b, k.w⟩ := by
  simp only [runCounted, stepCounted, h]

theorem runCounted_bpins (disk : Nat → Nat → List Nat) (b : Nat) :
    ∀ (j : Nat) (k : Counted),
      ∃ k2, runCounted disk (List.replicate j (Step.call (Call.bpin b))) k = some k2 ∧
        k2.n b = k.n b + j := by
  intro j
  induction j with
  | zero => intro k; exact ⟨k, rfl, rfl⟩
  | succ j ih =>
    intro k
    obtain ⟨k2, h, hn⟩ := ih ⟨(exec disk (Call.bpin b) k.st).st, bump k.n b, k.w⟩
    refine ⟨k2, ?_, ?_⟩
    · have hout : (exec disk (Call.bpin b) k.st).out = Outcome.unit := rfl
      rw [List.replicate_succ]
      simp only [runCounted, stepCounted, hout]
      exact h
    · rw [hn]; simp only [bump, if_pos]; omega

/-- C7, amended (reference counting).  Along every sequence of calls from
`binit`, with the waits of suspended callers ending in between, in which each
`brelse` or `bunpin` of a slot finds an outstanding acquisition or pin of that
slot, after every step (every initial part `t1`) the reference count of each
slot is the number `n b` of callers that have acquired it, are suspended in
`acquiresleep` on it, or pinned it, and have not yet given it back, as the C
`uint` holds it: `n b` itself while fewer than 2^32 references are
outstanding, `n b` modulo 2^32 in general.  No decrement is applied to a slot
that has no outstanding reference. -/
theorem refcnt_counts_holders (disk : Nat → Nat → List Nat) (nbuf : Nat) (t1 t2 : List Step)
    (r : Counted)
    (h : runCounted disk (t1 ++ t2) ⟨binit nbuf, fun _ => 0, fun _ _ _ => 0⟩ = some r) :
    ∃ k, runCounted disk t1 ⟨binit nbuf, fun _ => 0, fun _ _ _ => 0⟩ = some k ∧
      ∀ b, (k.st.buf b).refcnt = k.n b % 4294967296 ∧
        (k.n b < 4294967296 → (k.st.buf b).refcnt = k.n b) := by
  rw [runCounted_append] at h
  cases h1 : runCounted disk t1 ⟨binit nbuf, fun _ => 0, fun _ _ _ => 0⟩ with
  | none => rw [h1] at h; cases h
  | some k =>
    have hc := runCounted_counts disk t1 ⟨binit nbuf, fun _ => 0, fun _ _ _ => 0⟩ k
      (fun b => by show ((binit nbuf).buf b).refcnt = 0 % 4294967296
                   rw [(binit_eq nbuf).1]; rfl) h1
    exact ⟨k, rfl, fun b => ⟨hc b, fun hlt => by rw [hc b]; omega⟩⟩

theorem bget_out_ne_unit (p dev blockno : Nat) (s : Bcache) :
    (bget p dev blockno s).out ≠ Outcome.unit := by
  rcases bget_cases p dev blockno s with ⟨c, -, h⟩ | ⟨-, c, -, h⟩ |
      ⟨-, -, k, c, -, -, -, -, tr2, h⟩ | ⟨-, -, tr2, h⟩
  · rw [h, lockAndReturn_out]; split <;> simp
  · rw [h, lockAndReturn_out]; split <;> simp
  · rw [h, lockAndReturn_out]; split <;> simp
  · rw [h]; simp

theorem returned_iff (r : Result) :
    r.returned = true ↔ (∃ b, r.out = Outcome.ret b) ∨ r.out = Outcome.unit := by
  unfold Result.returned
  cases r.out <;> simp

theorem exec_ref (disk : Nat → Nat → List Nat) (c : Call) (s : Bcache) (pins : Nat → Nat)
    (hR : Ref s pins) (hret : (exec disk c s).returned = true) :
    (match c with
      | Call.bpin b => Ref (exec disk c s).st (bump pins b)
      | Call.bunpin b => pins b ≠ 0 → Ref (exec disk c s).st (drop pins b)
      | _ => Ref (exec disk c s).st pins) := by
  cases c with
  | bget p dev blockno =>
    simp only []
    rcases (returned_iff _).1 hret with ⟨b, hb⟩ | hu
    · have g := bget_ret p dev blockno s b hb
      intro x
      by_cases hx : x = b
      · subst hx
        have := hR x
        rw [g.1] at this
        simp only [exec, g.2.1, g.2.2.2.1, if_true]
        simp only [Bool.false_eq_true, if_false] at this
        exact incr_mod _ _ this
      · simp only [exec, g.2.2.2.2 x hx]; exact hR x
    · exact absurd hu (bget_out_ne_unit p dev blockno s)
  | bread p dev blockno =>
    simp only []
    rcases (returned_iff _).1 hret with ⟨b, hb⟩ | hu
    · have g := bread_ret disk p dev blockno s b hb
      intro x
      by_cases hx : x = b
      · subst hx
        have := hR x
        rw [g.1] at this
        simp only [exec, g.2.1, g.2.2.2.1, if_true]
        simp only [Bool.false_eq_true, if_false] at this
        exact incr_mod _ _ this
      · simp only [exec, (g.2.2.2.2 x hx).1, (g.2.2.2.2 x hx).2]; exact hR x
    · have := (bread_shape disk p dev blockno s).1
      simp only [exec] at hu
      rw [this] at hu
      exact absurd hu (bget_out_ne_unit p dev blockno s)
  | bwrite p b =>
    simp only []
    have e : (exec disk (Call.bwrite p b) s).st = s := bwrite_st p b s
    rw [e]; exact hR
  | brelse p b =>
    simp only []
    have hh : holdingsleep p b s = true := by
      cases hh : holdingsleep p b s with
      | true => rfl
      | false =>
        have := brelse_not_held p b s hh
        simp only [exec, this, Result.returned] at hret
        cases hret
    have g := brelse_held p b s hh
    have hlk : (s.buf b).locked = true := by
      simp [holdingsleep] at hh; exact hh.1
    intro x
    by_cases hx : x = b
    · subst hx
      have := hR x
      rw [hlk] at this
      simp only [if_true] at this
      simp only [exec, g.2.2.1, g.2.2.2.1, Bool.false_eq_true, if_false]
      exact decr_mod _ _ this (by omega)
    · simp only [exec, g.2.2.2.2.1 x hx]; exact hR x
  | bpin b =>
    simp only []
    intro x
    have := hR x
    by_cases hx : x = b
    · subst hx
      simp only [exec, bpin, Bcache.setBuf, bump, if_pos]
      rw [incr_mod _ _ this]
      congr 1; omega
    · simp only [exec, bpin, Bcache.setBuf, bump, if_neg hx]; exact this
  | bunpin b =>
    simp only []
    intro hp x
    have := hR x
    by_cases hx : x = b
    · subst hx
      simp only [exec, bunpin, Bcache.setBuf, drop, if_pos]
      rw [decr_mod _ _ this (by omega)]
      congr 1; omega
    · simp only [exec, bunpin, Bcache.setBuf, drop, if_neg hx]; exact this

theorem runPinned_inv (disk : Nat → Nat → List Nat) :
    ∀ (t : List Call) (s : Bcache) (pins : Nat → Nat) (s2 : Bcache) (pins2 : Nat → Nat),
      Inv s → Ref s pins → runPinned disk t s pins = some (s2, pins2) →
      Inv s2 ∧ Ref s2 pins2 := by
  intro t
  induction t with
  | nil =>
    intro s pins s2 pins2 hI hR h
    simp only [runPinned, Option.some.injEq, Prod.mk.injEq] at h
    rw [← h.1, ← h.2]; exact ⟨hI, hR⟩
  | cons c cs ih =>
    intro s pins s2 pins2 hI hR h
    simp only [runPinned] at h
    split at h
    · rename_i hret
      have hI2 := (exec_keeps disk c s hI).1
      have hR2 := exec_ref disk c s pins hR hret
      cases c with
      | bpin b => exact ih _ _ _ _ hI2 hR2 h
      | bunpin b =>
        simp only [] at h hR2
        split at h
        · cases h
        · rename_i hp
          exact ih _ _ _ _ hI2 (hR2 hp) h
      | bget p dev blockno => exact ih _ _ _ _ hI2 hR2 h
      | bread p dev blockno => exact ih _ _ _ _ hI2 hR2 h
      | bwrite p b => exact ih _ _ _ _ hI2 hR2 h
      | brelse p b => exact ih _ _ _ _ hI2 hR2 h
    · cases h

/-- C9, amended (release).  In a cache built from `binit` by returning calls,
a `brelse` by the holder of the content lock of slot `b` returns, frees the
content lock and decrements the reference count as the C `uint` does: by
exactly one when the count is above 0, and from 0 to 4294967295.  The slot is
in the list of bucket `b.blockno % NBUCKETS`; when the count reaches 0 it
becomes the first element of that same list, the other slots keeping their
order, and all other lists are unchanged; when the count stays positive every
list is unchanged.  No slot changes device, block number or validity flag, and
every other slot is untouched. -/
theorem brelse_release (disk : Nat → Nat → List Nat) (nbuf : Nat) (t : List Call)
    (s : Bcache)
    (hrun : run disk t (binit nbuf) = some s) (p b : Nat)
    (hh : holdingsleep p b s = true) :
    (brelse p b s).out = Outcome.unit ∧
    ((brelse p b s).st.buf b).locked = false ∧
    ((brelse p b s).st.buf b).refcnt = decr (s.buf b).refcnt ∧
    (0 < (s.buf b).refcnt → ((brelse p b s).st.buf b).refcnt + 1 = (s.buf b).refcnt) ∧
    ((s.buf b).refcnt = 0 → ((brelse p b s).st.buf b).refcnt = 4294967295) ∧
    (∃ l1 l2, s.head ((s.buf b).blockno % NBUCKETS) = l1 ++ b :: l2 ∧ b ∉ l1 ++ l2 ∧
      (((brelse p b s).st.buf b).refcnt = 0 →
        (brelse p b s).st.head ((s.buf b).blockno % NBUCKETS) = b :: (l1 ++ l2))) ∧
    (((brelse p b s).st.buf b).refcnt = 0 →
      ∀ i, i ≠ (s.buf b).blockno % NBUCKETS → (brelse p b s).st.head i = s.head i) ∧
    (0 < ((brelse p b s).st.buf b).refcnt → (brelse p b s).st.head = s.head) ∧
    (∀ x, ((brelse p b s).st.buf x).dev = (s.buf x).dev ∧
      ((brelse p b s).st.buf x).blockno = (s.buf x).blockno ∧
      ((brelse p b s).st.buf x).valid = (s.buf x).valid) ∧
    (∀ x, x ≠ b → (brelse p b s).st.buf x = s.buf x) := by
  have hI := run_inv disk t (binit nbuf) s (binit_inv nbuf) hrun
  have hlk : (s.buf b).locked = true := by
    simp [holdingsleep] at hh; exact hh.1
  have g := brelse_held p b s hh
  have hmem := first_mem (hI.2.2 b hlk)
  obtain ⟨l1, l2, hl⟩ := List.append_of_mem hmem
  have hnd := hI.1.1 ((s.buf b).blockno % NBUCKETS)
  rw [hl] at hnd
  have hb1 : b ∉ l1 := fun hx =>
    (List.nodup_append.1 hnd).2.2 hx (List.mem_cons_self _ _)
  have hb2 : b ∉ l2 := fun hx =>
    (List.nodup_cons.1 (List.nodup_append.1 hnd).2.1).1 hx
  refine ⟨g.1, g.2.2.2.1, g.2.2.1, fun hp => ?_, fun hz => ?_,
    ⟨l1, l2, hl, by simp [hb1, hb2], fun hz => ?_⟩,
    fun hz i hi => ?_, fun hz => ?_, fun x => ⟨(g.2.1 x).1, (g.2.1 x).2.1, (g.2.1 x).2.2.1⟩,
    g.2.2.2.2.1⟩
  · rw [g.2.2.1, decr_pos hp]; omega
  · rw [g.2.2.1, hz]; rfl
  · rw [g.2.2.2.2.2.1 (g.2.2.1 ▸ hz), if_pos rfl, hl, List.erase_append_right _ hb1,
      List.erase_cons_head]
  · rw [g.2.2.2.2.2.1 (g.2.2.1 ▸ hz), if_neg hi]
    exact List.erase_of_not_mem (fun hx => hi (hI.1.2 _ _ b hx hmem))
  · exact g.2.2.2.2.2.2 (by rw [← g.2.2.1]; omega)

/-- A slot that `bget` returned, once moved to the front of its bucket, leaves
the same lists as if it had been moved there before the call. -/
theorem bget_ret_moved (p dev blockno : Nat) (s : Bcache) (b : Nat) (hL : Linked s)
    (h : (bget p dev blockno s).out = Outcome.ret b) (i : Nat) :
    (if i = blockno % NBUCKETS then b :: ((bget p dev blockno s).st.head i).erase b
      else ((bget p dev blockno s).st.head i).erase b) =
    (if i = blockno % NBUCKETS then b :: (s.head i).erase b else (s.head i).erase b) := by
  have key : ∀ (c : Nat) (s1 : Bcache) (tr : List Event),
      bget p dev blockno s = lockAndReturn p c s1 tr → c = b := by
    intro c s1 tr e
    rw [e, lockAndReturn_out] at h
    split at h <;> cases h; rfl
  rcases bget_cases p dev blockno s with ⟨c, hc, hbget⟩ | ⟨hh, c, hc, hbget⟩ |
      ⟨hh, -, k, c, hk1, hk2, hskip, hc, tr2, hbget⟩ | ⟨hh, hnone, tr2, hbget⟩
  · rw [hbget, lockAndReturn_head]; rfl
  · rw [hbget, lockAndReturn_head]; rfl
  · have hcb := key c _ _ hbget
    subst hcb
    rw [hbget, lockAndReturn_head, stolen_head]
    have hne : ∀ j, c ∉ (s.head j).erase c := fun j hx => ((hL.1 j).mem_erase_iff.1 hx).1 rfl
    by_cases hi : i = blockno % NBUCKETS
    · subst hi; simp only [if_true, List.erase_cons_head]
    · simp only [if_neg hi]; rw [List.erase_of_not_mem (hne i)]
  · rw [hbget] at h; cases h

theorem useBlock_effect (disk : Nat → Nat → List Nat) (p dev blockno : Nat) (L L2 : Lru)
    (hI : Inv L.st) (hF : AllFree L.st)
    (h : useBlock disk p (dev, blockno) L = some L2) :
    ∃ b, L2.clock = L.clock + 1 ∧
      L2.stamp = (fun j => if j = b then L.clock + 1 else L.stamp j) ∧
      (∀ i, L2.st.head i =
        if i = blockno % NBUCKETS then b :: (L.st.head i).erase b
        else (L.st.head i).erase b) ∧
      AllFree L2.st ∧ Inv L2.st := by
  unfold useBlock at h
  simp only [] at h
  split at h
  · rename_i b hb
    split at h
    · rename_i hu
      simp only [Option.some.injEq] at h
      subst h
      have g := bread_ret disk p dev blockno L.st b hb
      have hs := bread_shape disk p dev blockno L.st
      have hb2 : (bget p dev blockno L.st).out = Outcome.ret b := by rw [← hs.1]; exact hb
      have hk := bget_keeps p dev blockno L.st hI
      have hbn : ((bread disk p dev blockno L.st).st.buf b).blockno = blockno :=
        ((hs.2.2 b).2.1).trans (hk.2.2 b (Or.inl hb2)).2.1
      have hh : holdingsleep p b (bread disk p dev blockno L.st).st = true := by
        simp [holdingsleep, g.2.1, g.2.2.1]
      have r := brelse_held p b _ hh
      have hIb := (bread_keeps disk p dev blockno L.st hI).1
      have hz : decr ((bread disk p dev blockno L.st).st.buf b).refcnt = 0 := by
        rw [g.2.2.2.1, (hF b).1]; rfl
      refine ⟨b, rfl, rfl, fun i => ?_, fun x => ?_, (brelse_keeps p b _ hIb hh).1⟩
      · rw [r.2.2.2.2.2.1 hz i, hbn, hs.2.1]
        exact bget_ret_moved p dev blockno L.st b hI.1 hb2 i
      · by_cases hx : x = b
        · subst hx; exact ⟨r.2.2.1.trans hz, r.2.2.2.1⟩
        · rw [r.2.2.2.2.1 x hx, (g.2.2.2.2 x hx).1, (g.2.2.2.2 x hx).2]
          exact hF x
    · cases h
  · cases h

theorem useBlock_recency (disk : Nat → Nat → List Nat) (p : Nat) (k : Nat × Nat) (L L2 : Lru)
    (hI : Inv L.st) (hF : AllFree L.st) (hR : Recency L)
    (h : useBlock disk p k L = some L2) :
    Inv L2.st ∧ AllFree L2.st ∧ Recency L2 := by
  obtain ⟨b, hc, hs, hh, hF2, hI2⟩ := useBlock_effect disk p k.1 k.2 L L2 hI hF h
  refine ⟨hI2, hF2, fun i => ?_, fun x => ?_⟩
  · have hne : b ∉ (L.st.head i).erase b := fun hx =>
      ((hI.1.1 i).mem_erase_iff.1 hx).1 rfl
    have hpw : ((L.st.head i).erase b).Pairwise (fun x y => L2.stamp y ≤ L2.stamp x) := by
      have h0 := (hR.1 i).sublist (List.erase_sublist b (L.st.head i))
      refine h0.imp_of_mem ?_
      intro x y hx hy hxy
      have hxb : x ≠ b := fun e => hne (e ▸ hx)
      have hyb : y ≠ b := fun e => hne (e ▸ hy)
      rw [hs]; simp only [if_neg hxb, if_neg hyb]; exact hxy
    rw [hh i]
    split
    · refine List.pairwise_cons.2 ⟨fun y hy => ?_, hpw⟩
      have hyb : y ≠ b := fun e => hne (e ▸ hy)
      rw [hs]; simp only [if_neg hyb, if_true]
      have := hR.2 y; omega
    · exact hpw
  · rw [hs, hc]
    simp only []
    split
    · exact Nat.le_refl _
    · have := hR.2 x; omega

theorem useBlocks_recency (disk : Nat → Nat → List Nat) (p : Nat) :
    ∀ (ks : List (Nat × Nat)) (L L2 : Lru), Inv L.st → AllFree L.st → Recency L →
      useBlocks disk p ks L = some L2 → Inv L2.st ∧ AllFree L2.st ∧ Recency L2 := by
  intro ks
  induction ks with
  | nil =>
    intro L L2 hI hF hR h
    simp only [useBlocks, Option.some.injEq] at h
    subst h; exact ⟨hI, hF, hR⟩
  | cons k ks ih =>
    intro L L2 hI hF hR h
    simp only [useBlocks] at h
    split at h
    · rename_i L1 h1
      have r := useBlock_recency disk p k L L1 hI hF hR h1
      exact ih L1 L2 r.1 r.2.1 r.2.2 h
    · cases h
theorem rfind_none_nil {s : Bcache} (hF : AllFree s) {l : List Nat}
    (h : l.reverse.find? (isFree s) = none) : l = [] := by
  cases l with
  | nil => rfl
  | cons a l =>
    have := rfind_none_all.1 h a (List.mem_cons_self _ _)
    simp [isFree, (hF a).1] at this

theorem rfind_some_last {s : Bcache} (hF : AllFree s) {l : List Nat} {c : Nat}
    (h : l.reverse.find? (isFree s) = some c) : ∃ l1, l = l1 ++ [c] := by
  rcases rfind_some_split h with ⟨-, l1, l2, hl, hn⟩
  cases l2 with
  | nil => exact ⟨l1, hl⟩
  | cons a l2 =>
    have := hn a (List.mem_cons_self _ _)
    simp [isFree, (hF a).1] at this

/-- C8, amended (eviction order per bucket).  After any number of rounds of
`bread` followed by `brelse` from `binit`, a miss takes its victim from the
first non-empty bucket in the order home, home+1, ... (modulo `NBUCKETS`), and
the victim is the last slot of that list: no slot of that bucket was released
before it (a slot never released counts as released at time 0). -/
theorem lru_per_bucket (disk : Nat → Nat → List Nat) (nbuf p : Nat) (ks : List (Nat × Nat))
    (L : Lru) (h : useBlocks disk p ks ⟨binit nbuf, 0, fun _ => 0⟩ = some L)
    (dev blockno v : Nat) (hv : bgetVictim p dev blockno L.st = some v) :
    ∃ k l, k ≤ 12 ∧
      (∀ j, j < k → L.st.head ((blockno % NBUCKETS + j) % NBUCKETS) = []) ∧
      L.st.head ((blockno % NBUCKETS + k) % NBUCKETS) = l ++ [v] ∧
      ∀ x ∈ l, L.stamp v ≤ L.stamp x := by
  have r := useBlocks_recency disk p ks ⟨binit nbuf, 0, fun _ => 0⟩ L (binit_inv nbuf)
    (fun b => by rw [(binit_eq nbuf).1]; simp [bzero])
    ⟨fun i => List.pairwise_of_forall (fun _ _ => Nat.le_refl _), fun _ => Nat.le_refl _⟩ h
  have hF := r.2.1
  have hmod : (blockno % NBUCKETS + 0) % NBUCKETS = blockno % NBUCKETS := by
    simp only [NBUCKETS]; omega
  have hlast : ∀ i c, (L.st.head i).reverse.find? (isFree L.st) = some c →
      ∃ l, L.st.head i = l ++ [c] ∧ ∀ x ∈ l, L.stamp c ≤ L.stamp x := by
    intro i c hc
    obtain ⟨l, hl⟩ := rfind_some_last hF hc
    refine ⟨l, hl, fun x hx => ?_⟩
    have hp := r.2.2.1 i
    rw [hl] at hp
    exact (List.pairwise_append.1 hp).2.2 x hx c (List.mem_singleton_self c)
  unfold bgetVictim at hv
  rcases bget_cases p dev blockno L.st with ⟨c, hc, hbget⟩ | ⟨hh, c, hc, hbget⟩ |
      ⟨hh, hhome, k, c, hk1, hk2, hskip, hc, tr2, hbget⟩ | ⟨hh, hnone, tr2, hbget⟩
  · rw [hc] at hv; cases hv
  · rw [hh, hbget, lockAndReturn_out] at hv
    simp only [Bcache.setBuf, if_pos, recycle, (hF c).2] at hv
    simp at hv
    subst hv
    obtain ⟨l, hl, hle⟩ := hlast _ c hc
    exact ⟨0, l, by omega, fun j hj => by omega, by rw [hmod]; exact hl, hle⟩
  · rw [hh, hbget, lockAndReturn_out] at hv
    simp only [stolen_buf, if_pos, recycle, (hF c).2] at hv
    simp at hv
    subst hv
    obtain ⟨l, hl, hle⟩ := hlast _ c hc
    refine ⟨k, l, hk2, fun j hj => ?_, hl, hle⟩
    by_cases hj0 : j = 0
    · subst hj0; rw [hmod]; exact rfind_none_nil hF hhome
    · exact rfind_none_nil hF (hskip j (by omega) hj)
  · rw [hh, hbget] at hv; cases hv

/-- C8 as stated fails.  Two slots; blocks (0, 0), (0, 13) and (0, 1) are used
in turn, which leaves both slots unreferenced, slot 0 last released at time 2
and slot 1 at time 3.  The miss on block (0, 14) evicts slot 1, the slot
released last, because it is the one in the home bucket. -/
theorem lru_global_order_fails :
    (useBlocks (fun _ _ => []) 1 [(0, 0), (0, 13), (0, 1)] ⟨binit 2, 0, fun _ => 0⟩).map
      (fun L => (bgetVictim 1 0 14 L.st, L.stamp 0, L.stamp 1, (L.st.buf 0).refcnt,
        (L.st.buf 1).refcnt)) = some (some 1, 2, 3, 0, 0) := by
  decide
/-- C2 as stated fails.  On the cache of one slot that `binit` leaves, a
`bunpin` of slot 0 leaves its count at 4294967295; the lookup of block (0, 0)
then hits slot 0, returns it, and leaves the count at 0. -/
theorem bget_hit_wraps :
    0 ∈ (bunpin 0 (binit 1)).st.head (0 % NBUCKETS) ∧
    ((bunpin 0 (binit 1)).st.buf 0).dev = 0 ∧
    ((bunpin 0 (binit 1)).st.buf 0).blockno = 0 ∧
    ((bunpin 0 (binit 1)).st.buf 0).refcnt = 4294967295 ∧
    (bget 1 0 0 (bunpin 0 (binit 1)).st).out = Outcome.ret 0 ∧
    ((bget 1 0 0 (bunpin 0 (binit 1)).st).st.buf 0).refcnt = 0 := by
  decide

/-- Witness of C2: the lookup of block (0, 0) in the cache of two slots that
`binit` leaves hits slot 1, the first of bucket 0. -/
theorem bget_hit_path_witness :
    (1 ∈ (binit 2).head (0 % NBUCKETS) ∧
      (((binit 2).buf 1).dev = 0 ∧ ((binit 2).buf 1).blockno = 0)) ∧
    ∃ b l1 l2,
      (binit 2).head (0 % NBUCKETS) = l1 ++ b :: l2 ∧
      (∀ x ∈ l1, ¬ (((binit 2).buf x).dev = 0 ∧ ((binit 2).buf x).blockno = 0)) ∧
      (((binit 2).buf b).dev = 0 ∧ ((binit 2).buf b).blockno = 0) ∧
      (bget 1 0 0 (binit 2)).out =
        (if ((binit 2).buf b).locked then Outcome.sleep b else Outcome.ret b) ∧
      ((bget 1 0 0 (binit 2)).st.buf b).refcnt
        = (((binit 2).buf b).refcnt + 1) % 4294967296 ∧
      (((binit 2).buf b).refcnt < 4294967295 →
        ((bget 1 0 0 (binit 2)).st.buf b).refcnt = ((binit 2).buf b).refcnt + 1) ∧
      (∀ j, ((bget 1 0 0 (binit 2)).st.buf j).dev = ((binit 2).buf j).dev ∧
        ((bget 1 0 0 (binit 2)).st.buf j).blockno = ((binit 2).buf j).blockno ∧
        ((bget 1 0 0 (binit 2)).st.buf j).valid = ((binit 2).buf j).valid ∧
        ((bget 1 0 0 (binit 2)).st.buf j).data = ((binit 2).buf j).data) ∧
      (∀ j, j ≠ b → (bget 1 0 0 (binit 2)).st.buf j = (binit 2).buf j) ∧
      (bget 1 0 0 (binit 2)).st.head = (binit 2).head ∧
      (bget 1 0 0 (binit 2)).tr =
        [Event.acquire (0 % NBUCKETS), Event.release (0 % NBUCKETS),
          Event.acquiresleep b] ∧
      (∀ x w, Event.disk_rw x w ∉ (bget 1 0 0 (binit 2)).tr) :=
  ⟨by decide, bget_hit_path 1 0 0 (binit 2) 1 (by decide) (by decide)⟩

/-- Witness of C3: block (0, 13) is not cached after `binit`; its home bucket 0
holds the free slots 1 and 0, and slot 0 at the LRU end is recycled. -/
theorem bget_local_eviction_witness :
    ((∀ x ∈ (binit 2).head (13 % NBUCKETS),
        ¬ (((binit 2).buf x).dev = 0 ∧ ((binit 2).buf x).blockno = 13)) ∧
      0 ∈ (binit 2).head (13 % NBUCKETS) ∧ ((binit 2).buf 0).refcnt = 0) ∧
    ∃ b l1 l2,
      (binit 2).head (13 % NBUCKETS) = l1 ++ b :: l2 ∧
      ((binit 2).buf b).refcnt = 0 ∧ (∀ x ∈ l2, ((binit 2).buf x).refcnt ≠ 0) ∧
      (bget 1 0 13 (binit 2)).out =
        (if ((binit 2).buf b).locked then Outcome.sleep b else Outcome.ret b) ∧
      ((bget 1 0 13 (binit 2)).st.buf b).dev = 0 ∧
      ((bget 1 0 13 (binit 2)).st.buf b).blockno = 13 ∧
      ((bget 1 0 13 (binit 2)).st.buf b).valid = 0 ∧
      ((bget 1 0 13 (binit 2)).st.buf b).refcnt = 1 ∧
      ((bget 1 0 13 (binit 2)).st.buf b).data = ((binit 2).buf b).data ∧
      (∀ j, j ≠ b → (bget 1 0 13 (binit 2)).st.buf j = (binit 2).buf j) ∧
      (bget 1 0 13 (binit 2)).st.head = (binit 2).head :=
  ⟨by decide, bget_local_eviction 1 0 13 (binit 2) 0 (by decide) (by decide) (by decide)⟩

/-- Witness of C4: block (0, 1) has the empty home bucket 1 after `binit`; the
scan reaches bucket 0 after twelve steps and moves slot 0 over. -/
theorem bget_steal_witness :
    (Linked (binit 2) ∧
      (∀ x ∈ (binit 2).head (1 % NBUCKETS),
        ¬ (((binit 2).buf x).dev = 0 ∧ ((binit 2).buf x).blockno = 1)) ∧
      (∀ x ∈ (binit 2).head (1 % NBUCKETS), ((binit 2).buf x).refcnt ≠ 0) ∧
      0 < NBUCKETS ∧ 0 ∈ (binit 2).head 0 ∧ ((binit 2).buf 0).refcnt = 0) ∧
    ∃ k b l1 l2, 1 ≤ k ∧ k ≤ 12 ∧
      (∀ j, 1 ≤ j → j < k →
        ∀ x ∈ (binit 2).head ((1 % NBUCKETS + j) % NBUCKETS), ((binit 2).buf x).refcnt ≠ 0) ∧
      (binit 2).head ((1 % NBUCKETS + k) % NBUCKETS) = l1 ++ b :: l2 ∧
      ((binit 2).buf b).refcnt = 0 ∧ (∀ x ∈ l2, ((binit 2).buf x).refcnt ≠ 0) ∧
      (bget 1 0 1 (binit 2)).out =
        (if ((binit 2).buf b).locked then Outcome.sleep b else Outcome.ret b) ∧
      (bget 1 0 1 (binit 2)).st.head ((1 % NBUCKETS + k) % NBUCKETS) = l1 ++ l2 ∧
      b ∉ l1 ++ l2 ∧
      (bget 1 0 1 (binit 2)).st.head (1 % NBUCKETS)
        = b :: (binit 2).head (1 % NBUCKETS) ∧
      (∀ j, j ≠ 1 % NBUCKETS → j ≠ (1 % NBUCKETS + k) % NBUCKETS →
        (bget 1 0 1 (binit 2)).st.head j = (binit 2).head j) ∧
      ((bget 1 0 1 (binit 2)).st.buf b).dev = 0 ∧
      ((bget 1 0 1 (binit 2)).st.buf b).blockno = 1 ∧
      ((bget 1 0 1 (binit 2)).st.buf b).valid = 0 ∧
      ((bget 1 0 1 (binit 2)).st.buf b).refcnt = 1 ∧
      ((bget 1 0 1 (binit 2)).st.buf b).data = ((binit 2).buf b).data ∧
      (∀ j, j ≠ b → (bget 1 0 1 (binit 2)).st.buf j = (binit 2).buf j) :=
  ⟨⟨(binit_inv 2).1, by decide, by decide, by decide, by decide, by decide⟩,
    bget_steal 1 0 1 (binit 2) 0 0 (binit_inv 2).1 (by decide) (by decide) (by decide)
      (by decide) (by decide)⟩

/-- Witness of C6: slot 1 is held for block (0, 0); a miss on block (0, 13)
leaves it alone. -/
theorem bget_spares_referenced_witness :
    0 < ((bget 1 0 0 (binit 2)).st.buf 1).refcnt ∧
    (((bget 2 0 13 (bget 1 0 0 (binit 2)).st).st.buf 1).dev
        = ((bget 1 0 0 (binit 2)).st.buf 1).dev ∧
      ((bget 2 0 13 (bget 1 0 0 (binit 2)).st).st.buf 1).blockno
        = ((bget 1 0 0 (binit 2)).st.buf 1).blockno ∧
      ((bget 2 0 13 (bget 1 0 0 (binit 2)).st).st.buf 1).valid
        = ((bget 1 0 0 (binit 2)).st.buf 1).valid ∧
      ((bget 2 0 13 (bget 1 0 0 (binit 2)).st).st.buf 1).data
        = ((bget 1 0 0 (binit 2)).st.buf 1).data ∧
      ∀ i, 1 ∈ (bget 2 0 13 (bget 1 0 0 (binit 2)).st).st.head i ↔
        1 ∈ (bget 1 0 0 (binit 2)).st.head i) :=
  ⟨by decide, bget_spares_referenced 2 0 13 (bget 1 0 0 (binit 2)).st 1 (by decide)⟩

/-- Witness of C1: slot 1 is acquired for block (0, 0), its holder writes the
payload [7] and releases it; the next lookup of the block finds slot 1 with
that payload. -/
theorem hit_correctness_witness :
    (Reachable (fun _ _ => []) 2 (binit 2) ∧
      (bget 1 0 0 (binit 2)).out = Outcome.ret 1 ∧
      runSparing (fun _ _ => []) 1 [Call.brelse 1 1]
        ((bget 1 0 0 (binit 2)).st.setBuf 1
          { (bget 1 0 0 (binit 2)).st.buf 1 with data := [7], valid := 1 })
        = some (brelse 1 1 ((bget 1 0 0 (binit 2)).st.setBuf 1
          { (bget 1 0 0 (binit 2)).st.buf 1 with data := [7], valid := 1 })).st) ∧
    ((bget 2 0 0 (brelse 1 1 ((bget 1 0 0 (binit 2)).st.setBuf 1
          { (bget 1 0 0 (binit 2)).st.buf 1 with data := [7], valid := 1 })).st).out =
      (if ((brelse 1 1 ((bget 1 0 0 (binit 2)).st.setBuf 1
          { (bget 1 0 0 (binit 2)).st.buf 1 with data := [7], valid := 1 })).st.buf 1).locked
        then Outcome.sleep 1 else Outcome.ret 1) ∧
    ((∀ c ∈ [Call.brelse 1 1], c.isBread = false) →
      ((bget 2 0 0 (brelse 1 1 ((bget 1 0 0 (binit 2)).st.setBuf 1
          { (bget 1 0 0 (binit 2)).st.buf 1 with data := [7], valid := 1 })).st).st.buf 1).data
        = [7] ∧
      ((bget 2 0 0 (brelse 1 1 ((bget 1 0 0 (binit 2)).st.setBuf 1
          { (bget 1 0 0 (binit 2)).st.buf 1 with data := [7], valid := 1 })).st).st.buf 1).valid
        = 1)) :=
  ⟨⟨⟨[], rfl⟩, by decide, rfl⟩,
    hit_correctness (fun _ _ => []) 2 (binit 2) ⟨[], rfl⟩ 1 0 0 1 (by decide) [7] 1
      [Call.brelse 1 1] _ rfl 2⟩

/-- Witness of C7: process 1 holds slot 1, process 2 is suspended on it (count
2); process 1 releases the slot and the wait of process 2 ends (count 1); the
`brelse` of process 2 follows. -/
theorem refcnt_counts_holders_witness :
    runCounted (fun _ _ => [])
        ([Step.call (Call.bread 1 0 0), Step.call (Call.bread 2 0 0),
            Step.call (Call.brelse 1 1), Step.wake true 2 1]
          ++ [Step.call (Call.brelse 2 1)])
        ⟨binit 2, fun _ => 0, fun _ _ _ => 0⟩
      = some ((runCounted (fun _ _ => [])
          ([Step.call (Call.bread 1 0 0), Step.call (Call.bread 2 0 0),
              Step.call (Call.brelse 1 1), Step.wake true 2 1]
            ++ [Step.call (Call.brelse 2 1)])
          ⟨binit 2, fun _ => 0, fun _ _ _ => 0⟩).get (by decide)) ∧
    ∃ k, runCounted (fun _ _ => [])
        [Step.call (Call.bread 1 0 0), Step.call (Call.bread 2 0 0),
          Step.call (Call.brelse 1 1), Step.wake true 2 1]
        ⟨binit 2, fun _ => 0, fun _ _ _ => 0⟩ = some k ∧
      ∀ b, (k.st.buf b).refcnt = k.n b % 4294967296 ∧
        (k.n b < 4294967296 → (k.st.buf b).refcnt = k.n b) :=
  ⟨(Option.some_get _).symm,
    refcnt_counts_holders (fun _ _ => []) 2
      [Step.call (Call.bread 1 0 0), Step.call (Call.bread 2 0 0),
        Step.call (Call.brelse 1 1), Step.wake true 2 1]
      [Step.call (Call.brelse 2 1)] _ (Option.some_get (by decide)).symm⟩

/-- C7 as stated fails.  Process 1 holds slot 1 for block (0, 0) and the
`bread` of process 2 for the same block is suspended in `acquiresleep`: one
caller has acquired the slot and its count is 2.  And after a `bread` and
4294967295 calls of `bpin` on the slot, 4294967296 references are outstanding
and its count is 0. -/
theorem refcnt_miscounts :
    ((bread (fun _ _ => []) 1 0 0 (binit 2)).out = Outcome.ret 1 ∧
      (bread (fun _ _ => []) 2 0 0 (bread (fun _ _ => []) 1 0 0 (binit 2)).st).out
        = Outcome.sleep 1 ∧
      ((bread (fun _ _ => []) 2 0 0 (bread (fun _ _ => []) 1 0 0 (binit 2)).st).st.buf 1).refcnt
        = 2) ∧
    ∃ k, runCounted (fun _ _ => [])
        (Step.call (Call.bread 1 0 0) :: List.replicate 4294967295 (Step.call (Call.bpin 1)))
        ⟨binit 2, fun _ => 0, fun _ _ _ => 0⟩ = some k ∧
      k.n 1 = 4294967296 ∧ (k.st.buf 1).refcnt = 0 := by
  refine ⟨by decide, ?_⟩
  have hout : (exec (fun _ _ => []) (Call.bread 1 0 0) (binit 2)).out = Outcome.ret 1 := by
    decide
  obtain ⟨k, hrun, hn⟩ := runCounted_bpins (fun _ _ => []) 1 4294967295
    ⟨(exec (fun _ _ => []) (Call.bread 1 0 0) (binit 2)).st, bump (fun _ => 0) 1,
      fun _ _ _ => 0⟩
  have hall := (runCounted_bread_ret (fun _ _ => []) 1 0 0 1
    (List.replicate 4294967295 (Step.call (Call.bpin 1)))
    ⟨binit 2, fun _ => 0, fun _ _ _ => 0⟩ hout).trans hrun
  have hn1 : k.n 1 = 4294967296 := by
    rw [hn]; rfl
  have hc := runCounted_counts (fun _ _ => []) _ ⟨binit 2, fun _ => 0, fun _ _ _ => 0⟩ k
    (fun b => by show ((binit 2).buf b).refcnt = 0 % 4294967296
                 rw [(binit_eq 2).1]; rfl) hall 1
  exact ⟨k, hall, hn1, by rw [hc, hn1]⟩

/-- Witness of C8: after three rounds on two slots, the miss on block (0, 14)
takes slot 1, the only slot of its home bucket 1. -/
theorem lru_per_bucket_witness :
    (useBlocks (fun _ _ => []) 1 [(0, 0), (0, 13), (0, 1)] ⟨binit 2, 0, fun _ => 0⟩
      = some ((useBlocks (fun _ _ => []) 1 [(0, 0), (0, 13), (0, 1)]
          ⟨binit 2, 0, fun _ => 0⟩).get (by decide)) ∧
      bgetVictim 1 0 14 ((useBlocks (fun _ _ => []) 1 [(0, 0), (0, 13), (0, 1)]
          ⟨binit 2, 0, fun _ => 0⟩).get (by decide)).st = some 1) ∧
    ∃ k l, k ≤ 12 ∧
      (∀ j, j < k → ((useBlocks (fun _ _ => []) 1 [(0, 0), (0, 13), (0, 1)]
          ⟨binit 2, 0, fun _ => 0⟩).get (by decide)).st.head
            ((14 % NBUCKETS + j) % NBUCKETS) = []) ∧
      ((useBlocks (fun _ _ => []) 1 [(0, 0), (0, 13), (0, 1)]
          ⟨binit 2, 0, fun _ => 0⟩).get (by decide)).st.head
            ((14 % NBUCKETS + k) % NBUCKETS) = l ++ [1] ∧
      ∀ x ∈ l, ((useBlocks (fun _ _ => []) 1 [(0, 0), (0, 13), (0, 1)]
          ⟨binit 2, 0, fun _ => 0⟩).get (by decide)).stamp 1 ≤
        ((useBlocks (fun _ _ => []) 1 [(0, 0), (0, 13), (0, 1)]
          ⟨binit 2, 0, fun _ => 0⟩).get (by decide)).stamp x :=
  ⟨⟨(Option.some_get _).symm, by decide⟩,
    lru_per_bucket (fun _ _ => []) 2 1 [(0, 0), (0, 13), (0, 1)] _
      (Option.some_get _).symm 0 14 1 (by decide)⟩

/-- Witness of C9: on a cache of three slots process 1 gets slot 0, the last
of bucket 0, for block (0, 13) and releases it; the count goes from 1 to 0 and
the slot moves to the front of the list. -/
theorem brelse_release_witness :
    (run (fun _ _ => []) [Call.bget 1 0 13] (binit 3) = some (bget 1 0 13 (binit 3)).st ∧
      holdingsleep 1 0 (bget 1 0 13 (binit 3)).st = true) ∧
    (brelse 1 0 (bget 1 0 13 (binit 3)).st).out = Outcome.unit ∧
    ((brelse 1 0 (bget 1 0 13 (binit 3)).st).st.buf 0).locked = false ∧
    ((brelse 1 0 (bget 1 0 13 (binit 3)).st).st.buf 0).refcnt
      = decr ((bget 1 0 13 (binit 3)).st.buf 0).refcnt ∧
    (0 < ((bget 1 0 13 (binit 3)).st.buf 0).refcnt →
      ((brelse 1 0 (bget 1 0 13 (binit 3)).st).st.buf 0).refcnt + 1
        = ((bget 1 0 13 (binit 3)).st.buf 0).refcnt) ∧
    (bget 1 0 13 (binit 3)).st.head 0 = [2, 1, 0] ∧
    (brelse 1 0 (bget 1 0 13 (binit 3)).st).st.head 0 = [0, 2, 1] :=
  ⟨⟨rfl, by decide⟩,
    (brelse_release (fun _ _ => []) 3 [Call.bget 1 0 13] (bget 1 0 13 (binit 3)).st
      rfl 1 0 (by decide)).1,
    (brelse_release (fun _ _ => []) 3 [Call.bget 1 0 13] (bget 1 0 13 (binit 3)).st
      rfl 1 0 (by decide)).2.1,
    (brelse_release (fun _ _ => []) 3 [Call.bget 1 0 13] (bget 1 0 13 (binit 3)).st
      rfl 1 0 (by decide)).2.2.1,
    (brelse_release (fun _ _ => []) 3 [Call.bget 1 0 13] (bget 1 0 13 (binit 3)).st
      rfl 1 0 (by decide)).2.2.2.1,
    by decide, by decide⟩

/-- C9 as stated fails.  On a cache of three slots process 1 gets slot 0 for
block (0, 13); a `bunpin` of the slot, which returns, leaves the count at 0
while process 1 still holds the content lock; its `brelse` then leaves the
count at 4294967295. -/
theorem brelse_wraps :
    run (fun _ _ => []) [Call.bget 1 0 13, Call.bunpin 0] (binit 3)
      = some (bunpin 0 (bget 1 0 13 (binit 3)).st).st ∧
    holdingsleep 1 0 (bunpin 0 (bget 1 0 13 (binit 3)).st).st = true ∧
    ((bunpin 0 (bget 1 0 13 (binit 3)).st).st.buf 0).refcnt = 0 ∧
    (brelse 1 0 (bunpin 0 (bget 1 0 13 (binit 3)).st).st).out = Outcome.unit ∧
    ((brelse 1 0 (bunpin 0 (bget 1 0 13 (binit 3)).st).st).st.buf 0).refcnt = 4294967295 :=
  ⟨rfl, by decide, by decide, by decide, by decide⟩

/-- The slot that `bget` delivers carries the requested block and is the slot a
lookup of that block finds afterwards; this needs no assumption on the cache. -/
theorem bget_first (p dev blockno : Nat) (s : Bcache) (b : Nat)
    (h : (bget p dev blockno s).out = Outcome.ret b ∨
      (bget p dev blockno s).out = Outcome.sleep b) :
    ((bget p dev blockno s).st.buf b).dev = dev ∧
    ((bget p dev blockno s).st.buf b).blockno = blockno ∧
    First (bget p dev blockno s).st b := by
  have key : ∀ (c : Nat) (s1 : Bcache) (tr : List Event),
      bget p dev blockno s = lockAndReturn p c s1 tr →
      (s1.buf c).dev = dev → (s1.buf c).blockno = blockno → First s1 c →
      ((bget p dev blockno s).st.buf b).dev = dev ∧
      ((bget p dev blockno s).st.buf b).blockno = blockno ∧
      First (bget p dev blockno s).st b := by
    intro c s1 tr e hd hn hf
    have hcb : c = b := by
      rw [e, lockAndReturn_out] at h
      rcases h with h | h <;> split at h <;> cases h <;> rfl
    subst hcb
    rw [e]
    have f := lockAndReturn_fields p c s1 tr c
    exact ⟨f.1.trans hd, f.2.1.trans hn, (lockAndReturn_first p c s1 tr c).2 hf⟩
  rcases bget_cases p dev blockno s with ⟨c, hc, hbget⟩ | ⟨hh, c, hc, hbget⟩ |
      ⟨hh, -, k, c, hk1, hk2, hskip, hc, tr2, hbget⟩ | ⟨hh, hnone, tr2, hbget⟩
  · have hf := first_of_hit hc
    exact key c _ _ hbget (by simp [Bcache.setBuf, hf.1]) (by simp [Bcache.setBuf, hf.2.1])
      ((first_setBuf s c { s.buf c with refcnt := incr (s.buf c).refcnt } rfl rfl c).2 hf.2.2)
  · have hmem : c ∈ s.head (blockno % NBUCKETS) := by
      simpa using List.mem_of_find?_eq_some hc
    exact key c _ _ hbget (by simp [Bcache.setBuf, recycle]) (by simp [Bcache.setBuf, recycle])
      (first_recycled dev blockno c hh hmem).1
  · exact key c _ _ hbget (by simp [stolen_buf, recycle]) (by simp [stolen_buf, recycle])
      (first_stolen dev blockno c hh).1
  · rw [hbget] at h; rcases h with h | h <;> cases h

theorem bgetSteal_found_tr (p dev blockno : Nat) (s : Bcache) (h b : Nat) :
    ∀ (d fuel nb : Nat) (tr : List Event), d < fuel →
      (∀ i, i < d → (s.head ((nb + 1 + i) % NBUCKETS)).reverse.find? (isFree s) = none ∧
        (nb + 1 + i) % NBUCKETS ≠ h) →
      (s.head ((nb + 1 + d) % NBUCKETS)).reverse.find? (isFree s) = some b →
      (nb + 1 + d) % NBUCKETS ≠ h →
      bgetSteal p dev blockno s h fuel nb tr =
        lockAndReturn p b (stolen dev blockno s h b)
          (tr ++ scanEvents d nb ++ [Event.acquire ((nb + 1 + d) % NBUCKETS),
            Event.release ((nb + 1 + d) % NBUCKETS), Event.release h]) := by
  intro d
  induction d with
  | zero =>
    intro fuel nb tr hf _ hb hne
    obtain ⟨f, rfl⟩ : ∃ f, fuel = f + 1 := ⟨fuel - 1, by omega⟩
    simp only [Nat.add_zero] at hb hne
    simp [bgetSteal, acquire, hne, hb, stolen, scanEvents]
  | succ d ih =>
    intro fuel nb tr hf hskip hb hne
    obtain ⟨f, rfl⟩ : ∃ f, fuel = f + 1 := ⟨fuel - 1, by omega⟩
    have h0 := hskip 0 (by omega)
    simp only [Nat.add_zero] at h0
    have hstep : ∀ i, ((nb + 1) % NBUCKETS + 1 + i) % NBUCKETS
        = (nb + 1 + (i + 1)) % NBUCKETS := by
      intro i; simp only [NBUCKETS]; omega
    have h2 := ih f ((nb + 1) % NBUCKETS)
      (tr ++ [Event.acquire ((nb + 1) % NBUCKETS), Event.release ((nb + 1) % NBUCKETS)])
      (by omega)
      (fun i hi => by rw [hstep]; exact hskip (i + 1) (by omega))
      (by rw [hstep]; exact hb) (by rw [hstep]; exact hne)
    rw [hstep] at h2
    have e : bgetSteal p dev blockno s h (f + 1) nb tr =
        bgetSteal p dev blockno s h f ((nb + 1) % NBUCKETS)
          (tr ++ [Event.acquire ((nb + 1) % NBUCKETS),
            Event.release ((nb + 1) % NBUCKETS)]) := by
      simp [bgetSteal, acquire, h0.1, h0.2]
    rw [e, h2]
    simp [scanEvents]

theorem bgetSteal_none_tr (p dev blockno : Nat) (s : Bcache) (h : Nat) :
    ∀ (d fuel nb : Nat) (tr : List Event), d < fuel →
      (∀ i, i < d → (s.head ((nb + 1 + i) % NBUCKETS)).reverse.find? (isFree s) = none ∧
        (nb + 1 + i) % NBUCKETS ≠ h) →
      (nb + 1 + d) % NBUCKETS = h →
      bgetSteal p dev blockno s h fuel nb tr =
        ⟨Outcome.panic Panic.acquire, s, tr ++ scanEvents d nb ++ [Event.acquire h]⟩ := by
  intro d
  induction d with
  | zero =>
    intro fuel nb tr hf _ he
    obtain ⟨f, rfl⟩ : ∃ f, fuel = f + 1 := ⟨fuel - 1, by omega⟩
    simp only [Nat.add_zero] at he
    simp [bgetSteal, acquire, he, scanEvents]
  | succ d ih =>
    intro fuel nb tr hf hskip he
    obtain ⟨f, rfl⟩ : ∃ f, fuel = f + 1 := ⟨fuel - 1, by omega⟩
    have h0 := hskip 0 (by omega)
    simp only [Nat.add_zero] at h0
    have hstep : ∀ i, ((nb + 1) % NBUCKETS + 1 + i) % NBUCKETS
        = (nb + 1 + (i + 1)) % NBUCKETS := by
      intro i; simp only [NBUCKETS]; omega
    have h2 := ih f ((nb + 1) % NBUCKETS)
      (tr ++ [Event.acquire ((nb + 1) % NBUCKETS), Event.release ((nb + 1) % NBUCKETS)])
      (by omega)
      (fun i hi => by rw [hstep]; exact hskip (i + 1) (by omega))
      (by rw [hstep]; exact he)
    have e : bgetSteal p dev blockno s h (f + 1) nb tr =
        bgetSteal p dev blockno s h f ((nb + 1) % NBUCKETS)
          (tr ++ [Event.acquire ((nb + 1) % NBUCKETS),
            Event.release ((nb + 1) % NBUCKETS)]) := by
      simp [bgetSteal, acquire, h0.1, h0.2]
    rw [e, h2]
    simp [scanEvents]

/-- The lock events of a call of `bget`, in each of the four ways it ends. -/
theorem bget_trace (p dev blockno : Nat) (s : Bcache) :
    (∃ b, ((bget p dev blockno s).out = Outcome.ret b ∨
        (bget p dev blockno s).out = Outcome.sleep b) ∧
      (bget p dev blockno s).tr =
        [Event.acquire (blockno % NBUCKETS), Event.release (blockno % NBUCKETS),
          Event.acquiresleep b]) ∨
    (∃ k b, 1 ≤ k ∧ k ≤ 12 ∧
      ((bget p dev blockno s).out = Outcome.ret b ∨
        (bget p dev blockno s).out = Outcome.sleep b) ∧
      (s.head (blockno % NBUCKETS)).find? (isHit dev blockno s) = none ∧
      (s.head (blockno % NBUCKETS)).reverse.find? (isFree s) = none ∧
      (∀ j, 1 ≤ j → j < k →
        (s.head ((blockno % NBUCKETS + j) % NBUCKETS)).reverse.find? (isFree s) = none) ∧
      (s.head ((blockno % NBUCKETS + k) % NBUCKETS)).reverse.find? (isFree s) = some b ∧
      (bget p dev blockno s).tr =
        Event.acquire (blockno % NBUCKETS) :: (scanEvents (k - 1) (blockno % NBUCKETS) ++
          [Event.acquire ((blockno % NBUCKETS + k) % NBUCKETS),
            Event.release ((blockno % NBUCKETS + k) % NBUCKETS),
            Event.release (blockno % NBUCKETS), Event.acquiresleep b])) ∨
    ((bget p dev blockno s).out = Outcome.panic Panic.acquire ∧
      (s.head (blockno % NBUCKETS)).find? (isHit dev blockno s) = none ∧
      (∀ i, i < NBUCKETS → (s.head i).reverse.find? (isFree s) = none) ∧
      (bget p dev blockno s).tr =
        Event.acquire (blockno % NBUCKETS) :: (scanEvents 12 (blockno % NBUCKETS) ++
          [Event.acquire (blockno % NBUCKETS)])) := by
  have hlt : blockno % NBUCKETS < 13 := Nat.mod_lt _ (by decide)
  have hout : ∀ (b : Nat) (s1 : Bcache) (tr : List Event),
      (lockAndReturn p b s1 tr).out = Outcome.ret b ∨
      (lockAndReturn p b s1 tr).out = Outcome.sleep b := by
    intro b s1 tr; rw [lockAndReturn_out]; split
    · right; rfl
    · left; rfl
  cases hh : (s.head (blockno % NBUCKETS)).find? (isHit dev blockno s) with
  | some b =>
    left
    rw [bget_of_hit hh]
    exact ⟨b, hout _ _ _, by rw [lockAndReturn_tr]; rfl⟩
  | none =>
    cases hf : (s.head (blockno % NBUCKETS)).reverse.find? (isFree s) with
    | some b =>
      left
      rw [bget_of_local hh hf]
      exact ⟨b, hout _ _ _, by rw [lockAndReturn_tr]; rfl⟩
    | none =>
      right
      rw [bget_of_full hh hf]
      generalize blockno % NBUCKETS = h at hlt hh hf ⊢
      by_cases hex : ∃ k, 1 ≤ k ∧ k ≤ 12 ∧
          ((s.head ((h + k) % NBUCKETS)).reverse.find? (isFree s)).isSome = true
      · left
        have hk := Nat.find_spec hex
        have hmin := fun j => @Nat.find_min _ _ hex j
        generalize Nat.find hex = k at hk hmin
        obtain ⟨b, hb⟩ := Option.isSome_iff_exists.1 hk.2.2
        have hskip : ∀ j, 1 ≤ j → j < k →
            (s.head ((h + j) % NBUCKETS)).reverse.find? (isFree s) = none := by
          intro j h1 h2
          have := hmin j h2
          cases hj : (s.head ((h + j) % NBUCKETS)).reverse.find? (isFree s) with
          | none => rfl
          | some x => exact absurd ⟨h1, by omega, by simp [hj]⟩ this
        have e : ∀ i, h + 1 + i = h + (i + 1) := fun i => by omega
        have hb2 := bgetSteal_found_tr p dev blockno s h b (k - 1) NBUCKETS h
          [Event.acquire h] (by simp only [NBUCKETS]; omega)
          (fun i hi => by
            rw [e]
            exact ⟨hskip (i + 1) (by omega) (by omega), by simp only [NBUCKETS]; omega⟩)
          (by rw [e, show k - 1 + 1 = k by omega]; exact hb)
          (by rw [e, show k - 1 + 1 = k by omega]; simp only [NBUCKETS]; omega)
        rw [e, show k - 1 + 1 = k by omega] at hb2
        rw [hb2]
        exact ⟨k, b, hk.1, hk.2.1, hout _ _ _, rfl, rfl, hskip, hb, by
          rw [lockAndReturn_tr]; simp⟩
      · right
        have hnone : ∀ j, 1 ≤ j → j ≤ 12 →
            (s.head ((h + j) % NBUCKETS)).reverse.find? (isFree s) = none := by
          intro j h1 h2
          cases hj : (s.head ((h + j) % NBUCKETS)).reverse.find? (isFree s) with
          | none => rfl
          | some x => exact absurd ⟨j, h1, h2, by simp [hj]⟩ hex
        have e : ∀ i, h + 1 + i = h + (i + 1) := fun i => by omega
        have hb2 := bgetSteal_none_tr p dev blockno s h 12 NBUCKETS h
          [Event.acquire h] (by simp only [NBUCKETS]; omega)
          (fun i hi => by
            rw [e]
            exact ⟨hnone (i + 1) (by omega) (by omega), by simp only [NBUCKETS]; omega⟩)
          (by simp only [NBUCKETS]; omega)
        rw [hb2]
        refine ⟨rfl, rfl, ?_, by simp⟩
        intro i hi
        by_cases hih : i = h
        · subst hih; exact hf
        · have := hnone ((i + 13 - h) % 13) (by simp only [NBUCKETS] at hi; omega) (by omega)
          have e2 : (h + (i + 13 - h) % 13) % NBUCKETS = i := by
            simp only [NBUCKETS] at hi ⊢; omega
          rwa [e2] at this
theorem heldBefore_append (t1 t2 : List Event) :
    ∀ held, heldBefore (t1 ++ t2) held =
      heldBefore t1 held ++ heldBefore t2 (locksAfter t1 held) := by
  induction t1 with
  | nil => intro held; rfl
  | cons e t1 ih => intro held; simp [heldBefore, locksAfter, ih]

theorem locksAfter_append (t1 t2 : List Event) :
    ∀ held, locksAfter (t1 ++ t2) held = locksAfter t2 (locksAfter t1 held) := by
  induction t1 with
  | nil => intro held; rfl
  | cons e t1 ih => intro held; simp [locksAfter, ih]

theorem lockStep_acquire_free {h j : Nat} (hj : j ≠ h) :
    lockStep (Event.acquire j) [h] = [j, h] := by
  simp [lockStep, acquire, hj]

theorem lockStep_release_top (h j : Nat) :
    lockStep (Event.release j) [j, h] = [h] := by
  simp [lockStep]

/-- During the rounds of the steal scan that find nothing the caller holds the
home lock `h` all along and the lock of the scanned bucket in turn. -/
theorem scanEvents_held (h : Nat) :
    ∀ (n nb : Nat), (∀ i, i < n → (nb + 1 + i) % NBUCKETS ≠ h) →
      locksAfter (scanEvents n nb) [h] = [h] ∧
      ∀ e H, (e, H) ∈ heldBefore (scanEvents n nb) [h] →
        (∃ j, j ≠ h ∧ e = Event.acquire j ∧ H = [h]) ∨
        (∃ j, j ≠ h ∧ e = Event.release j ∧ H = [j, h]) := by
  intro n
  induction n with
  | zero => intro nb _; exact ⟨rfl, fun e H hm => by simp [scanEvents, heldBefore] at hm⟩
  | succ n ih =>
    intro nb hne
    have h0 : (nb + 1) % NBUCKETS ≠ h := by simpa using hne 0 (by omega)
    have hstep : ∀ i, ((nb + 1) % NBUCKETS + 1 + i) % NBUCKETS
        = (nb + 1 + (i + 1)) % NBUCKETS := by
      intro i; simp only [NBUCKETS]; omega
    have r := ih ((nb + 1) % NBUCKETS) (fun i hi => by rw [hstep]; exact hne (i + 1) (by omega))
    simp only [scanEvents, locksAfter, heldBefore, lockStep_acquire_free h0,
      lockStep_release_top, List.mem_cons, Prod.mk.injEq]
    refine ⟨r.1, fun e H hm => ?_⟩
    rcases hm with ⟨rfl, rfl⟩ | ⟨rfl, rfl⟩ | hm
    · exact Or.inl ⟨_, h0, rfl, rfl⟩
    · exact Or.inr ⟨_, h0, rfl, rfl⟩
    · exact r.2 e H hm

theorem scanEvents_acquired (n : Nat) :
    ∀ nb, acquired (scanEvents n nb) = (List.range n).map (fun i => (nb + 1 + i) % NBUCKETS) := by
  induction n with
  | zero => intro nb; rfl
  | succ n ih =>
    intro nb
    have hstep : ∀ i, ((nb + 1) % NBUCKETS + 1 + i) % NBUCKETS
        = (nb + 1 + (i + 1)) % NBUCKETS := by
      intro i; simp only [NBUCKETS]; omega
    simp only [scanEvents, acquired, ih, List.range_succ_eq_map, List.map_cons, List.map_map,
      Nat.add_zero]
    congr 1
    apply List.map_congr_left
    intro i _
    simp only [Function.comp, hstep, Nat.succ_eq_add_one]

/-- The bucket locks along a call of `bget`: the home lock is the first one
taken; at every event the caller holds no bucket lock, the home lock alone, or
the home lock and one foreign lock; every request for a lock other than the
first is made with the home lock alone in hand. -/
theorem bget_locks (p dev blockno : Nat) (s : Bcache) :
    (bget p dev blockno s).tr.head? = some (Event.acquire (blockno % NBUCKETS)) ∧
    (∀ e H, (e, H) ∈ heldBefore (bget p dev blockno s).tr [] →
      H = [] ∨ H = [blockno % NBUCKETS] ∨
        ∃ j, j ≠ blockno % NBUCKETS ∧ H = [j, blockno % NBUCKETS]) ∧
    (∀ j H, (Event.acquire j, H) ∈ heldBefore (bget p dev blockno s).tr [] →
      (j = blockno % NBUCKETS ∧ H = []) ∨ H = [blockno % NBUCKETS]) ∧
    (locksAfter (bget p dev blockno s).tr [] = [] ∨
      ((∃ m, (bget p dev blockno s).out = Outcome.panic m) ∧
        locksAfter (bget p dev blockno s).tr [] = [blockno % NBUCKETS])) := by
  have hlt : blockno % NBUCKETS < 13 := Nat.mod_lt _ (by decide)
  rcases bget_trace p dev blockno s with ⟨b, -, htr⟩ |
      ⟨k, b, hk1, hk2, -, -, -, -, -, htr⟩ | ⟨hout, -, -, htr⟩
  · rw [htr]
    refine ⟨rfl, ?_, ?_, Or.inl (by simp [locksAfter, lockStep, acquire])⟩
    · intro e H hm
      simp [heldBefore, lockStep, acquire] at hm
      rcases hm with ⟨-, rfl⟩ | ⟨-, rfl⟩ | ⟨-, rfl⟩ <;> simp
    · intro j H hm
      simp [heldBefore, lockStep, acquire] at hm
      exact Or.inl ⟨hm.1, hm.2⟩
  · rw [htr]
    generalize blockno % NBUCKETS = h at hlt ⊢
    have hsc := scanEvents_held h (k - 1) h (fun i hi => by simp only [NBUCKETS]; omega)
    have hsrc : (h + k) % NBUCKETS ≠ h := by simp only [NBUCKETS]; omega
    have hA : lockStep (Event.acquire h) [] = [h] := by simp [lockStep, acquire]
    refine ⟨rfl, ?_, ?_, Or.inl ?_⟩
    · intro e H hm
      simp only [heldBefore, hA, heldBefore_append, hsc.1, lockStep_acquire_free hsrc,
        lockStep_release_top, List.mem_cons, List.mem_append, Prod.mk.injEq] at hm
      rcases hm with ⟨-, rfl⟩ | hm | ⟨-, rfl⟩ | ⟨-, rfl⟩ | ⟨-, rfl⟩ | hm
      · simp
      · rcases hsc.2 e H hm with ⟨j, hj, -, rfl⟩ | ⟨j, hj, -, rfl⟩
        · simp
        · exact Or.inr (Or.inr ⟨j, hj, rfl⟩)
      · simp
      · exact Or.inr (Or.inr ⟨_, hsrc, rfl⟩)
      · simp
      · simp [heldBefore, lockStep] at hm
        rcases hm with ⟨-, rfl⟩
        simp
    · intro j H hm
      simp only [heldBefore, hA, heldBefore_append, hsc.1, lockStep_acquire_free hsrc,
        lockStep_release_top, List.mem_cons, List.mem_append, Prod.mk.injEq] at hm
      rcases hm with ⟨hj, rfl⟩ | hm | ⟨-, rfl⟩ | ⟨hj, -⟩ | ⟨hj, -⟩ | hm
      · exact Or.inl ⟨by injection hj, rfl⟩
      · rcases hsc.2 _ H hm with ⟨j2, hj2, -, rfl⟩ | ⟨j2, hj2, he, rfl⟩
        · exact Or.inr rfl
        · cases he
      · exact Or.inr rfl
      · cases hj
      · cases hj
      · simp [heldBefore, lockStep] at hm
    · simp only [locksAfter, hA, locksAfter_append, hsc.1, lockStep_acquire_free hsrc,
        lockStep_release_top]
      simp [lockStep]
  · rw [htr]
    generalize blockno % NBUCKETS = h at hlt ⊢
    have hsc := scanEvents_held h 12 h (fun i hi => by simp only [NBUCKETS]; omega)
    have hA : lockStep (Event.acquire h) [] = [h] := by simp [lockStep, acquire]
    have hB : lockStep (Event.acquire h) [h] = [h] := by simp [lockStep, acquire]
    generalize scanEvents 12 h = S at hsc ⊢
    refine ⟨rfl, ?_, ?_, Or.inr ⟨⟨_, hout⟩, ?_⟩⟩
    · intro e H hm
      simp only [heldBefore, hA, heldBefore_append, hsc.1, List.mem_cons, List.mem_append,
        Prod.mk.injEq] at hm
      rcases hm with ⟨-, rfl⟩ | hm | ⟨-, rfl⟩ | hm
      · simp
      · rcases hsc.2 e H hm with ⟨j, hj, -, rfl⟩ | ⟨j, hj, -, rfl⟩
        · simp
        · exact Or.inr (Or.inr ⟨j, hj, rfl⟩)
      · simp
      · simp at hm
    · intro j H hm
      simp only [heldBefore, hA, heldBefore_append, hsc.1, List.mem_cons, List.mem_append,
        Prod.mk.injEq] at hm
      rcases hm with ⟨hj, rfl⟩ | hm | ⟨-, rfl⟩ | hm
      · exact Or.inl ⟨by injection hj, rfl⟩
      · rcases hsc.2 _ H hm with ⟨j2, hj2, -, rfl⟩ | ⟨j2, hj2, he, rfl⟩
        · exact Or.inr rfl
        · cases he
      · exact Or.inr rfl
      · simp at hm
    · simp only [locksAfter, hA, hB, locksAfter_append, hsc.1]

/-- C15, amended (lock discipline of `bget`).  The home bucket lock is the first
lock taken.  At every event of a call of `bget` the caller holds no bucket
lock, the home lock alone, or the home lock and one foreign lock: never two
foreign locks.  The lock of a foreign bucket is requested with the home lock,
and no other lock, in hand, so the lock of the bucket a slot is taken from and
the lock of the home bucket it goes to are held together.  A call that delivers
a slot has given back every bucket lock. -/
theorem bget_lock_discipline (p dev blockno : Nat) (s : Bcache) :
    (bget p dev blockno s).tr.head? = some (Event.acquire (blockno % NBUCKETS)) ∧
    (∀ e H, (e, H) ∈ heldBefore (bget p dev blockno s).tr [] →
      H = [] ∨ H = [blockno % NBUCKETS] ∨
        ∃ j, j ≠ blockno % NBUCKETS ∧ H = [j, blockno % NBUCKETS]) ∧
    (∀ j H, (Event.acquire j, H) ∈ heldBefore (bget p dev blockno s).tr [] →
      j ≠ blockno % NBUCKETS → H = [blockno % NBUCKETS]) ∧
    (∀ b, (bget p dev blockno s).out = Outcome.ret b ∨
        (bget p dev blockno s).out = Outcome.sleep b →
      locksAfter (bget p dev blockno s).tr [] = []) := by
  obtain ⟨h1, h2, h3, h4⟩ := bget_locks p dev blockno s
  refine ⟨h1, h2, fun j H hj hne => ?_, fun b hb => ?_⟩
  · rcases h3 j H hj with ⟨e, -⟩ | e
    · exact absurd e hne
    · exact e
  · rcases h4 with e | ⟨⟨m, hm⟩, -⟩
    · exact e
    · rw [hm] at hb
      rcases hb with hb | hb <;> cases hb

/-- C15 as stated fails.  On the cache of two slots that `binit` leaves, the
lookup of block (0, 1) has home bucket 1; it still holds lock 1 when it gives
back lock 2 of the first bucket it scans and lock 0 of the bucket it takes the
slot from, and it asks for lock 0 while holding lock 1. -/
theorem bget_holds_two_locks :
    (Event.release 2, [2, 1]) ∈ heldBefore (bget 1 0 1 (binit 2)).tr [] ∧
    (Event.acquire 0, [1]) ∈ heldBefore (bget 1 0 1 (binit 2)).tr [] ∧
    (Event.release 0, [0, 1]) ∈ heldBefore (bget 1 0 1 (binit 2)).tr [] ∧
    (bget 1 0 1 (binit 2)).out = Outcome.ret 0 := by
  decide
/-- C16 fails on the code.  One slot, held by process 1 for block (0, 0);
process 2 asks for block (0, 1), home bucket 1.  The scan takes the locks of
buckets 2, 3, ..., 12, 0 in turn and then, in its thirteenth round, asks for
the lock of the home bucket 1 again while still holding it: the call ends in
the panic of `acquire`, not in `panic("bget: no buffers")`. -/
theorem steal_scan_reacquires_home :
    acquired (bget 2 0 1 (bget 1 0 0 (binit 1)).st).tr
      = [1, 2, 3, 4, 5, 6, 7, 8, 9, 10, 11, 12, 0, 1] ∧
    (Event.acquire 1, [1]) ∈ heldBefore (bget 2 0 1 (bget 1 0 0 (binit 1)).st).tr [] ∧
    (bget 2 0 1 (bget 1 0 0 (binit 1)).st).out = Outcome.panic Panic.acquire := by
  decide

/-- The events of `bread`: those of `bget`, followed by one device read when the
slot came back with validity 0. -/
theorem bread_tr (disk : Nat → Nat → List Nat) (p dev blockno : Nat) (s : Bcache) :
    (bread disk p dev blockno s).tr =
      (bget p dev blockno s).tr ++
        (match (bget p dev blockno s).out with
          | Outcome.ret b =>
            if ((bget p dev blockno s).st.buf b).valid = 0 then [Event.disk_rw b false] else []
          | _ => []) := by
  unfold bread
  simp only []
  split
  · rename_i b hb
    split <;> simp [*]
  · rename_i hnr
    cases hb : (bget p dev blockno s).out with
    | ret b => exact absurd hb (hnr b)
    | unit => simp
    | sleep b => simp
    | panic m => simp
    | fuel => simp

/-- The bucket locks around the events of `bget`: none is held at the
`acquiresleep`, and none is left when `bget` delivers a slot. -/
theorem bget_calm (p dev blockno : Nat) (s : Bcache) :
    (∀ e H, (e, H) ∈ heldBefore (bget p dev blockno s).tr [] →
      ((∃ b, e = Event.acquiresleep b) ∨ ∃ b w, e = Event.disk_rw b w) → H = []) ∧
    (∀ b, (bget p dev blockno s).out = Outcome.ret b ∨
        (bget p dev blockno s).out = Outcome.sleep b →
      locksAfter (bget p dev blockno s).tr [] = []) := by
  have hlt : blockno % NBUCKETS < 13 := Nat.mod_lt _ (by decide)
  rcases bget_trace p dev blockno s with ⟨b, -, htr⟩ |
      ⟨k, b, hk1, hk2, -, -, -, -, -, htr⟩ | ⟨hout, -, -, htr⟩
  · rw [htr]
    refine ⟨?_, fun _ _ => by simp [locksAfter, lockStep, acquire]⟩
    intro e H hm hb
    simp [heldBefore, lockStep, acquire] at hm
    rcases hm with ⟨rfl, -⟩ | ⟨rfl, -⟩ | ⟨-, rfl⟩
    · rcases hb with ⟨_, hb⟩ | ⟨_, _, hb⟩ <;> cases hb
    · rcases hb with ⟨_, hb⟩ | ⟨_, _, hb⟩ <;> cases hb
    · rfl
  · rw [htr]
    generalize blockno % NBUCKETS = h at hlt ⊢
    have hsc := scanEvents_held h (k - 1) h (fun i hi => by simp only [NBUCKETS]; omega)
    have hsrc : (h + k) % NBUCKETS ≠ h := by simp only [NBUCKETS]; omega
    have hA : lockStep (Event.acquire h) [] = [h] := by simp [lockStep, acquire]
    refine ⟨?_, fun _ _ => ?_⟩
    · intro e H hm hb
      simp only [heldBefore, hA, heldBefore_append, hsc.1, lockStep_acquire_free hsrc,
        lockStep_release_top, List.mem_cons, List.mem_append, Prod.mk.injEq] at hm
      rcases hm with ⟨rfl, -⟩ | hm | ⟨rfl, -⟩ | ⟨rfl, -⟩ | ⟨rfl, -⟩ | hm
      · rcases hb with ⟨_, hb⟩ | ⟨_, _, hb⟩ <;> cases hb
      · rcases hsc.2 e H hm with ⟨j, -, rfl, -⟩ | ⟨j, -, rfl, -⟩ <;>
          rcases hb with ⟨_, hb⟩ | ⟨_, _, hb⟩ <;> cases hb
      · rcases hb with ⟨_, hb⟩ | ⟨_, _, hb⟩ <;> cases hb
      · rcases hb with ⟨_, hb⟩ | ⟨_, _, hb⟩ <;> cases hb
      · rcases hb with ⟨_, hb⟩ | ⟨_, _, hb⟩ <;> cases hb
      · simp [heldBefore, lockStep] at hm
        exact hm.2
    · simp only [locksAfter, hA, locksAfter_append, hsc.1, lockStep_acquire_free hsrc,
        lockStep_release_top]
      simp [lockStep]
  · rw [htr]
    generalize blockno % NBUCKETS = h at hlt ⊢
    have hsc := scanEvents_held h 12 h (fun i hi => by simp only [NBUCKETS]; omega)
    have hA : lockStep (Event.acquire h) [] = [h] := by simp [lockStep, acquire]
    generalize scanEvents 12 h = S at hsc ⊢
    refine ⟨?_, fun b hb => ?_⟩
    · intro e H hm hb
      simp only [heldBefore, hA, heldBefore_append, hsc.1, List.mem_cons, List.mem_append,
        Prod.mk.injEq] at hm
      rcases hm with ⟨rfl, -⟩ | hm | ⟨rfl, -⟩ | hm
      · rcases hb with ⟨_, hb⟩ | ⟨_, _, hb⟩ <;> cases hb
      · rcases hsc.2 e H hm with ⟨j, -, rfl, -⟩ | ⟨j, -, rfl, -⟩ <;>
          rcases hb with ⟨_, hb⟩ | ⟨_, _, hb⟩ <;> cases hb
      · rcases hb with ⟨_, hb⟩ | ⟨_, _, hb⟩ <;> cases hb
      · simp at hm
    · rw [hout] at hb; rcases hb with hb | hb <;> cases hb

/-- C17 (bucket locks never span blocking operations).  In every call of
`bget`, `bread`, `bwrite`, `brelse`, `bpin` and `bunpin`, the caller holds no
bucket lock when an `acquiresleep` or a device transfer starts, and a call that
returns has given back every bucket lock it took. -/
theorem no_lock_across_blocking (disk : Nat → Nat → List Nat) (c : Call) (s : Bcache) :
    (∀ e H, (e, H) ∈ heldBefore (exec disk c s).tr [] →
      ((∃ b, e = Event.acquiresleep b) ∨ ∃ b w, e = Event.disk_rw b w) → H = []) ∧
    ((exec disk c s).returned = true → locksAfter (exec disk c s).tr [] = []) := by
  cases c with
  | bget p dev blockno =>
    have g := bget_calm p dev blockno s
    refine ⟨g.1, fun hr => ?_⟩
    rcases (returned_iff _).1 hr with ⟨b, hb⟩ | hu
    · exact g.2 b (Or.inl hb)
    · exact absurd hu (bget_out_ne_unit p dev blockno s)
  | bread p dev blockno =>
    have g := bget_calm p dev blockno s
    have ht := bread_tr disk p dev blockno s
    have hs := (bread_shape disk p dev blockno s).1
    simp only [exec]
    rw [ht]
    cases hout : (bget p dev blockno s).out with
    | ret b =>
      have hl := g.2 b (Or.inl hout)
      simp only []
      refine ⟨fun e H hm hb => ?_, fun _ => ?_⟩
      · rw [heldBefore_append, hl, List.mem_append] at hm
        rcases hm with hm | hm
        · exact g.1 e H hm hb
        · split at hm
          · simp [heldBefore] at hm; exact hm.2
          · simp [heldBefore] at hm
      · rw [locksAfter_append, hl]
        split <;> simp [locksAfter, lockStep]
    | unit => exact absurd hout (bget_out_ne_unit p dev blockno s)
    | sleep b =>
      simp only [List.append_nil]
      exact ⟨g.1, fun hr => by
        rcases (returned_iff _).1 hr with ⟨b2, hb2⟩ | hu
        · rw [hs, hout] at hb2; cases hb2
        · rw [hs, hout] at hu; cases hu⟩
    | panic m =>
      simp only [List.append_nil]
      exact ⟨g.1, fun hr => by
        rcases (returned_iff _).1 hr with ⟨b2, hb2⟩ | hu
        · rw [hs, hout] at hb2; cases hb2
        · rw [hs, hout] at hu; cases hu⟩
    | fuel =>
      simp only [List.append_nil]
      exact ⟨g.1, fun hr => by
        rcases (returned_iff _).1 hr with ⟨b2, hb2⟩ | hu
        · rw [hs, hout] at hb2; cases hb2
        · rw [hs, hout] at hu; cases hu⟩
  | bwrite p b =>
    simp only [exec, bwrite]
    split
    · exact ⟨fun e H hm _ => by simp [heldBefore] at hm, fun hr => by simp [Result.returned] at hr⟩
    · refine ⟨fun e H hm _ => ?_, fun _ => by simp [locksAfter, lockStep]⟩
      simp [heldBefore] at hm; exact hm.2
  | brelse p b =>
    simp only [exec]
    cases hh : holdingsleep p b s with
    | false =>
      rw [brelse_not_held p b s hh]
      exact ⟨fun e H hm _ => by simp [heldBefore] at hm, fun hr => by simp [Result.returned] at hr⟩
    | true =>
      have e1 : (brelse p b s).tr = [Event.releasesleep b,
          Event.acquire ((s.buf b).blockno % NBUCKETS),
          Event.release ((s.buf b).blockno % NBUCKETS)] := by
        simp [brelse, hh]
      rw [e1]
      refine ⟨fun e H hm hb => ?_, fun _ => by simp [locksAfter, lockStep, acquire]⟩
      simp [heldBefore, lockStep, acquire] at hm
      rcases hm with ⟨rfl, -⟩ | ⟨rfl, -⟩ | ⟨rfl, -⟩ <;>
        rcases hb with ⟨_, hb⟩ | ⟨_, _, hb⟩ <;> cases hb
  | bpin b =>
    simp only [exec, bpin]
    refine ⟨fun e H hm hb => ?_, fun _ => by simp [locksAfter, lockStep, acquire]⟩
    simp [heldBefore, lockStep, acquire] at hm
    rcases hm with ⟨rfl, -⟩ | ⟨rfl, -⟩ <;>
      rcases hb with ⟨_, hb⟩ | ⟨_, _, hb⟩ <;> cases hb
  | bunpin b =>
    simp only [exec, bunpin]
    refine ⟨fun e H hm hb => ?_, fun _ => by simp [locksAfter, lockStep, acquire]⟩
    simp [heldBefore, lockStep, acquire] at hm
    rcases hm with ⟨rfl, -⟩ | ⟨rfl, -⟩ <;>
      rcases hb with ⟨_, hb⟩ | ⟨_, _, hb⟩ <;> cases hb
theorem mem_heldBefore_of_mem {e : Event} :
    ∀ (tr : List Event) (held : List Nat), e ∈ tr → ∃ H, (e, H) ∈ heldBefore tr held := by
  intro tr
  induction tr with
  | nil => intro held hm; simp at hm
  | cons a tr ih =>
    intro held hm
    rcases List.mem_cons.1 hm with h | h
    · exact ⟨held, by rw [← h]; simp [heldBefore]⟩
    · obtain ⟨H, hH⟩ := ih (lockStep a held) h
      exact ⟨H, by simp [heldBefore, hH]⟩

theorem scanEvents_no_disk (n nb x : Nat) (w : Bool) :
    Event.disk_rw x w ∉ scanEvents n nb := by
  induction n generalizing nb with
  | zero => simp [scanEvents]
  | succ n ih => simp [scanEvents, ih]

theorem bget_no_disk (p dev blockno : Nat) (s : Bcache) :
    ∀ x w, Event.disk_rw x w ∉ (bget p dev blockno s).tr := by
  intro x w hm
  rcases bget_trace p dev blockno s with ⟨b, -, htr⟩ |
      ⟨k, b, hk1, hk2, -, -, -, -, -, htr⟩ | ⟨hout, -, -, htr⟩
  · rw [htr] at hm; simp at hm
  · rw [htr] at hm
    simp [scanEvents_no_disk] at hm
  · rw [htr] at hm
    simp only [List.mem_cons, List.mem_append] at hm
    rcases hm with hm | hm | hm
    · cases hm
    · exact scanEvents_no_disk _ _ _ _ hm
    · simp at hm

/-- The validity flag of the slot that `bget` delivers: the old one on a hit,
0 on a slot handed to a new block. -/
theorem bget_valid (p dev blockno : Nat) (s : Bcache) (b : Nat)
    (h : (bget p dev blockno s).out = Outcome.ret b ∨
      (bget p dev blockno s).out = Outcome.sleep b) :
    ((bget p dev blockno s).st.buf b).valid = 0 ∨
    ((bget p dev blockno s).st.buf b).valid = (s.buf b).valid := by
  have key : ∀ (c : Nat) (s1 : Bcache) (tr : List Event),
      bget p dev blockno s = lockAndReturn p c s1 tr →
      ((s1.buf c).valid = 0 ∨ (s1.buf c).valid = (s.buf c).valid) →
      ((bget p dev blockno s).st.buf b).valid = 0 ∨
      ((bget p dev blockno s).st.buf b).valid = (s.buf b).valid := by
    intro c s1 tr e hv
    have hcb : c = b := by
      rw [e, lockAndReturn_out] at h
      rcases h with h | h <;> split at h <;> cases h <;> rfl
    subst hcb
    rw [e, (lockAndReturn_fields p c s1 tr c).2.2.1]
    exact hv
  rcases bget_cases p dev blockno s with ⟨c, hc, hbget⟩ | ⟨hh, c, hc, hbget⟩ |
      ⟨hh, -, k, c, hk1, hk2, hskip, hc, tr2, hbget⟩ | ⟨hh, hnone, tr2, hbget⟩
  · exact key c _ _ hbget (Or.inr (by simp [Bcache.setBuf]))
  · exact key c _ _ hbget (Or.inl (by simp [Bcache.setBuf, recycle]))
  · exact key c _ _ hbget (Or.inl (by simp [stolen_buf, recycle]))
  · rw [hbget] at h; rcases h with h | h <;> cases h

/-- A `brelse` by the holder leaves the released slot the one that a lookup of
its block finds. -/
theorem brelse_first_self (p b : Nat) (s : Bcache) (hh : holdingsleep p b s = true)
    (hf : First s b) : First (brelse p b s).st b := by
  have hF2 : First (s.setBuf b { s.buf b with
      locked := false, pid := 0, refcnt := decr (s.buf b).refcnt }) b :=
    (first_setBuf s b { s.buf b with
      locked := false, pid := 0, refcnt := decr (s.buf b).refcnt } rfl rfl b).2 hf
  rw [brelse_st p b s hh]
  split
  · exact (first_moved b hF2).1
  · exact hF2

/-- The validity flag after `bread`. -/
theorem bread_valid (disk : Nat → Nat → List Nat) (p dev blockno : Nat) (s : Bcache) (b : Nat)
    (h : (bread disk p dev blockno s).out = Outcome.ret b) :
    ((bread disk p dev blockno s).st.buf b).valid =
      if ((bget p dev blockno s).st.buf b).valid = 0 then 1
      else ((bget p dev blockno s).st.buf b).valid := by
  have hb : (bget p dev blockno s).out = Outcome.ret b := by
    rw [← (bread_shape disk p dev blockno s).1]; exact h
  unfold bread
  simp only [hb]
  split
  · simp [Bcache.setBuf]
  · rfl

/-- The device events of `bread` and the slot it returns: the only device event
is the read of the slot that `bget` returned with validity 0; the slot
returned carries `(dev, blockno)`, is valid, is held by the caller, and after
a `brelse` the next `bread` of the block returns it again without a device
event. -/
theorem bread_reads (disk : Nat → Nat → List Nat) (p dev blockno : Nat)
    (s : Bcache) :
    (∀ x w, Event.disk_rw x w ∉ (bget p dev blockno s).tr) ∧
    (∀ b, (bget p dev blockno s).out = Outcome.ret b →
      ((bget p dev blockno s).st.buf b).valid = 0 →
      (bread disk p dev blockno s).tr = (bget p dev blockno s).tr ++ [Event.disk_rw b false]) ∧
    (∀ b, (bget p dev blockno s).out = Outcome.ret b →
      ((bget p dev blockno s).st.buf b).valid ≠ 0 →
      (bread disk p dev blockno s).tr = (bget p dev blockno s).tr) ∧
    ((∀ b, (bget p dev blockno s).out ≠ Outcome.ret b) →
      (bread disk p dev blockno s).tr = (bget p dev blockno s).tr) ∧
    (∀ b, (bread disk p dev blockno s).out = Outcome.ret b →
      ((bread disk p dev blockno s).st.buf b).dev = dev ∧
      ((bread disk p dev blockno s).st.buf b).blockno = blockno ∧
      ((bread disk p dev blockno s).st.buf b).valid ≠ 0 ∧
      ((s.buf b).valid ≤ 1 → ((bread disk p dev blockno s).st.buf b).valid = 1) ∧
      holdingsleep p b (bread disk p dev blockno s).st = true ∧
      ((s.buf b).refcnt < 4294967295 → 1 ≤ ((bread disk p dev blockno s).st.buf b).refcnt) ∧
      (brelse p b (bread disk p dev blockno s).st).out = Outcome.unit ∧
      ∀ p2,
        (bread disk p2 dev blockno (brelse p b (bread disk p dev blockno s).st).st).out
          = Outcome.ret b ∧
        ∀ x w, Event.disk_rw x w ∉
          (bread disk p2 dev blockno (brelse p b (bread disk p dev blockno s).st).st).tr) := by
  have ht := bread_tr disk p dev blockno s
  refine ⟨bget_no_disk p dev blockno s, fun b hb hv => ?_, fun b hb hv => ?_, fun hn => ?_,
    fun b h => ?_⟩
  · rw [ht, hb]; simp [hv]
  · rw [ht, hb]; simp [hv]
  · rw [ht]
    cases hout : (bget p dev blockno s).out with
    | ret b => exact absurd hout (hn b)
    | unit => simp
    | sleep b => simp
    | panic m => simp
    | fuel => simp
  · have hs := bread_shape disk p dev blockno s
    have hb : (bget p dev blockno s).out = Outcome.ret b := by rw [← hs.1]; exact h
    have g := bread_ret disk p dev blockno s b h
    have hf := bget_first p dev blockno s b (Or.inl hb)
    have hv := bread_valid disk p dev blockno s b h
    have hbv := bget_valid p dev blockno s b (Or.inl hb)
    have hkeys : ∀ j, ((bread disk p dev blockno s).st.buf j).dev
          = ((bget p dev blockno s).st.buf j).dev ∧
        ((bread disk p dev blockno s).st.buf j).blockno
          = ((bget p dev blockno s).st.buf j).blockno :=
      fun j => ⟨(hs.2.2 j).1, (hs.2.2 j).2.1⟩
    have hd : ((bread disk p dev blockno s).st.buf b).dev = dev := (hkeys b).1.trans hf.1
    have hn : ((bread disk p dev blockno s).st.buf b).blockno = blockno :=
      (hkeys b).2.trans hf.2.1
    have hF1 : First (bread disk p dev blockno s).st b :=
      (first_congr hs.2.1 hkeys b).2 hf.2.2
    have hhold : holdingsleep p b (bread disk p dev blockno s).st = true := by
      simp [holdingsleep, g.2.1, g.2.2.1]
    have hvne : ((bread disk p dev blockno s).st.buf b).valid ≠ 0 := by
      rw [hv]; split <;> simp_all
    have r := brelse_held p b _ hhold
    have hF2 := brelse_first_self p b _ hhold hF1
    have hfind : ((brelse p b (bread disk p dev blockno s).st).st.head (blockno % NBUCKETS)).find?
        (isHit dev blockno (brelse p b (bread disk p dev blockno s).st).st) = some b := by
      unfold First at hF2
      rw [(r.2.1 b).1, (r.2.1 b).2.1, hd, hn] at hF2
      exact hF2
    refine ⟨hd, hn, hvne, fun hle => ?_, hhold, fun hlt => ?_, r.1, fun p2 => ?_⟩
    · rw [hv]
      rcases hbv with h0 | h1
      · simp [h0]
      · split
        · rfl
        · rename_i hne; rw [h1] at hne ⊢; omega
    · rw [g.2.2.2.1]; unfold incr; omega
    · have hget := bget_of_hit (p := p2) hfind
      have hout2 : (bget p2 dev blockno (brelse p b (bread disk p dev blockno s).st).st).out
          = Outcome.ret b := by
        rw [hget, lockAndReturn_out]
        simp [Bcache.setBuf, r.2.2.2.1]
      have hval2 : ((bget p2 dev blockno (brelse p b (bread disk p dev blockno s).st).st).st.buf
          b).valid ≠ 0 := by
        rw [hget, (lockAndReturn_fields p2 b _ _ b).2.2.1]
        simp only [Bcache.setBuf, if_pos]
        rw [(r.2.1 b).2.2.1]; exact hvne
      have hs2 := bread_shape disk p2 dev blockno (brelse p b (bread disk p dev blockno s).st).st
      have ht2 := bread_tr disk p2 dev blockno (brelse p b (bread disk p dev blockno s).st).st
      refine ⟨hs2.1.trans hout2, fun x w => ?_⟩
      rw [ht2, hout2]
      simp only [if_neg hval2, List.append_nil]
      exact bget_no_disk p2 dev blockno _ x w
/-- C11, amended (no redundant device reads).  `bread` delivers a slot unless
the block is not cached and no bucket has an unreferenced slot (then it stops
in the panic); it returns the slot at once when its content lock is free and is
suspended in `acquiresleep` otherwise.  The slot it returns carries
`(dev, blockno)`, has a validity flag that is not 0 (it is 1 when the flag was
0 or 1 before), has its content lock held by the caller and a reference count
one higher than before as the C `uint` counts: at least 1 when the count was
below 4294967295, which wraps to 0.  The only device event of `bread` is the
read of the slot that `bget` returned with validity 0, after the events of
`bget`, which has none.  When the caller then releases the slot with `brelse`,
the next `bread` of the block returns the same slot and issues no device
read. -/
theorem bread_no_redundant_read (disk : Nat → Nat → List Nat) (p dev blockno : Nat)
    (s : Bcache) :
    ((∃ b, (bread disk p dev blockno s).out =
        (if (s.buf b).locked then Outcome.sleep b else Outcome.ret b)) ∨
      ((bread disk p dev blockno s).out = Outcome.panic Panic.acquire ∧
        (∀ c ∈ s.head (blockno % NBUCKETS),
          ¬ ((s.buf c).dev = dev ∧ (s.buf c).blockno = blockno)) ∧
        ∀ i, i < NBUCKETS → ∀ c ∈ s.head i, (s.buf c).refcnt ≠ 0)) ∧
    (∀ b, (bread disk p dev blockno s).out = Outcome.ret b →
      ((bread disk p dev blockno s).st.buf b).refcnt
        = ((s.buf b).refcnt + 1) % 4294967296) ∧
    (∀ x w, Event.disk_rw x w ∉ (bget p dev blockno s).tr) ∧
    (∀ b, (bget p dev blockno s).out = Outcome.ret b →
      ((bget p dev blockno s).st.buf b).valid = 0 →
      (bread disk p dev blockno s).tr = (bget p dev blockno s).tr ++ [Event.disk_rw b false]) ∧
    (∀ b, (bget p dev blockno s).out = Outcome.ret b →
      ((bget p dev blockno s).st.buf b).valid ≠ 0 →
      (bread disk p dev blockno s).tr = (bget p dev blockno s).tr) ∧
    ((∀ b, (bget p dev blockno s).out ≠ Outcome.ret b) →
      (bread disk p dev blockno s).tr = (bget p dev blockno s).tr) ∧
    (∀ b, (bread disk p dev blockno s).out = Outcome.ret b →
      ((bread disk p dev blockno s).st.buf b).dev = dev ∧
      ((bread disk p dev blockno s).st.buf b).blockno = blockno ∧
      ((bread disk p dev blockno s).st.buf b).valid ≠ 0 ∧
      ((s.buf b).valid ≤ 1 → ((bread disk p dev blockno s).st.buf b).valid = 1) ∧
      holdingsleep p b (bread disk p dev blockno s).st = true ∧
      ((s.buf b).refcnt < 4294967295 → 1 ≤ ((bread disk p dev blockno s).st.buf b).refcnt) ∧
      (brelse p b (bread disk p dev blockno s).st).out = Outcome.unit ∧
      ∀ p2,
        (bread disk p2 dev blockno (brelse p b (bread disk p dev blockno s).st).st).out
          = Outcome.ret b ∧
        ∀ x w, Event.disk_rw x w ∉
          (bread disk p2 dev blockno (brelse p b (bread disk p dev blockno s).st).st).tr) := by
  refine ⟨?_, fun b hb => ?_, bread_reads disk p dev blockno s⟩
  · rw [(bread_shape disk p dev blockno s).1]
    rcases bget_cases p dev blockno s with ⟨c, -, e⟩ | ⟨-, c, -, e⟩ |
        ⟨-, -, k, c, -, -, -, -, tr2, e⟩ | ⟨hh, hnone, tr2, e⟩
    · exact Or.inl ⟨c, by rw [e, lockAndReturn_out]; simp [Bcache.setBuf]⟩
    · exact Or.inl ⟨c, by rw [e, lockAndReturn_out]; simp [Bcache.setBuf, recycle]⟩
    · exact Or.inl ⟨c, by rw [e, lockAndReturn_out]; simp [stolen_buf, recycle]⟩
    · refine Or.inr ⟨by rw [e], fun c hc hk => ?_, fun i hi c hc hz => ?_⟩
      · have := find_none_all.1 hh c hc
        simp [isHit, hk.1, hk.2] at this
      · have := rfind_none_all.1 (hnone i hi) c hc
        simp [isFree, hz] at this
  · rw [(bread_ret disk p dev blockno s b hb).2.2.2.1]; rfl

/-- Witness of C11: on the cache of two slots that `binit` leaves, `bread` of
block (0, 0) returns slot 1. -/
theorem bread_no_redundant_read_witness :
    (bread (fun _ _ => []) 1 0 0 (binit 2)).out = Outcome.ret 1 ∧
    ((bread (fun _ _ => []) 1 0 0 (binit 2)).st.buf 1).refcnt
      = (((binit 2).buf 1).refcnt + 1) % 4294967296 ∧
    ((bread (fun _ _ => []) 1 0 0 (binit 2)).st.buf 1).dev = 0 ∧
    ((bread (fun _ _ => []) 1 0 0 (binit 2)).st.buf 1).blockno = 0 ∧
    ((bread (fun _ _ => []) 1 0 0 (binit 2)).st.buf 1).valid ≠ 0 ∧
    (((binit 2).buf 1).valid ≤ 1 →
      ((bread (fun _ _ => []) 1 0 0 (binit 2)).st.buf 1).valid = 1) ∧
    holdingsleep 1 1 (bread (fun _ _ => []) 1 0 0 (binit 2)).st = true ∧
    (((binit 2).buf 1).refcnt < 4294967295 →
      1 ≤ ((bread (fun _ _ => []) 1 0 0 (binit 2)).st.buf 1).refcnt) ∧
    (brelse 1 1 (bread (fun _ _ => []) 1 0 0 (binit 2)).st).out = Outcome.unit ∧
    ∀ p2,
      (bread (fun _ _ => []) p2 0 0
        (brelse 1 1 (bread (fun _ _ => []) 1 0 0 (binit 2)).st).st).out = Outcome.ret 1 ∧
      ∀ x w, Event.disk_rw x w ∉
        (bread (fun _ _ => []) p2 0 0
          (brelse 1 1 (bread (fun _ _ => []) 1 0 0 (binit 2)).st).st).tr :=
  ⟨by decide,
    (bread_no_redundant_read (fun _ _ => []) 1 0 0 (binit 2)).2.1 1 (by decide),
    (bread_no_redundant_read (fun _ _ => []) 1 0 0 (binit 2)).2.2.2.2.2.2 1 (by decide)⟩

/-- C11 as stated fails.  On the cache of one slot that `binit` leaves, a
`bunpin` of slot 0 leaves its count at 4294967295; `bread` of block (0, 0) then
returns slot 0 with a count of 0. -/
theorem bread_returns_unreferenced :
    ((bunpin 0 (binit 1)).st.buf 0).refcnt = 4294967295 ∧
    (bread (fun _ _ => []) 1 0 0 (bunpin 0 (binit 1)).st).out = Outcome.ret 0 ∧
    ((bread (fun _ _ => []) 1 0 0 (bunpin 0 (binit 1)).st).st.buf 0).refcnt = 0 := by
  decide

theorem decr_incr {r : Nat} (h : r < 4294967296) : decr (incr r) = r := by
  unfold decr incr; split <;> omega

/-- C12, amended (pin and unpin).  `bpin` adds one to the reference count of
the slot and `bunpin` takes one off, as the C `uint` does: exactly one more
below 4294967295, exactly one less above 0, with wrap-around at the two ends.
Neither takes the content lock (the events are the acquire and release of one
bucket lock), neither changes another field of the slot, another slot or a
list, and `bunpin` after `bpin` gives back exactly the cache before. -/
theorem pin_unpin (b : Nat) (s : Bcache) :
    ((bpin b s).out = Outcome.unit ∧
      ((bpin b s).st.buf b).refcnt = ((s.buf b).refcnt + 1) % 4294967296 ∧
      ((s.buf b).refcnt < 4294967295 → ((bpin b s).st.buf b).refcnt = (s.buf b).refcnt + 1) ∧
      (bpin b s).st.buf b = { s.buf b with refcnt := ((bpin b s).st.buf b).refcnt } ∧
      (∀ x, x ≠ b → (bpin b s).st.buf x = s.buf x) ∧
      (bpin b s).st.head = s.head ∧
      (bpin b s).tr = [Event.acquire ((s.buf b).blockno % NBUCKETS),
        Event.release ((s.buf b).blockno % NBUCKETS)]) ∧
    ((bunpin b s).out = Outcome.unit ∧
      ((bunpin b s).st.buf b).refcnt = decr (s.buf b).refcnt ∧
      (0 < (s.buf b).refcnt → ((bunpin b s).st.buf b).refcnt + 1 = (s.buf b).refcnt) ∧
      ((s.buf b).refcnt = 0 → ((bunpin b s).st.buf b).refcnt = 4294967295) ∧
      (bunpin b s).st.buf b = { s.buf b with refcnt := ((bunpin b s).st.buf b).refcnt } ∧
      (∀ x, x ≠ b → (bunpin b s).st.buf x = s.buf x) ∧
      (bunpin b s).st.head = s.head ∧
      (bunpin b s).tr = [Event.acquire ((s.buf b).blockno % NBUCKETS),
        Event.release ((s.buf b).blockno % NBUCKETS)]) ∧
    ((s.buf b).refcnt < 4294967296 → (bunpin b (bpin b s).st).st = s) := by
  refine ⟨⟨rfl, by simp [bpin, Bcache.setBuf, incr], fun h => ?_, by simp [bpin, Bcache.setBuf],
      fun x hx => by simp [bpin, Bcache.setBuf, hx], rfl, rfl⟩,
    ⟨rfl, by simp [bunpin, Bcache.setBuf], fun h => ?_, fun h => ?_,
      by simp [bunpin, Bcache.setBuf], fun x hx => by simp [bunpin, Bcache.setBuf, hx], rfl, rfl⟩,
    fun h => ?_⟩
  · simp only [bpin, Bcache.setBuf, if_pos, incr]; omega
  · simp only [bunpin, Bcache.setBuf, if_pos]; rw [decr_pos h]; omega
  · simp [bunpin, Bcache.setBuf, h, decr]
  · cases s with
    | mk buf head =>
      simp only [bunpin, bpin, Bcache.setBuf, if_pos, Bcache.mk.injEq, and_true]
      funext j
      by_cases hj : j = b
      · subst hj
        simp only [if_pos]
        rw [decr_incr h]
      · simp [hj]

/-- C12 as stated fails.  After `binit` slot 0 is unreferenced, and `bunpin`
leaves its count at 4294967295. -/
theorem bunpin_wraps :
    ((binit 1).buf 0).refcnt = 0 ∧ ((bunpin 0 (binit 1)).st.buf 0).refcnt = 4294967295 := by
  decide

/-- C13 (persist).  A `bwrite` by the holder of the content lock of slot `b`
returns after exactly one device event, the write of slot `b`, and leaves the
cache as it was: every field of every slot and every list. -/
theorem bwrite_persists (p b : Nat) (s : Bcache) (hh : holdingsleep p b s = true) :
    (bwrite p b s).out = Outcome.unit ∧
    (bwrite p b s).tr = [Event.disk_rw b true] ∧
    (bwrite p b s).st = s := by
  simp [bwrite, hh]

/-- Witness of C13: process 1 holds slot 1 for block (0, 0) and writes it. -/
theorem bwrite_persists_witness :
    holdingsleep 1 1 (bget 1 0 0 (binit 2)).st = true ∧
    (bwrite 1 1 (bget 1 0 0 (binit 2)).st).out = Outcome.unit ∧
    (bwrite 1 1 (bget 1 0 0 (binit 2)).st).tr = [Event.disk_rw 1 true] ∧
    (bwrite 1 1 (bget 1 0 0 (binit 2)).st).st = (bget 1 0 0 (binit 2)).st :=
  ⟨by decide, bwrite_persists 1 1 (bget 1 0 0 (binit 2)).st (by decide)⟩
/-- No call adds a slot to the bucket lists or drops one from them. -/
theorem exec_members (disk : Nat → Nat → List Nat) (c : Call) (s : Bcache) (hI : Inv s)
    (x : Nat) : (∃ i, x ∈ (exec disk c s).st.head i) ↔ ∃ i, x ∈ s.head i := by
  have hmoved : ∀ (s1 : Bcache) (h b : Nat), Linked s1 → (∃ j, b ∈ s1.head j) →
      ((∃ i, x ∈ (pushHead (unlink s1 b) h b).head i) ↔ ∃ i, x ∈ s1.head i) := by
    intro s1 h b hL ⟨j, hj⟩
    constructor
    · rintro ⟨i, hi⟩
      rcases (mem_moved hL h b i x).1 hi with ⟨rfl, -⟩ | ⟨-, hx⟩
      · exact ⟨j, hj⟩
      · exact ⟨i, hx⟩
    · rintro ⟨i, hi⟩
      by_cases hxb : x = b
      · exact ⟨h, (mem_moved hL h b h x).2 (Or.inl ⟨hxb, rfl⟩)⟩
      · exact ⟨i, (mem_moved hL h b i x).2 (Or.inr ⟨hxb, hi⟩)⟩
  have hbget : ∀ p dev blockno,
      ((∃ i, x ∈ (bget p dev blockno s).st.head i) ↔ ∃ i, x ∈ s.head i) := by
    intro p dev blockno
    rcases bget_cases p dev blockno s with ⟨b, -, e⟩ | ⟨-, b, -, e⟩ |
        ⟨-, -, k, b, -, -, -, hb, tr2, e⟩ | ⟨-, -, tr2, e⟩
    · rw [e, lockAndReturn_head]; rfl
    · rw [e, lockAndReturn_head]; rfl
    · rw [e, lockAndReturn_head]
      have hmem : b ∈ s.head ((blockno % NBUCKETS + k) % NBUCKETS) := by
        simpa using List.mem_of_find?_eq_some hb
      exact hmoved (s.setBuf b (recycle dev blockno (s.buf b))) (blockno % NBUCKETS) b
        (linked_of_head rfl hI.1) ⟨_, hmem⟩
    · rw [e]
  cases c with
  | bget p dev blockno => exact hbget p dev blockno
  | bread p dev blockno =>
    show (∃ i, x ∈ (bread disk p dev blockno s).st.head i) ↔ _
    rw [(bread_shape disk p dev blockno s).2.1]
    exact hbget p dev blockno
  | bwrite p b => show (∃ i, x ∈ (bwrite p b s).st.head i) ↔ _; rw [bwrite_st]
  | brelse p b =>
    show (∃ i, x ∈ (brelse p b s).st.head i) ↔ _
    cases hh : holdingsleep p b s with
    | false => rw [brelse_not_held p b s hh]
    | true =>
      rw [brelse_st p b s hh]
      split
      · have hl : (s.buf b).locked = true := by
          simp only [holdingsleep, Bool.and_eq_true] at hh; exact hh.1
        have hm : b ∈ s.head ((s.buf b).blockno % NBUCKETS) := first_mem (hI.2.2 b hl)
        exact hmoved _ _ b (linked_of_head rfl hI.1) ⟨_, hm⟩
      · rfl
  | bpin b => rfl
  | bunpin b => rfl

theorem binit_threaded (nbuf : Nat) : Threaded nbuf (binit nbuf) := by
  intro b
  rw [(binit_eq nbuf).2]
  constructor
  · intro hb; exact ⟨0, by simpa using hb⟩
  · rintro ⟨i, hi⟩
    by_cases h0 : i = 0
    · simpa [h0] using hi
    · simp [h0] at hi

theorem run_threaded (disk : Nat → Nat → List Nat) (nbuf : Nat) :
    ∀ (t : List Call) (s s2 : Bcache), Inv s → Threaded nbuf s → run disk t s = some s2 →
      Inv s2 ∧ Threaded nbuf s2 := by
  intro t
  induction t with
  | nil => intro s s2 hI hT h; simp only [run, Option.some.injEq] at h; subst h; exact ⟨hI, hT⟩
  | cons c cs ih =>
    intro s s2 hI hT h
    simp only [run] at h
    split at h
    · exact ih _ _ (exec_keeps disk c s hI).1
        (fun b => (hT b).trans (exec_members disk c s hI b).symm) h
    · cases h

/-- C20 (home bucket).  In every cache that calls of bio.c build from `binit`,
and in the cache that any further call leaves, every slot hangs in the list of
bucket `blockno % NBUCKETS` and in no other list.  So the lock that `bpin`,
`bunpin` and `brelse` take, picked by `blockno % NBUCKETS`, is the lock of the
bucket that owns the slot, and `brelse` leaves every slot in the bucket it was
in. -/
theorem home_bucket (disk : Nat → Nat → List Nat) (nbuf : Nat) (t : List Call) (s : Bcache)
    (hrun : run disk t (binit nbuf) = some s) :
    (∀ b, b < nbuf → b ∈ s.head ((s.buf b).blockno % NBUCKETS) ∧
      ∀ i, b ∈ s.head i → i = (s.buf b).blockno % NBUCKETS) ∧
    (∀ (c : Call) (b : Nat), b < nbuf →
      b ∈ (exec disk c s).st.head (((exec disk c s).st.buf b).blockno % NBUCKETS) ∧
      ∀ i, b ∈ (exec disk c s).st.head i →
        i = ((exec disk c s).st.buf b).blockno % NBUCKETS) ∧
    (∀ b i, b ∈ s.head i →
      (bpin b s).tr = [Event.acquire i, Event.release i] ∧
      (bunpin b s).tr = [Event.acquire i, Event.release i] ∧
      ∀ p, holdingsleep p b s = true →
        (brelse p b s).tr = [Event.releasesleep b, Event.acquire i, Event.release i]) ∧
    (∀ p b x i, x ∈ (brelse p b s).st.head i ↔ x ∈ s.head i) := by
  have hs := run_threaded disk nbuf t (binit nbuf) s (binit_inv nbuf) (binit_threaded nbuf) hrun
  have key : ∀ s1 : Bcache, Inv s1 → Threaded nbuf s1 → ∀ b, b < nbuf →
      b ∈ s1.head ((s1.buf b).blockno % NBUCKETS) ∧
      ∀ i, b ∈ s1.head i → i = (s1.buf b).blockno % NBUCKETS := by
    intro s1 hI hT b hb
    obtain ⟨i, hi⟩ := (hT b).1 hb
    have hh := hI.2.1 i b hi
    exact ⟨hh ▸ hi, fun j hj => (hI.2.1 j b hj).symm⟩
  refine ⟨key s hs.1 hs.2, fun c => key _ (exec_keeps disk c s hs.1).1
    (fun b => (hs.2 b).trans (exec_members disk c s hs.1 b).symm), ?_, ?_⟩
  · intro b i hi
    have hh := hs.1.2.1 i b hi
    refine ⟨by rw [← hh]; rfl, by rw [← hh]; rfl, fun p hp => ?_⟩
    rw [← hh]
    simp [brelse, hp]
  · intro p b x i
    cases hh : holdingsleep p b s with
    | false => rw [brelse_not_held p b s hh]
    | true =>
      have hl : (s.buf b).locked = true := by
        simp only [holdingsleep, Bool.and_eq_true] at hh; exact hh.1
      have hb := first_mem (hs.1.2.2 b hl)
      rw [brelse_st p b s hh]
      split
      · have hk : ∀ X : Buf, X.blockno = (s.buf b).blockno →
            ((s.setBuf b X).buf b).blockno = (s.buf b).blockno := by
          intro X hX; simp [Bcache.setBuf, hX]
        rw [hk { s.buf b with locked := false, pid := 0, refcnt := decr (s.buf b).refcnt } rfl]
        refine Iff.trans (mem_moved (@linked_of_head s _ rfl hs.1.1) _ b i x) ?_
        constructor
        · rintro (⟨rfl, rfl⟩ | ⟨-, hx⟩)
          · exact hb
          · exact hx
        · intro hx
          by_cases hxb : x = b
          · subst hxb
            exact Or.inl ⟨rfl, hs.1.1.2 _ _ _ hx hb⟩
          · exact Or.inr ⟨hxb, hx⟩
      · rfl

/-- Witness of C20: after `bread(0, 14)` and `brelse` on a cache of three
slots. -/
theorem home_bucket_witness :
    run (fun _ _ => []) [Call.bread 1 0 14, Call.brelse 1 0] (binit 3)
      = some (brelse 1 0 (bread (fun _ _ => []) 1 0 14 (binit 3)).st).st ∧
    ∀ b, b < 3 →
      b ∈ (brelse 1 0 (bread (fun _ _ => []) 1 0 14 (binit 3)).st).st.head
        (((brelse 1 0 (bread (fun _ _ => []) 1 0 14 (binit 3)).st).st.buf b).blockno
          % NBUCKETS) ∧
      ∀ i, b ∈ (brelse 1 0 (bread (fun _ _ => []) 1 0 14 (binit 3)).st).st.head i →
        i = ((brelse 1 0 (bread (fun _ _ => []) 1 0 14 (binit 3)).st).st.buf b).blockno
          % NBUCKETS :=
  ⟨rfl, (home_bucket (fun _ _ => []) 3 [Call.bread 1 0 14, Call.brelse 1 0] _ rfl).1⟩
theorem bread_other (disk : Nat → Nat → List Nat) (p dev blockno : Nat) (s : Bcache) (b : Nat)
    (h : (bread disk p dev blockno s).out = Outcome.ret b) :
    (bget p dev blockno s).out = Outcome.ret b ∧
    ∀ x, x ≠ b → (bread disk p dev blockno s).st.buf x = s.buf x := by
  have ho : (bget p dev blockno s).out = Outcome.ret b := by
    rw [← (bread_shape disk p dev blockno s).1]; exact h
  refine ⟨ho, fun x hx => ?_⟩
  have hg := (bget_ret p dev blockno s b ho).2.2.2.2 x hx
  unfold bread
  simp only [ho]
  split
  · simp [Bcache.setBuf, hx, hg]
  · exact hg

/-- One returning call of a protocol run keeps every live or pinned slot the
first slot of its key. -/
theorem exec_live_first (disk : Nat → Nat → List Nat) (c : Call) (s : Bcache)
    (pins : Nat → Nat) (hI : Inv s)
    (hJ : ∀ x, ((s.buf x).refcnt ≠ 0 ∨ (s.buf x).valid ≠ 0 ∨ pins x ≠ 0) → First s x)
    (hret : (exec disk c s).returned = true) :
    (match c with
      | Call.bpin b => (s.buf b).refcnt ≠ 0 →
        ∀ x, (((exec disk c s).st.buf x).refcnt ≠ 0 ∨ ((exec disk c s).st.buf x).valid ≠ 0 ∨
          bump pins b x ≠ 0) → First (exec disk c s).st x
      | Call.bunpin b => pins b ≠ 0 →
        ∀ x, (((exec disk c s).st.buf x).refcnt ≠ 0 ∨ ((exec disk c s).st.buf x).valid ≠ 0 ∨
          drop pins b x ≠ 0) → First (exec disk c s).st x
      | _ =>
        ∀ x, (((exec disk c s).st.buf x).refcnt ≠ 0 ∨ ((exec disk c s).st.buf x).valid ≠ 0 ∨
          pins x ≠ 0) → First (exec disk c s).st x) := by
  have hvic : ∀ p dev blockno b x, (bget p dev blockno s).out = Outcome.ret b → x ≠ b →
      bgetVictim p dev blockno s ≠ some x := by
    intro p dev blockno b x ho hx hv
    unfold bgetVictim at hv
    split at hv
    · cases hv
    · rw [ho] at hv
      simp only [Option.some.injEq] at hv
      exact hx hv.symm
  cases c with
  | bget p dev blockno =>
    intro x hx
    obtain ⟨b, ho⟩ | ho := (returned_iff _).1 hret
    · by_cases hxb : x = b
      · subst hxb; exact (bget_first p dev blockno s x (Or.inl ho)).2.2
      · have hsame : (bget p dev blockno s).st.buf x = s.buf x :=
          (bget_ret p dev blockno s b ho).2.2.2.2 x hxb
        have hx2 : (exec disk (Call.bget p dev blockno) s).st.buf x = s.buf x := hsame
        rw [hx2] at hx
        exact ((bget_keeps p dev blockno s hI).2.1 x (hvic p dev blockno b x ho hxb)).2.2.2.2
          (hJ x hx)
    · exact absurd ho (bget_out_ne_unit p dev blockno s)
  | bread p dev blockno =>
    intro x hx
    obtain ⟨b, ho⟩ | ho := (returned_iff _).1 hret
    · have ho2 : (bread disk p dev blockno s).out = Outcome.ret b := ho
      have hb := bread_other disk p dev blockno s b ho2
      have hfc : ∀ y, First (bread disk p dev blockno s).st y ↔
          First (bget p dev blockno s).st y :=
        first_congr (bread_shape disk p dev blockno s).2.1
          (fun j => ⟨((bread_shape disk p dev blockno s).2.2 j).1,
            ((bread_shape disk p dev blockno s).2.2 j).2.1⟩)
      by_cases hxb : x = b
      · subst hxb
        exact (hfc x).2 (bget_first p dev blockno s x (Or.inl hb.1)).2.2
      · have hx2 : (exec disk (Call.bread p dev blockno) s).st.buf x = s.buf x := hb.2 x hxb
        rw [hx2] at hx
        exact (hfc x).2
          (((bget_keeps p dev blockno s hI).2.1 x (hvic p dev blockno b x hb.1 hxb)).2.2.2.2
            (hJ x hx))
    · have ho2 : (bread disk p dev blockno s).out = Outcome.unit := ho
      rw [(bread_shape disk p dev blockno s).1] at ho2
      exact absurd ho2 (bget_out_ne_unit p dev blockno s)
  | bwrite p b =>
    intro x hx
    have e : (exec disk (Call.bwrite p b) s).st = s := bwrite_st p b s
    rw [e] at hx ⊢
    exact hJ x hx
  | brelse p b =>
    intro x hx
    cases hh : holdingsleep p b s with
    | false =>
      have e : exec disk (Call.brelse p b) s = ⟨Outcome.panic Panic.brelse, s, []⟩ :=
        brelse_not_held p b s hh
      rw [e] at hret
      cases hret
    | true =>
      have hl : (s.buf b).locked = true := by
        simp only [holdingsleep, Bool.and_eq_true] at hh; exact hh.1
      have hk := (brelse_keeps p b s hI hh).2
      by_cases hxb : x = b
      · subst hxb; exact hk x (hI.2.2 x hl)
      · have hx2 : (exec disk (Call.brelse p b) s).st.buf x = s.buf x :=
          (brelse_held p b s hh).2.2.2.2.1 x hxb
        rw [hx2] at hx
        exact hk x (hJ x hx)
  | bpin b =>
    intro hb x hx
    have hk := (bpin_keeps b s hI).2
    by_cases hxb : x = b
    · subst hxb; exact hk x (hJ x (Or.inl hb))
    · have hx2 : (exec disk (Call.bpin b) s).st.buf x = s.buf x := by
        simp [exec, bpin, Bcache.setBuf, hxb]
      rw [hx2] at hx
      have hp : bump pins b x = pins x := by simp [bump, hxb]
      rw [hp] at hx
      exact hk x (hJ x hx)
  | bunpin b =>
    intro hb x hx
    have hk := (bunpin_keeps b s hI).2
    by_cases hxb : x = b
    · subst hxb; exact hk x (hJ x (Or.inr (Or.inr hb)))
    · have hx2 : (exec disk (Call.bunpin b) s).st.buf x = s.buf x := by
        simp [exec, bunpin, Bcache.setBuf, hxb]
      rw [hx2] at hx
      have hp : drop pins b x = pins x := by simp [drop, hxb]
      rw [hp] at hx
      exact hk x (hJ x hx)

theorem runProtocol_first (disk : Nat → Nat → List Nat) :
    ∀ (t : List Call) (s : Bcache) (pins : Nat → Nat) (s2 : Bcache) (pins2 : Nat → Nat),
      Inv s →
      (∀ x, ((s.buf x).refcnt ≠ 0 ∨ (s.buf x).valid ≠ 0 ∨ pins x ≠ 0) → First s x) →
      runProtocol disk t s pins = some (s2, pins2) →
      Inv s2 ∧
      ∀ x, ((s2.buf x).refcnt ≠ 0 ∨ (s2.buf x).valid ≠ 0 ∨ pins2 x ≠ 0) → First s2 x := by
  intro t
  induction t with
  | nil =>
    intro s pins s2 pins2 hI hJ h
    simp only [runProtocol, Option.some.injEq, Prod.mk.injEq] at h
    obtain ⟨rfl, rfl⟩ := h
    exact ⟨hI, hJ⟩
  | cons c cs ih =>
    intro s pins s2 pins2 hI hJ h
    simp only [runProtocol] at h
    split at h
    · rename_i hret
      have hI2 := (exec_keeps disk c s hI).1
      have hstep := exec_live_first disk c s pins hI hJ hret
      cases c with
      | bpin b =>
        simp only at h hstep
        split at h
        · cases h
        · rename_i hb
          exact ih _ _ _ _ hI2 (hstep hb) h
      | bunpin b =>
        simp only at h hstep
        split at h
        · cases h
        · rename_i hb
          exact ih _ _ _ _ hI2 (hstep hb) h
      | bget p dev blockno => exact ih _ _ _ _ hI2 hstep h
      | bread p dev blockno => exact ih _ _ _ _ hI2 hstep h
      | bwrite p b => exact ih _ _ _ _ hI2 hstep h
      | brelse p b => exact ih _ _ _ _ hI2 hstep h
    · cases h

/-- C19 (key uniqueness).  `binit` leaves every slot with the key (0, 0),
unreferenced and not valid.  In every cache that a protocol run builds from
there, two live slots (referenced, or valid) with the same device and block
number are one and the same slot: each live slot is the slot that the lookup
of its key finds. -/
theorem key_uniqueness (disk : Nat → Nat → List Nat) (nbuf : Nat) (t : List Call)
    (s : Bcache) (pins : Nat → Nat)
    (hrun : runProtocol disk t (binit nbuf) (fun _ => 0) = some (s, pins)) :
    (∀ x, ((binit nbuf).buf x).dev = 0 ∧ ((binit nbuf).buf x).blockno = 0 ∧
      ¬ Live (binit nbuf) x) ∧
    (∀ x, Live s x → First s x) ∧
    ∀ x y, Live s x → Live s y →
      (s.buf x).dev = (s.buf y).dev → (s.buf x).blockno = (s.buf y).blockno → x = y := by
  have h0 : ∀ x, (binit nbuf).buf x = ⟨0, 0, 0, false, 0, 0, []⟩ := by
    intro x; rw [(binit_eq nbuf).1]; rfl
  have hJ := (runProtocol_first disk t (binit nbuf) (fun _ => 0) s pins (binit_inv nbuf)
    (by intro x hx; rw [h0 x] at hx; simp at hx) hrun).2
  have hlive : ∀ x, Live s x → First s x := by
    intro x hx
    apply hJ x
    rcases hx with hx | hx
    · exact Or.inl (by omega)
    · exact Or.inr (Or.inl (by omega))
  refine ⟨fun x => ?_, hlive, fun x y hx hy hd hn => ?_⟩
  · rw [Live, h0 x]; simp
  · have fx := hlive x hx
    have fy := hlive y hy
    unfold First at fx fy
    rw [hd, hn, fy] at fx
    exact (Option.some.inj fx).symm

/-- Witness of C19: two blocks of the same bucket read into a cache of two
slots, the first one released again. -/
theorem key_uniqueness_witness :
    runProtocol (fun _ _ => []) [Call.bread 1 0 0, Call.bread 1 0 13, Call.brelse 1 1]
        (binit 2) (fun _ => 0)
      = some ((brelse 1 1 (bread (fun _ _ => []) 1 0 13
          (bread (fun _ _ => []) 1 0 0 (binit 2)).st).st).st, fun _ => 0) ∧
    ∀ x y,
      Live (brelse 1 1 (bread (fun _ _ => []) 1 0 13
        (bread (fun _ _ => []) 1 0 0 (binit 2)).st).st).st x →
      Live (brelse 1 1 (bread (fun _ _ => []) 1 0 13
        (bread (fun _ _ => []) 1 0 0 (binit 2)).st).st).st y →
      ((brelse 1 1 (bread (fun _ _ => []) 1 0 13
        (bread (fun _ _ => []) 1 0 0 (binit 2)).st).st).st.buf x).dev =
      ((brelse 1 1 (bread (fun _ _ => []) 1 0 13
        (bread (fun _ _ => []) 1 0 0 (binit 2)).st).st).st.buf y).dev →
      ((brelse 1 1 (bread (fun _ _ => []) 1 0 13
        (bread (fun _ _ => []) 1 0 0 (binit 2)).st).st).st.buf x).blockno =
      ((brelse 1 1 (bread (fun _ _ => []) 1 0 13
        (bread (fun _ _ => []) 1 0 0 (binit 2)).st).st).st.buf y).blockno → x = y :=
  ⟨rfl, (key_uniqueness (fun _ _ => []) 2
    [Call.bread 1 0 0, Call.bread 1 0 13, Call.brelse 1 1] _ _ rfl).2.2⟩
theorem steps_congr {f g : Node → Node} {e : Node} :
    ∀ {ns : List Node}, (∀ n ∈ ns, g n = f n) → Steps f e ns → Steps g e ns := by
  intro ns
  induction ns with
  | nil => intro _ _; trivial
  | cons a r ih =>
    intro h hs
    exact ⟨(h a (List.mem_cons_self a r)).trans hs.1,
      ih (fun n hn => h n (List.mem_cons_of_mem a hn)) hs.2⟩

theorem steps_append {f : Node → Node} {e : Node} :
    ∀ (xs ys : List Node), Steps f e (xs ++ ys) ↔ Steps f (ys.headD e) xs ∧ Steps f e ys := by
  intro xs
  induction xs with
  | nil => intro ys; simp [Steps]
  | cons a r ih =>
    intro ys
    have hd : (r ++ ys).headD e = r.headD (ys.headD e) := by cases r <;> rfl
    show (f a = (r ++ ys).headD e ∧ Steps f e (r ++ ys)) ↔
      (f a = r.headD (ys.headD e) ∧ Steps f (ys.headD e) r) ∧ Steps f e ys
    rw [hd, ih ys, and_assoc]

/-- The node after which a new last node is linked, or before the first. -/
theorem headD_reverse_map (l : List Nat) (e : Node) :
    (l.reverse.map Node.slot).headD e = ((e :: l.map Node.slot).getLast (by simp)) := by
  induction l using List.reverseRecOn with
  | nil => rfl
  | append_singleton r x _ => simp

/-- Taking node `c` out of a sequence of steps: the node before `c` is sent to
the node after `c`. -/
theorem steps_remove {f : Node → Node} {e : Node} (A B : List Node) (x c : Node)
    (hnd : (A ++ x :: c :: B).Nodup) (hs : Steps f e (A ++ x :: c :: B)) :
    Steps (fun j => if j = x then f c else f j) e (A ++ x :: B) := by
  rw [steps_append] at hs ⊢
  obtain ⟨hA, hx, hc, hB⟩ := hs
  have hx_notA : x ∉ A := by
    intro h
    have := (List.nodup_append.1 hnd).2.2
    exact this h (List.mem_cons_self x _)
  have hB_nd : ∀ n ∈ B, n ≠ x := by
    intro n hn hnx
    subst hnx
    have h2 := (List.nodup_append.1 hnd).2.1
    rw [List.nodup_cons] at h2
    exact h2.1 (List.mem_cons_of_mem c hn)
  refine ⟨steps_congr (fun n hn => ?_) hA, ?_, steps_congr (fun n hn => ?_) hB⟩
  · have : n ≠ x := fun h => hx_notA (h ▸ hn)
    simp [this]
  · simp only [if_pos]; exact hc
  · simp [hB_nd n hn]

theorem steps_remove_last {f : Node → Node} {e : Node} (L : List Node) (hL : L ≠ [])
    (c : Node) (B : List Node) (hnd : (L ++ c :: B).Nodup) (hs : Steps f e (L ++ c :: B)) :
    Steps (fun j => if j = L.getLast hL then f c else f j) e (L ++ B) := by
  have hsplit := List.dropLast_append_getLast hL
  have h1 : L ++ c :: B = L.dropLast ++ L.getLast hL :: c :: B := by
    conv_lhs => rw [← hsplit]
    simp
  have h2 : L ++ B = L.dropLast ++ L.getLast hL :: B := by
    conv_lhs => rw [← hsplit]
    simp
  rw [h1] at hnd hs
  rw [h2]
  exact steps_remove _ _ _ _ hnd hs

/-- Sending the last node of a sequence of steps to a new end. -/
theorem steps_relast {f g : Node → Node} {e e2 : Node} (L : List Node) (hL : L ≠ [])
    (hlast : g (L.getLast hL) = e2) (hg : ∀ n ∈ L.dropLast, g n = f n)
    (hs : Steps f e L) : Steps g e2 L := by
  have hsplit := List.dropLast_append_getLast hL
  rw [← hsplit] at hs ⊢
  rw [steps_append] at hs ⊢
  exact ⟨steps_congr hg hs.1, hlast, trivial⟩

theorem getLast_not_mem_dropLast {L : List Node} (hL : L ≠ []) (hnd : L.Nodup) :
    L.getLast hL ∉ L.dropLast := by
  have hsplit := List.dropLast_append_getLast hL
  rw [← hsplit] at hnd
  intro h
  exact (List.nodup_append.1 hnd).2.2 h (List.mem_singleton_self _)

theorem nodup_ring {i : Nat} {l : List Nat} (h : l.Nodup) :
    (Node.head i :: l.map Node.slot).Nodup := by
  rw [List.nodup_cons]
  refine ⟨by simp, ?_⟩
  exact (List.nodup_map_iff (fun a b hab => by cases hab; rfl)).2 h

theorem unlink_links (m : Mem) (c : Node) :
    (m.unlink c).fld = m.fld ∧
    (m.unlink c).next = (fun j => if j = m.prev c then m.next c else m.next j) ∧
    (m.unlink c).prev = (fun j => if j = m.next c then m.prev c else m.prev j) := by
  refine ⟨rfl, ?_, rfl⟩
  funext j
  simp only [Mem.unlink, Mem.setNext, Mem.setPrev]
  by_cases h : c = m.next c
  · rw [if_pos h]
  · rw [if_neg h]

theorem pushHead_links (m : Mem) (h : Nat) (c : Node) :
    (m.pushHead h c).fld = m.fld ∧
    (m.pushHead h c).next =
      (fun j => if j = Node.head h then c
        else if j = c then m.next (Node.head h) else m.next j) ∧
    (m.pushHead h c).prev =
      (fun j => if j = m.next (Node.head h) then c
        else if j = c then Node.head h else m.prev j) := by
  refine ⟨rfl, rfl, ?_⟩
  funext j
  simp only [Mem.pushHead, Mem.setNext, Mem.setPrev]
  by_cases h1 : Node.head h = c
  · rw [if_pos h1]
  · rw [if_neg h1]

/-- A walk along a sequence of steps visits the slots in order and leaves at
the first one that passes the test, or ends at the sentinel. -/
theorem scan_steps (f : Node → Node) (test : Node → Bool) (i : Nat) :
    ∀ (l : List Nat) (fuel : Nat), l.length < fuel →
      Steps f (Node.head i) (l.map Node.slot) →
      scan f test (Node.head i) fuel ((l.map Node.slot).headD (Node.head i)) =
        some ((l.find? (fun b => test (Node.slot b))).map Node.slot) := by
  intro l
  induction l with
  | nil =>
    intro fuel hf _
    cases fuel with
    | zero => cases hf
    | succ k => simp [scan]
  | cons x r ih =>
    intro fuel hf hs
    cases fuel with
    | zero => cases hf
    | succ k =>
      have hk : r.length < k := by simpa using hf
      simp only [List.map_cons, List.headD_cons, scan, List.find?_cons]
      rw [if_neg (by simp)]
      cases ht : test (Node.slot x) with
      | true => simp
      | false =>
        simp only [Bool.false_eq_true, if_false]
        rw [hs.1]
        exact ih k hk hs.2

theorem ring_next_head {m : Mem} {i : Nat} {l : List Nat} (h : Ring m i l) :
    m.next (Node.head i) = (l.map Node.slot).headD (Node.head i) ∧
    m.prev (Node.head i) = (l.reverse.map Node.slot).headD (Node.head i) :=
  ⟨h.1.1, h.2.1⟩

theorem ring_congr {m m2 : Mem} {i : Nat} {l : List Nat}
    (hn : ∀ n ∈ Node.head i :: l.map Node.slot, m2.next n = m.next n)
    (hp : ∀ n ∈ Node.head i :: l.map Node.slot, m2.prev n = m.prev n)
    (h : Ring m i l) : Ring m2 i l := by
  refine ⟨steps_congr hn h.1, steps_congr (fun n hm => hp n ?_) h.2⟩
  simpa using hm

/-- The neighbours of a slot on a ring are nodes of that ring. -/
theorem ring_neighbours {m : Mem} {i : Nat} {l1 l2 : List Nat} {b : Nat}
    (h : Ring m i (l1 ++ b :: l2)) :
    m.prev (Node.slot b) = (Node.head i :: l1.map Node.slot).getLast (by simp) ∧
    m.next (Node.slot b) = (Node.head i :: l2.reverse.map Node.slot).getLast (by simp) := by
  constructor
  · have hp := h.2
    have e : Node.head i :: (l1 ++ b :: l2).reverse.map Node.slot =
        (Node.head i :: l2.reverse.map Node.slot) ++
          (Node.slot b :: l1.reverse.map Node.slot) := by simp
    rw [e, steps_append] at hp
    rw [← headD_reverse_map]
    exact hp.2.1
  · have hn := h.1
    have e : Node.head i :: (l1 ++ b :: l2).map Node.slot =
        (Node.head i :: l1.map Node.slot) ++ (Node.slot b :: l2.map Node.slot) := by simp
    rw [e, steps_append] at hn
    rw [← headD_reverse_map, List.reverse_reverse]
    exact hn.2.1

theorem rep_unlink {m : Mem} {s : Bcache} (hR : Rep m s) (hL : Linked s) {b j : Nat}
    (hj : j < NBUCKETS) (hb : b ∈ s.head j) : Rep (m.unlink (Node.slot b)) (unlink s b) := by
  obtain ⟨l1, l2, hsplit⟩ := List.append_of_mem hb
  have hring := hR.2 j hj
  rw [hsplit] at hring
  have hnb := ring_neighbours hring
  have hndj : (l1 ++ b :: l2).Nodup := hsplit ▸ hL.1 j
  have hb1 : b ∉ l1 := fun h =>
    (List.nodup_append.1 hndj).2.2 h (List.mem_cons_self b l2)
  have hb2 : b ∉ l2 := (List.nodup_cons.1 (List.nodup_append.1 hndj).2.1).1
  have hd12 : ∀ x, x ∈ l1 → x ∈ l2 → False := fun x h1 h2 =>
    (List.nodup_append.1 hndj).2.2 h1 (List.mem_cons_of_mem b h2)
  have hx1 : m.prev (Node.slot b) ∈ Node.head j :: l1.map Node.slot := by
    rw [hnb.1]; exact List.getLast_mem _
  have hy1 : m.next (Node.slot b) ∈ Node.head j :: l2.map Node.slot := by
    rw [hnb.2]
    have h0 := List.getLast_mem (l := Node.head j :: l2.reverse.map Node.slot) (by simp)
    rw [List.mem_cons] at h0 ⊢
    rcases h0 with h0 | h0
    · exact Or.inl h0
    · right
      rw [List.mem_map] at h0 ⊢
      obtain ⟨y, hy, e⟩ := h0
      exact ⟨y, List.mem_reverse.1 hy, e⟩
  obtain ⟨-, hnext, hprev⟩ := unlink_links m (Node.slot b)
  refine ⟨fun x => hR.1 x, fun i hi => ?_⟩
  by_cases hij : i = j
  · subst hij
    have herase : (unlink s b).head i = l1 ++ l2 := by
      show (s.head i).erase b = l1 ++ l2
      rw [hsplit, List.erase_append_right _ hb1, List.erase_cons_head]
    rw [herase]
    constructor
    · have hn := hring.1
      have e : Node.head i :: (l1 ++ b :: l2).map Node.slot =
          (Node.head i :: l1.map Node.slot) ++ (Node.slot b :: l2.map Node.slot) := by simp
      have e2 : Node.head i :: (l1 ++ l2).map Node.slot =
          (Node.head i :: l1.map Node.slot) ++ l2.map Node.slot := by simp
      have hnd : ((Node.head i :: l1.map Node.slot) ++
          (Node.slot b :: l2.map Node.slot)).Nodup := e ▸ nodup_ring hndj
      rw [e] at hn
      rw [e2, hnext, hnb.1]
      exact steps_remove_last _ (by simp) _ _ hnd hn
    · have hp := hring.2
      have e : Node.head i :: (l1 ++ b :: l2).reverse.map Node.slot =
          (Node.head i :: l2.reverse.map Node.slot) ++
            (Node.slot b :: l1.reverse.map Node.slot) := by simp
      have e2 : Node.head i :: (l1 ++ l2).reverse.map Node.slot =
          (Node.head i :: l2.reverse.map Node.slot) ++ l1.reverse.map Node.slot := by simp
      have hnd : ((Node.head i :: l2.reverse.map Node.slot) ++
          (Node.slot b :: l1.reverse.map Node.slot)).Nodup := by
        rw [← e]
        exact nodup_ring (List.nodup_reverse.2 hndj)
      rw [e] at hp
      rw [e2, hprev, hnb.2]
      exact steps_remove_last _ (by simp) _ _ hnd hp
  · have hbi : b ∉ s.head i := fun h => hij (hL.2 i j b h hb)
    have herase : (unlink s b).head i = s.head i := List.erase_of_not_mem hbi
    rw [herase]
    have hdis : ∀ n ∈ Node.head i :: (s.head i).map Node.slot,
        n ∉ Node.head j :: (l1 ++ b :: l2).map Node.slot := by
      intro n hn hn2
      rw [← hsplit] at hn2
      simp only [List.mem_cons, List.mem_map] at hn hn2
      rcases hn with rfl | ⟨x, hx, rfl⟩
      · rcases hn2 with h | ⟨y, -, h⟩
        · cases h; exact hij rfl
        · cases h
      · rcases hn2 with h | ⟨y, hy, h⟩
        · cases h
        · cases h; exact hij (hL.2 i j x hx hy)
    refine ring_congr (fun n hn => ?_) (fun n hn => ?_) (hR.2 i hi)
    · rw [hnext]
      have : n ≠ m.prev (Node.slot b) := by
        intro h
        apply hdis n hn
        rw [h]
        simp only [List.mem_cons, List.mem_map, List.mem_append] at hx1 ⊢
        rcases hx1 with h | ⟨y, hy, h⟩
        · exact Or.inl h
        · exact Or.inr ⟨y, Or.inl hy, h⟩
      simp [this]
    · rw [hprev]
      have : n ≠ m.next (Node.slot b) := by
        intro h
        apply hdis n hn
        rw [h]
        simp only [List.mem_cons, List.mem_map, List.mem_append] at hy1 ⊢
        rcases hy1 with h | ⟨y, hy, h⟩
        · exact Or.inl h
        · exact Or.inr ⟨y, Or.inr (Or.inr hy), h⟩
      simp [this]

theorem rep_pushHead {m : Mem} {s : Bcache} (hR : Rep m s) (hL : Linked s) {b h : Nat}
    (hh : h < NBUCKETS) (hb : ∀ i, b ∉ s.head i) :
    Rep (m.pushHead h (Node.slot b)) (pushHead s h b) := by
  obtain ⟨-, hnext, hprev⟩ := pushHead_links m h (Node.slot b)
  have hring := hR.2 h hh
  have hz := (ring_next_head hring).1
  have hzlast : m.next (Node.head h) =
      (Node.head h :: (s.head h).reverse.map Node.slot).getLast (by simp) := by
    rw [hz, ← headD_reverse_map, List.reverse_reverse]
  have hzmem : m.next (Node.head h) ∈ Node.head h :: (s.head h).map Node.slot := by
    rw [hz]
    cases s.head h with
    | nil => simp
    | cons a r => simp
  have hzb : m.next (Node.head h) ≠ Node.slot b := by
    intro e
    rw [e] at hzmem
    simp only [List.mem_cons, List.mem_map] at hzmem
    rcases hzmem with h0 | ⟨y, hy, h0⟩
    · cases h0
    · cases h0; exact hb h hy
  refine ⟨fun x => hR.1 x, fun i hi => ?_⟩
  by_cases hih : i = h
  · subst hih
    have hhead : (pushHead s i b).head i = b :: s.head i := by
      simp [pushHead, Bcache.setHead]
    rw [hhead]
    constructor
    · show (m.pushHead i (Node.slot b)).next (Node.head i) = Node.slot b ∧
        (m.pushHead i (Node.slot b)).next (Node.slot b)
          = ((s.head i).map Node.slot).headD (Node.head i) ∧
        Steps (m.pushHead i (Node.slot b)).next (Node.head i) ((s.head i).map Node.slot)
      rw [hnext]
      refine ⟨by simp, by simp [hz], steps_congr (fun n hn => ?_) hring.1.2⟩
      simp only [List.mem_map] at hn
      obtain ⟨y, hy, rfl⟩ := hn
      have : y ≠ b := fun e => hb i (e ▸ hy)
      simp [this]
    · have e : Node.head i :: (b :: s.head i).reverse.map Node.slot =
          (Node.head i :: (s.head i).reverse.map Node.slot) ++ [Node.slot b] := by simp
      rw [e, steps_append]
      refine ⟨?_, ?_, trivial⟩
      · refine steps_relast _ (by simp) ?_ ?_ hring.2
        · rw [← hzlast, hprev]; simp
        · intro n hn
          have hne : n ≠ m.next (Node.head i) := by
            intro e2
            rw [e2, hzlast] at hn
            exact getLast_not_mem_dropLast (by simp)
              (nodup_ring (List.nodup_reverse.2 (hL.1 i))) hn
          have hmem := List.dropLast_subset _ hn
          have hnb : n ≠ Node.slot b := by
            intro e2
            rw [e2] at hmem
            simp only [List.mem_cons, List.mem_map, List.mem_reverse] at hmem
            rcases hmem with h0 | ⟨y, hy, h0⟩
            · cases h0
            · cases h0; exact hb i hy
          rw [hprev]
          simp [hne, hnb]
      · show (m.pushHead i (Node.slot b)).prev (Node.slot b) = Node.head i
        rw [hprev]
        simp [Ne.symm hzb]
  · have hhead : (pushHead s h b).head i = s.head i := by
      simp [pushHead, Bcache.setHead, hih]
    rw [hhead]
    have hdis : ∀ n ∈ Node.head i :: (s.head i).map Node.slot,
        n ≠ Node.head h ∧ n ≠ Node.slot b ∧ n ≠ m.next (Node.head h) := by
      intro n hn
      simp only [List.mem_cons, List.mem_map] at hn hzmem
      rcases hn with rfl | ⟨x, hx, rfl⟩
      · refine ⟨fun e => hih (by cases e; rfl), (fun e => by cases e), fun e => ?_⟩
        rw [← e] at hzmem
        rcases hzmem with h0 | ⟨y, -, h0⟩
        · cases h0; exact hih rfl
        · cases h0
      · refine ⟨(fun e => by cases e), (fun e => by cases e; exact hb i hx), fun e => ?_⟩
        rw [← e] at hzmem
        rcases hzmem with h0 | ⟨y, hy, h0⟩
        · cases h0
        · cases h0; exact hih (hL.2 i h x hx hy)
    refine ring_congr (fun n hn => ?_) (fun n hn => ?_) (hR.2 i hi)
    · rw [hnext]; simp [(hdis n hn).1, (hdis n hn).2.1]
    · rw [hprev]; simp [(hdis n hn).2.1, (hdis n hn).2.2]

theorem linked_unlink {s : Bcache} (hL : Linked s) (b : Nat) :
    Linked (unlink s b) ∧ ∀ i, b ∉ (unlink s b).head i := by
  refine ⟨⟨fun i => (hL.1 i).erase b, fun i j x hi hj =>
    hL.2 i j x (List.mem_of_mem_erase hi) (List.mem_of_mem_erase hj)⟩, fun i => ?_⟩
  exact fun h => ((hL.1 i).mem_erase_iff.1 h).1 rfl

theorem rep_moved {m : Mem} {s : Bcache} (hR : Rep m s) (hL : Linked s) {b j h : Nat}
    (hj : j < NBUCKETS) (hb : b ∈ s.head j) (hh : h < NBUCKETS) :
    Rep ((m.unlink (Node.slot b)).pushHead h (Node.slot b)) (pushHead (unlink s b) h b) :=
  rep_pushHead (rep_unlink hR hL hj hb) (linked_unlink hL b).1 hh (linked_unlink hL b).2

theorem rep_setFld {m : Mem} {s : Bcache} (hR : Rep m s) (b : Nat) (x : Buf) :
    Rep (m.setFld (Node.slot b) x) (s.setBuf b x) := by
  refine ⟨fun j => ?_, fun i hi => hR.2 i hi⟩
  by_cases hjb : j = b
  · simp [Mem.setFld, Bcache.setBuf, hjb]
  · have : Node.slot j ≠ Node.slot b := fun e => hjb (by cases e; rfl)
    simp [Mem.setFld, Bcache.setBuf, hjb, this, hR.1 j]

theorem rep_lockAndReturn {m : Mem} {s : Bcache} (hR : Rep m s) (p b : Nat)
    (tr : List Event) :
    Rep (Mem.lockAndReturn p (Node.slot b) m).st (lockAndReturn p b s tr).st ∧
    (Mem.lockAndReturn p (Node.slot b) m).out = (lockAndReturn p b s tr).out.toP := by
  unfold Mem.lockAndReturn lockAndReturn
  rw [hR.1 b]
  cases hl : (s.buf b).locked with
  | true => exact ⟨hR, rfl⟩
  | false => exact ⟨rep_setFld hR b _, rfl⟩

theorem scan_next {m : Mem} {s : Bcache} (hR : Rep m s) {i : Nat} (hi : i < NBUCKETS)
    (test : Node → Bool) (fuel : Nat) (hf : (s.head i).length < fuel) :
    scan m.next test (Node.head i) fuel (m.next (Node.head i)) =
      some (((s.head i).find? (fun b => test (Node.slot b))).map Node.slot) := by
  rw [(hR.2 i hi).1.1]
  exact scan_steps m.next test i (s.head i) fuel hf (hR.2 i hi).1.2

theorem scan_prev {m : Mem} {s : Bcache} (hR : Rep m s) {i : Nat} (hi : i < NBUCKETS)
    (test : Node → Bool) (fuel : Nat) (hf : (s.head i).length < fuel) :
    scan m.prev test (Node.head i) fuel (m.prev (Node.head i)) =
      some (((s.head i).reverse.find? (fun b => test (Node.slot b))).map Node.slot) := by
  rw [(hR.2 i hi).2.1]
  exact scan_steps m.prev test i (s.head i).reverse fuel (by simpa using hf) (hR.2 i hi).2.2

theorem rep_isFree {m : Mem} {s : Bcache} (hR : Rep m s) :
    (fun b => m.isFree (Node.slot b)) = isFree s := by
  funext b; simp [Mem.isFree, isFree, hR.1 b]

theorem rep_isHit {m : Mem} {s : Bcache} (hR : Rep m s) (dev blockno : Nat) :
    (fun b => m.isHit dev blockno (Node.slot b)) = isHit dev blockno s := by
  funext b; simp [Mem.isHit, isHit, hR.1 b]

theorem sim_bgetSteal {m : Mem} {s : Bcache} (hR : Rep m s) (hI : Inv s) (fuel : Nat)
    (hf : ∀ i, (s.head i).length < fuel) (p dev blockno h : Nat) (hh : h < NBUCKETS) :
    ∀ (rounds nb : Nat) (tr : List Event),
      Rep (Mem.bgetSteal fuel p dev blockno m h rounds nb).st
        (bgetSteal p dev blockno s h rounds nb tr).st ∧
      (Mem.bgetSteal fuel p dev blockno m h rounds nb).out =
        (bgetSteal p dev blockno s h rounds nb tr).out.toP := by
  intro rounds
  induction rounds with
  | zero => intro nb tr; exact ⟨hR, rfl⟩
  | succ k ih =>
    intro nb tr
    have hnb : (nb + 1) % NBUCKETS < NBUCKETS := Nat.mod_lt _ (by decide)
    rw [Mem.bgetSteal, bgetSteal]
    simp only []
    cases ha : acquire [h] ((nb + 1) % NBUCKETS) with
    | none => exact ⟨hR, rfl⟩
    | some held =>
      simp only []
      rw [scan_prev hR hnb _ fuel (hf _), rep_isFree hR]
      cases hfind : (s.head ((nb + 1) % NBUCKETS)).reverse.find? (isFree s) with
      | none =>
        simp only [Option.map_none']
        split
        · exact ih _ _
        · exact ⟨hR, rfl⟩
      | some b =>
        simp only [Option.map_some']
        have hmem : b ∈ s.head ((nb + 1) % NBUCKETS) := by
          simpa using List.mem_of_find?_eq_some hfind
        rw [hR.1 b]
        exact rep_lockAndReturn
          (rep_moved (rep_setFld hR b (recycle dev blockno (s.buf b)))
            (@linked_of_head s _ rfl hI.1) hnb hmem hh) p b _

theorem sim_bget {m : Mem} {s : Bcache} (hR : Rep m s) (hI : Inv s) (fuel : Nat)
    (hf : ∀ i, (s.head i).length < fuel) (p dev blockno : Nat) :
    Rep (Mem.bget fuel p dev blockno m).st (bget p dev blockno s).st ∧
    (Mem.bget fuel p dev blockno m).out = (bget p dev blockno s).out.toP := by
  have hh : blockno % NBUCKETS < NBUCKETS := Nat.mod_lt _ (by decide)
  unfold Mem.bget bget
  simp only []
  rw [scan_next hR hh _ fuel (hf _), rep_isHit hR]
  cases hhit : (s.head (blockno % NBUCKETS)).find? (isHit dev blockno s) with
  | some b =>
    simp only [Option.map_some']
    rw [hR.1 b]
    exact rep_lockAndReturn (rep_setFld hR b _) p b _
  | none =>
    simp only [Option.map_none']
    rw [scan_prev hR hh _ fuel (hf _), rep_isFree hR]
    cases hfree : (s.head (blockno % NBUCKETS)).reverse.find? (isFree s) with
    | some b =>
      simp only [Option.map_some']
      rw [hR.1 b]
      exact rep_lockAndReturn (rep_setFld hR b _) p b _
    | none =>
      simp only [Option.map_none']
      exact sim_bgetSteal hR hI fuel hf p dev blockno _ hh _ _ _

theorem sim_bread {m : Mem} {s : Bcache} (hR : Rep m s) (hI : Inv s) (fuel : Nat)
    (hf : ∀ i, (s.head i).length < fuel) (disk : Nat → Nat → List Nat)
    (p dev blockno : Nat) :
    Rep (Mem.bread fuel disk p dev blockno m).st (bread disk p dev blockno s).st ∧
    (Mem.bread fuel disk p dev blockno m).out = (bread disk p dev blockno s).out.toP := by
  have hg := sim_bget hR hI fuel hf p dev blockno
  unfold Mem.bread bread
  simp only []
  rw [hg.2]
  cases ho : (bget p dev blockno s).out with
  | ret b =>
    simp only [Outcome.toP]
    rw [hg.1.1 b]
    split
    · exact ⟨rep_setFld hg.1 b _, rfl⟩
    · exact ⟨hg.1, by rw [hg.2, ho]; rfl⟩
  | unit =>
    simp only [Outcome.toP]
    exact ⟨hg.1, by rw [hg.2, ho]; rfl⟩
  | sleep b =>
    simp only [Outcome.toP]
    exact ⟨hg.1, by rw [hg.2, ho]; rfl⟩
  | panic x =>
    simp only [Outcome.toP]
    exact ⟨hg.1, by rw [hg.2, ho]; rfl⟩
  | fuel =>
    simp only [Outcome.toP]
    exact ⟨hg.1, by rw [hg.2, ho]; rfl⟩

theorem sim_brelse {m : Mem} {s : Bcache} (hR : Rep m s) (hI : Inv s) (p b : Nat) :
    Rep (Mem.brelse p b m).st (brelse p b s).st ∧
    (Mem.brelse p b m).out = (brelse p b s).out.toP := by
  unfold Mem.brelse brelse holdingsleep
  simp only []
  rw [hR.1 b]
  cases hh : ((s.buf b).locked && decide ((s.buf b).pid = p)) with
  | false => exact ⟨hR, rfl⟩
  | true =>
    have hl : (s.buf b).locked = true := by
      simp only [Bool.and_eq_true] at hh; exact hh.1
    have hmem : b ∈ s.head ((s.buf b).blockno % NBUCKETS) := first_mem (hI.2.2 b hl)
    simp only [Bool.not_true, Bool.false_eq_true, if_false]
    refine ⟨?_, rfl⟩
    have e1 : (m.setFld (Node.slot b) { s.buf b with locked := false, pid := 0 }).fld
        (Node.slot b) = { s.buf b with locked := false, pid := 0 } := by
      simp [Mem.setFld]
    have e2 : (releasesleep b s).buf b = { s.buf b with locked := false, pid := 0 } := by
      simp [releasesleep, Bcache.setBuf]
    rw [e1, e2]
    have hR1 : Rep (m.setFld (Node.slot b) { s.buf b with locked := false, pid := 0 })
        (releasesleep b s) := rep_setFld hR b _
    have hR2 := rep_setFld hR1 b
      { ({ s.buf b with locked := false, pid := 0 } : Buf) with
        refcnt := decr ({ s.buf b with locked := false, pid := 0 } : Buf).refcnt }
    rw [hR2.1 b]
    split
    · exact rep_moved hR2 (@linked_of_head s _ rfl hI.1) (Nat.mod_lt _ (by decide)) hmem
        (Nat.mod_lt _ (by decide))
    · exact hR2

theorem sim_exec {m : Mem} {s : Bcache} (hR : Rep m s) (hI : Inv s) (fuel : Nat)
    (hf : ∀ i, (s.head i).length < fuel) (disk : Nat → Nat → List Nat) (c : Call) :
    Rep (Mem.exec fuel disk c m).st (exec disk c s).st ∧
    (Mem.exec fuel disk c m).out = (exec disk c s).out.toP := by
  cases c with
  | bget p dev blockno => exact sim_bget hR hI fuel hf p dev blockno
  | bread p dev blockno => exact sim_bread hR hI fuel hf disk p dev blockno
  | bwrite p b =>
    show Rep (Mem.bwrite p b m).st (bwrite p b s).st ∧
      (Mem.bwrite p b m).out = (bwrite p b s).out.toP
    unfold Mem.bwrite bwrite holdingsleep
    rw [hR.1 b]
    split
    · exact ⟨hR, rfl⟩
    · exact ⟨hR, rfl⟩
  | brelse p b => exact sim_brelse hR hI p b
  | bpin b =>
    show Rep (Mem.bpin b m).st (bpin b s).st ∧ (Mem.bpin b m).out = (bpin b s).out.toP
    unfold Mem.bpin bpin
    rw [hR.1 b]
    exact ⟨rep_setFld hR b _, rfl⟩
  | bunpin b =>
    show Rep (Mem.bunpin b m).st (bunpin b s).st ∧
      (Mem.bunpin b m).out = (bunpin b s).out.toP
    unfold Mem.bunpin bunpin
    rw [hR.1 b]
    exact ⟨rep_setFld hR b _, rfl⟩

/-- On a ring the step back undoes the step forward. -/
theorem steps_inverse {f g : Node → Node} {e : Node} (X : List Node)
    (hf : Steps f e (e :: X)) (hg : Steps g e (e :: X.reverse)) :
    ∀ n ∈ e :: X, f n ∈ e :: X ∧ g (f n) = n := by
  intro n hn
  obtain ⟨A, C, hsplit⟩ := List.append_of_mem hn
  have hfn : f n = C.headD e := by
    rw [hsplit, steps_append] at hf
    exact hf.2.1
  cases C with
  | nil =>
    rw [hfn]
    refine ⟨List.mem_cons_self _ _, ?_⟩
    show g e = n
    rw [hg.1]
    cases A with
    | nil =>
      simp only [List.nil_append, List.cons.injEq] at hsplit
      obtain ⟨rfl, rfl⟩ := hsplit
      rfl
    | cons a A2 =>
      simp only [List.cons_append, List.cons.injEq] at hsplit
      obtain ⟨rfl, rfl⟩ := hsplit
      simp
  | cons v C2 =>
    rw [hfn]
    refine ⟨by rw [hsplit]; simp, ?_⟩
    show g v = n
    cases A with
    | nil =>
      simp only [List.nil_append, List.cons.injEq] at hsplit
      obtain ⟨rfl, rfl⟩ := hsplit
      have e1 : e :: (v :: C2).reverse = (e :: C2.reverse) ++ [v] := by simp
      rw [e1, steps_append] at hg
      exact hg.2.1
    | cons a A2 =>
      simp only [List.cons_append, List.cons.injEq] at hsplit
      obtain ⟨rfl, rfl⟩ := hsplit
      have e1 : e :: (A2 ++ n :: v :: C2).reverse =
          (e :: C2.reverse) ++ (v :: n :: A2.reverse) := by simp
      rw [e1, steps_append] at hg
      exact hg.2.1

theorem length_le_of_nodup {l : List Nat} {n : Nat} (hnd : l.Nodup) (h : ∀ x ∈ l, x < n) :
    l.length ≤ n := by
  have := (List.subperm_of_subset hnd (fun x hx => List.mem_range.2 (h x hx))).length_le
  simpa using this

theorem threaded_length {nbuf : Nat} {s : Bcache} (hI : Inv s) (hT : Threaded nbuf s)
    (i : Nat) : (s.head i).length ≤ nbuf :=
  length_le_of_nodup (hI.1.1 i) (fun x hx => (hT x).2 ⟨i, hx⟩)

theorem wellFormed_of_rep {nbuf : Nat} {m : Mem} {s : Bcache} (hR : Rep m s) (hI : Inv s)
    (hT : Threaded nbuf s) : WellFormed nbuf m := by
  have hnode : ∀ i, i < NBUCKETS → ∀ n ∈ Node.head i :: (s.head i).map Node.slot,
      IsNode nbuf n := by
    intro i hi n hn
    simp only [List.mem_cons, List.mem_map] at hn
    rcases hn with rfl | ⟨x, hx, rfl⟩
    · exact hi
    · exact (hT x).2 ⟨i, hx⟩
  have hring : ∀ i, i < NBUCKETS → ∀ n ∈ Node.head i :: (s.head i).map Node.slot,
      IsNode nbuf (m.next n) ∧ IsNode nbuf (m.prev n) ∧
      m.prev (m.next n) = n ∧ m.next (m.prev n) = n := by
    intro i hi n hn
    have h1 := hR.2 i hi
    have hN : Steps m.next (Node.head i) (Node.head i :: (s.head i).map Node.slot) := h1.1
    have hP : Steps m.prev (Node.head i)
        (Node.head i :: ((s.head i).map Node.slot).reverse) := by
      rw [← List.map_reverse]; exact h1.2
    have hP2 : Steps m.prev (Node.head i)
        (Node.head i :: (((s.head i).map Node.slot).reverse)) := hP
    have hN2 : Steps m.next (Node.head i)
        (Node.head i :: ((((s.head i).map Node.slot).reverse).reverse)) := by
      rw [List.reverse_reverse]; exact hN
    have a := steps_inverse _ hN hP n hn
    have hn2 : n ∈ Node.head i :: ((s.head i).map Node.slot).reverse := by
      simp only [List.mem_cons, List.mem_reverse] at hn ⊢; exact hn
    have b := steps_inverse _ hP2 hN2 n hn2
    have hb1 : m.prev n ∈ Node.head i :: (s.head i).map Node.slot := by
      have := b.1
      simp only [List.mem_cons, List.mem_reverse] at this ⊢; exact this
    exact ⟨hnode i hi _ a.1, hnode i hi _ hb1, a.2, b.2⟩
  refine ⟨⟨s.head, fun i hi => hR.2 i hi, fun b hb => ?_, fun i b _ hb => (hT b).2 ⟨i, hb⟩⟩,
    fun n hn => ?_⟩
  · obtain ⟨i, hi⟩ := (hT b).1 hb
    have hlt : i < NBUCKETS := by
      rw [← hI.2.1 i b hi]; exact Nat.mod_lt _ (by decide)
    exact ⟨i, hlt, List.count_eq_one_of_mem (hI.1.1 i) hi,
      fun j _ hji hj => hji (hI.1.2 j i b hj hi)⟩
  · cases n with
    | head i => exact hring i hn _ (List.mem_cons_self _ _)
    | slot b =>
      obtain ⟨i, hi⟩ := (hT b).1 hn
      have hlt : i < NBUCKETS := by
        rw [← hI.2.1 i b hi]; exact Nat.mod_lt _ (by decide)
      exact hring i hlt _ (List.mem_cons_of_mem _ (List.mem_map_of_mem _ hi))

theorem sim_calls (disk : Nat → Nat → List Nat) (nbuf fuel : Nat) (hfuel : nbuf < fuel) :
    ∀ (t : List Call) (m : Mem) (s : Bcache), Rep m s → Inv s → Threaded nbuf s →
      Rep (t.foldl (fun m c => (Mem.exec fuel disk c m).st) m)
        (t.foldl (fun s c => (exec disk c s).st) s) ∧
      Inv (t.foldl (fun s c => (exec disk c s).st) s) ∧
      Threaded nbuf (t.foldl (fun s c => (exec disk c s).st) s) := by
  intro t
  induction t with
  | nil => intro m s hR hI hT; exact ⟨hR, hI, hT⟩
  | cons c cs ih =>
    intro m s hR hI hT
    have hf : ∀ i, (s.head i).length < fuel := fun i =>
      Nat.lt_of_le_of_lt (threaded_length hI hT i) hfuel
    exact ih _ _ (sim_exec hR hI fuel hf disk c).1 (exec_keeps disk c s hI).1
      (fun b => (hT b).trans (exec_members disk c s hI b).symm)

theorem binit_succ (n : Nat) : binit (n + 1) = pushHead (binit n) 0 n := by
  unfold binit
  rw [List.range_succ, List.foldl_append]
  rfl

theorem mem_binit_succ (n : Nat) (m0 : Mem) :
    Mem.binit (n + 1) m0 = (Mem.binit n m0).pushHead 0 (Node.slot n) := by
  unfold Mem.binit
  rw [List.range_succ, List.foldl_append]
  rfl

theorem mem_binit_sentinels (m0 : Mem) :
    ∀ k, (((List.range k).foldl
        (fun m i => (m.setPrev (Node.head i) (Node.head i)).setNext (Node.head i) (Node.head i))
        m0).fld = m0.fld) ∧
      ∀ i, i < k →
        ((List.range k).foldl
          (fun m i =>
            (m.setPrev (Node.head i) (Node.head i)).setNext (Node.head i) (Node.head i))
          m0).next (Node.head i) = Node.head i ∧
        ((List.range k).foldl
          (fun m i =>
            (m.setPrev (Node.head i) (Node.head i)).setNext (Node.head i) (Node.head i))
          m0).prev (Node.head i) = Node.head i := by
  intro k
  induction k with
  | zero => exact ⟨rfl, fun i hi => absurd hi (Nat.not_lt_zero i)⟩
  | succ k ih =>
    rw [List.range_succ, List.foldl_append]
    refine ⟨ih.1, fun i hi => ?_⟩
    simp only [List.foldl_cons, List.foldl_nil, Mem.setNext, Mem.setPrev]
    by_cases hik : i = k
    · subst hik; simp
    · have hlt : i < k := by omega
      have hne : Node.head i ≠ Node.head k := fun e => hik (by cases e; rfl)
      simp only [if_neg hne]
      exact ih.2 i hlt

theorem mem_binit_heads (m0 : Mem) :
    (Mem.binitHeads m0).fld = m0.fld ∧
    ∀ i, i < NBUCKETS → (Mem.binitHeads m0).next (Node.head i) = Node.head i ∧
      (Mem.binitHeads m0).prev (Node.head i) = Node.head i :=
  mem_binit_sentinels m0 NBUCKETS

theorem rep_binit (nbuf : Nat) (m0 : Mem) (hz : ∀ n, m0.fld n = ⟨0, 0, 0, false, 0, 0, []⟩) :
    Rep (Mem.binit nbuf m0) (binit nbuf) := by
  induction nbuf with
  | zero =>
    have h := mem_binit_heads m0
    have e : Mem.binit 0 m0 = Mem.binitHeads m0 := by
      unfold Mem.binit; rw [List.range_zero, List.foldl_nil]
    have e2 : binit 0 = bzero := by
      unfold binit; rw [List.range_zero, List.foldl_nil]
    rw [e, e2]
    generalize Mem.binitHeads m0 = m1 at h
    refine ⟨fun b => ?_, fun i hi => ?_⟩
    · rw [h.1, hz]; rfl
    · exact ⟨⟨(h.2 i hi).1, trivial⟩, ⟨(h.2 i hi).2, trivial⟩⟩
  | succ n ih =>
    rw [binit_succ, mem_binit_succ]
    refine rep_pushHead ih (binit_inv n).1 (by decide) (fun i hi => ?_)
    rw [(binit_eq n).2] at hi
    by_cases h0 : i = 0
    · simp [h0] at hi
    · simp [h0] at hi

theorem exec_out_ne_fuel (disk : Nat → Nat → List Nat) (c : Call) (s : Bcache) :
    (exec disk c s).out ≠ Outcome.fuel := by
  have hbget : ∀ p dev blockno, (bget p dev blockno s).out ≠ Outcome.fuel := by
    intro p dev blockno h
    rcases bget_cases p dev blockno s with ⟨b, -, e⟩ | ⟨-, b, -, e⟩ |
        ⟨-, -, k, b, -, -, -, -, tr2, e⟩ | ⟨-, -, tr2, e⟩
    · rw [e, lockAndReturn_out] at h; split at h <;> cases h
    · rw [e, lockAndReturn_out] at h; split at h <;> cases h
    · rw [e, lockAndReturn_out] at h; split at h <;> cases h
    · rw [e] at h; cases h
  cases c with
  | bget p dev blockno => exact hbget p dev blockno
  | bread p dev blockno =>
    show (bread disk p dev blockno s).out ≠ Outcome.fuel
    rw [(bread_shape disk p dev blockno s).1]
    exact hbget p dev blockno
  | bwrite p b =>
    show (bwrite p b s).out ≠ Outcome.fuel
    unfold bwrite; split <;> simp
  | brelse p b =>
    show (brelse p b s).out ≠ Outcome.fuel
    unfold brelse; simp only []; split <;> simp
  | bpin b => intro h; cases h
  | bunpin b => intro h; cases h

/-- C18 (partition invariant).  On the cache with its `next` and `prev`
pointers: `binit` links every slot into the ring of bucket 0 and leaves the
other rings empty.  After `binit` and after every sequence of calls that
follows, each carried out on the cache that the one before left (whether that
one returned, was suspended or stopped in a panic), every bucket list is a ring
through its sentinel, every one of the `nbuf` slots is on exactly one ring,
exactly once, and `next` and `prev` undo each other on every node.  Every walk
of a call along a list comes back to its sentinel: no call uses up a fuel
that exceeds the number of slots. -/
theorem partition_invariant (disk : Nat → Nat → List Nat) (nbuf fuel : Nat) (m0 : Mem)
    (t : List Call)
    (hz : ∀ n, m0.fld n = ⟨0, 0, 0, false, 0, 0, []⟩) (hfuel : nbuf < fuel) :
    (Ring (Mem.binit nbuf m0) 0 (List.range nbuf).reverse ∧
      ∀ i, 0 < i → i < NBUCKETS → Ring (Mem.binit nbuf m0) i []) ∧
    WellFormed nbuf (Mem.binit nbuf m0) ∧
    WellFormed nbuf (t.foldl (fun m c => (Mem.exec fuel disk c m).st) (Mem.binit nbuf m0)) ∧
    ∀ c, (Mem.exec fuel disk c
      (t.foldl (fun m c => (Mem.exec fuel disk c m).st) (Mem.binit nbuf m0))).out
        ≠ POutcome.fuel := by
  have hR0 := rep_binit nbuf m0 hz
  have hI0 := binit_inv nbuf
  have hT0 := binit_threaded nbuf
  obtain ⟨hR, hI, hT⟩ := sim_calls disk nbuf fuel hfuel t _ _ hR0 hI0 hT0
  refine ⟨⟨?_, fun i h0 hi => ?_⟩, wellFormed_of_rep hR0 hI0 hT0, wellFormed_of_rep hR hI hT,
    fun c => ?_⟩
  · have h := hR0.2 0 (by decide)
    rw [(binit_eq nbuf).2] at h
    simpa using h
  · have h := hR0.2 i hi
    rw [(binit_eq nbuf).2] at h
    have hne : i ≠ 0 := by omega
    simpa [hne] using h
  · have hf : ∀ i, ((t.foldl (fun s c => (exec disk c s).st) (binit nbuf)).head i).length
        < fuel := fun i => Nat.lt_of_le_of_lt (threaded_length hI hT i) hfuel
    rw [(sim_exec hR hI fuel hf disk c).2]
    intro h
    apply exec_out_ne_fuel disk c (t.foldl (fun s c => (exec disk c s).st) (binit nbuf))
    cases ho : (exec disk c (t.foldl (fun s c => (exec disk c s).st) (binit nbuf))).out <;>
      rw [ho] at h <;> first | rfl | cases h

/-- Witness of C18: on a cache of two slots `bread(0, 14)` takes slot 0 over
from bucket 0 into bucket 1, and `brelse` links it in again at the front. -/
theorem partition_invariant_witness :
    ((∀ n, (Mem.mk (fun _ => ⟨0, 0, 0, false, 0, 0, []⟩) (fun n => n) (fun n => n)).fld n
        = ⟨0, 0, 0, false, 0, 0, []⟩) ∧ 2 < 3) ∧
    WellFormed 2 ([Call.bread 1 0 14, Call.brelse 1 0].foldl
      (fun m c => (Mem.exec 3 (fun _ _ => []) c m).st)
      (Mem.binit 2 (Mem.mk (fun _ => ⟨0, 0, 0, false, 0, 0, []⟩) (fun n => n)
        (fun n => n)))) :=
  ⟨⟨fun _ => rfl, by decide⟩,
    (partition_invariant (fun _ _ => []) 2 3
      (Mem.mk (fun _ => ⟨0, 0, 0, false, 0, 0, []⟩) (fun n => n) (fun n => n))
      [Call.bread 1 0 14, Call.brelse 1 0] (fun _ => rfl) (by decide)).2.2.1⟩

end Bio
